import Mathlib

/-!
# Verification of the kubik task-orchestration engine

Shallow embedding of the core of the repository:

* `src/src/taskTree.ts` — the `TaskTree` scheduling kernel (cycle detection,
  `setTasks`, `markChanged`, `run`, `_onTaskComplete`, `_resetTask`,
  `resetAllTasks`, status derivation);
* `src/src/multimap.ts` — the `Multimap` container (as far as the kernel uses it);
* `src/src/utils.ts` — the `sha256` helper (modelled as a collision-free,
  injective encoding of the string list, matching the intended semantics of a
  cryptographic hash);
* `src/src/workspace.ts` — the `Project` process-lifecycle handlers
  (`requestBuild`, the `task_reset` listener, the IPC `message` and `close`
  handlers, `MSG_TASK_DONE`);
* `src/src/configLoader.ts` — `readSingleConfig`'s normalization and path
  resolution (Node's `path.resolve` / `path.dirname` are modelled just deep
  enough for the absolute-path facts stated about them).

JavaScript `Map`s are modelled as insertion-ordered association lists,
JavaScript `Set`s as first-occurrence-deduplicated lists.  Recursive graph
walks are given explicit fuel; the fuel chosen in each definition dominates
the recursion depth of the JavaScript original on the states that reach it
(the proofs about the walks carry the fuel accounting explicitly).

Events carry a ghost execution identifier (`execId`) and tasks a ghost object
identity (`objId`): the JavaScript engine distinguishes executions by object
identity of closures and task records, which the embedding makes explicit so
that per-execution statements ("this event belongs to that dispatch") can be
written down.  Neither ghost field influences any control-flow decision.
-/

namespace Kubik

/-- Model of `utils.ts`'s `sha256(data: string[])`.  The real function joins
the parts with a fixed separator and hashes; the model uses a length-prefixed
(hence injective) encoding, i.e. it treats the hash as collision-free. -/
def sha256 (parts : List String) : String :=
  String.join (parts.map (fun s => toString s.length ++ ":" ++ s))

/-- First-occurrence deduplication: the iteration order of a JavaScript `Set`
built by successive insertions (`seen` collects the elements kept so far). -/
def dedupFAux (seen : List String) : List String → List String
  | [] => []
  | x :: xs =>
    if x ∈ seen then dedupFAux seen xs
    else x :: dedupFAux (x :: seen) xs

def dedupF (l : List String) : List String :=
  dedupFAux [] l

/-- A `Multimap<string, string>` as handed to `setTasks` /
`findDependencyCycle`: the entry list it was built from
(`Multimap.fromEntries` / the constructor merge duplicate keys and
deduplicate values; `keysList`/`getAll` below realise exactly that merge). -/
def Multimap := List (String × List String)

/-- `multimap.keys()`: each key once, in first-insertion order. -/
def Multimap.keysList (m : Multimap) : List String :=
  dedupF (m.map Prod.fst)

/-- `multimap.getAll(k)`: the value set of `k` in insertion order. -/
def Multimap.getAll (m : Multimap) (k : String) : List String :=
  dedupF ((m.filter (fun e => e.1 = k)).map Prod.snd).flatten

/-- `[...multimap.values()]`: all value sets, flattened in key order. -/
def Multimap.valuesList (m : Multimap) : List String :=
  (Multimap.keysList m).flatMap (fun k => Multimap.getAll m k)

/-- `new Set([...tasks.values(), ...tasks.keys()])` in `setTasks`: the node
universe of the adjacency, values first. -/
def Multimap.taskIds (m : Multimap) : List String :=
  dedupF (Multimap.valuesList m ++ Multimap.keysList m)

/-- The adjacency relation of the multimap: `b` is a declared child of `a`. -/
def medge (m : Multimap) (a b : String) : Prop :=
  b ∈ Multimap.getAll m a

instance (m : Multimap) (a b : String) : Decidable (medge m a b) := by
  unfold medge; infer_instance

/-- The graph given by the multimap contains a (reachable) cycle: some node
has a nonempty edge path back to itself. -/
def hasCycle (m : Multimap) : Prop :=
  ∃ v, Relation.TransGen (medge m) v v

/-- The `for (const child of tasks.getAll(taskId))` loop of `findCycle`,
with early return on a found cycle; `f` is the recursive call at one fuel
level lower. -/
def findCycleChildrenWith
    (f : List String → List String → String → Option (List String) × List String) :
    List String → List String → List String → Option (List String) × List String
  | visited, _, [] => (none, visited)
  | visited, stack, c :: cs =>
    match f visited stack c with
    | (some cyc, vis) => (some cyc, vis)
    | (none, vis) => findCycleChildrenWith f vis stack cs

/-- Index of the first occurrence (the value `stackIndexes.get(taskId)`
holds: a node is pushed at most once while on the stack). -/
def firstIndexOf : List String → String → Option Nat
  | [], _ => none
  | x :: xs, a => if x = a then some 0 else (firstIndexOf xs a).map (· + 1)

/-- `TaskTree.findDependencyCycle`'s inner `findCycle(taskId, stack)`.
`stack` lists the grey nodes in push order (the JavaScript keeps the same
data as `stackIndexes` plus the array); `visited` is the shared visited set.
Returns the detected cycle (a slice of the stack) and the updated visited
set.  `fuel` bounds the recursion depth; the caller passes one more than the
number of nodes, which the accounting lemmas show is never exhausted. -/
def findCycleAux (m : Multimap) : Nat → List String → List String → String →
    Option (List String) × List String
  | 0, visited, _, _ => (none, visited)
  | fuel + 1, visited, stack, taskId =>
    match firstIndexOf stack taskId with
    | some i => (some (stack.drop i), visited)
    | none =>
      if taskId ∈ visited then (none, visited)
      else
        findCycleChildrenWith (findCycleAux m fuel) (taskId :: visited)
          (stack ++ [taskId]) (Multimap.getAll m taskId)

/-- The `for (const key of tasks.keys())` loop of `findDependencyCycle`. -/
def findCycleKeys (m : Multimap) (fuel : Nat) :
    List String → List String → Option (List String)
  | _, [] => none
  | visited, k :: ks =>
    match findCycleAux m fuel visited [] k with
    | (some cyc, _) => some cyc
    | (none, vis) => findCycleKeys m fuel vis ks

/-- `TaskTree.findDependencyCycle(tasks)`. -/
def findDependencyCycle (m : Multimap) : Option (List String) :=
  findCycleKeys m ((Multimap.taskIds m).length + 1) [] (Multimap.keysList m)

/-! ## The TaskTree state (`taskTree.ts`) -/

/-- The `Execution` record.  The JavaScript `abortController` has no pure
content; its `abort()` call only matters through the `task_reset` event and
the Project-side handlers, which are modelled separately.  `execId` is the
ghost dispatch identity (see the file header). -/
structure Execution where
  success : Option Bool
  taskVersion : String
  execId : Nat
  deriving DecidableEq, Repr

/-- The `Task` record.  `parents` and `children` store task ids; the
JavaScript object references always point into the tree's task map, so the
arena-by-id view is faithful.  `objId` is the ghost object identity of the
record (fresh at each `new` in `setTasks`). -/
structure Task where
  taskId : String
  parents : List String
  children : List String
  subtreeSha : String
  generation : Nat
  execution : Option Execution
  objId : Nat
  deriving DecidableEq, Repr

inductive TreeStatus where
  | ok | fail | pending | running
  deriving DecidableEq, Repr

inductive TaskStatus where
  | na | pending | running | ok | fail
  deriving DecidableEq, Repr

/-- The events the tree emits.  `taskStarted` / `taskFinished` / `taskReset`
additionally carry the ghost `execId` of the execution they concern (in the
JavaScript they carry the task id only). -/
inductive Event where
  | treeStatusChanged (status : TreeStatus)
  | taskStarted (taskId : String) (execId : Nat)
  | taskFinished (taskId : String) (execId : Nat)
  | taskReset (taskId : String) (execId : Nat)
  deriving DecidableEq, Repr

/-- The mutable state of a `TaskTree` instance.  `tasks` is the insertion
ordered `Map` of task records, `roots` the sorted root list, `status` the
current tree status and `jobs` the `TaskTreeOptions.jobs` bound (the claims
under scrutiny concern finite bounds, so it is a `Nat`).  `nextExecId` and
`nextObjId` are the ghost counters backing the ghost identities. -/
structure TaskTree where
  tasks : List (String × Task)
  roots : List String
  status : TreeStatus
  jobs : Nat
  nextExecId : Nat
  nextObjId : Nat
  deriving DecidableEq, Repr

/-- A fresh tree, as produced by the constructor. -/
def TaskTree.init (jobs : Nat) : TaskTree :=
  { tasks := [], roots := [], status := TreeStatus.ok, jobs := jobs,
    nextExecId := 0, nextObjId := 0 }

/-! ### Association-list primitives for the task `Map` -/

/-- `map.get(k)` (first — and with nodup keys, only — binding). -/
def alookup (m : List (String × Task)) (k : String) : Option Task :=
  match m with
  | [] => none
  | (k', t) :: rest => if k' = k then some t else alookup rest k

/-- Update the binding of `k` in place (JavaScript mutation of the stored
object); entries with other keys are untouched. -/
def aupdate (m : List (String × Task)) (k : String) (f : Task → Task) :
    List (String × Task) :=
  m.map (fun kv => if kv.1 = k then (kv.1, f kv.2) else kv)

/-- `map.set(k, t)` for a key known to be absent: append preserving order. -/
def aappend (m : List (String × Task)) (k : String) (t : Task) :
    List (String × Task) :=
  m ++ [(k, t)]

/-- `[...map.values()]` in insertion order. -/
def avalues (m : List (String × Task)) : List Task :=
  m.map Prod.snd

/-! ### Status helpers -/

/-- `taskVersion(task)` — hash of the generation (as string) and the subtree
sha. -/
def taskVersion (t : Task) : String :=
  sha256 [toString t.generation, t.subtreeSha]

/-- `isSuccessfulCurrentTask(task)`: the execution exists, was dispatched at
the current task version, and succeeded. -/
def isSuccessfulCurrent (t : Task) : Bool :=
  match t.execution with
  | some e => taskVersion t = e.taskVersion && e.success = some true
  | none => false

/-- A task counts against the parallelism budget while its execution exists
and its outcome is undecided (`_tasksBeingRun`). -/
def isInflight (t : Task) : Bool :=
  match t.execution with
  | some e => e.success = none
  | none => false

/-- The filter of `_runnableTasks` / `_computeTreeStatus`: no execution, and
every child is a successful current task (a dangling child id cannot occur in
states built by `setTasks`; it is mapped to `false`). -/
def isRunnable (m : List (String × Task)) (t : Task) : Bool :=
  t.execution = none &&
    t.children.all (fun c =>
      match alookup m c with
      | some ct => isSuccessfulCurrent ct
      | none => false)

def runnableTasks (m : List (String × Task)) : List Task :=
  (avalues m).filter (isRunnable m)

def tasksBeingRun (m : List (String × Task)) : List Task :=
  (avalues m).filter isInflight

/-- `_setTreeStatus`: record the new status, emitting `tree_status_changed`
only on an actual transition. -/
def setTreeStatus (s : TaskTree) (st : TreeStatus) : TaskTree × List Event :=
  if s.status = st then (s, [])
  else ({ s with status := st }, [Event.treeStatusChanged st])

/-- `_computeTreeStatus`. -/
def computeTreeStatus (s : TaskTree) : TaskTree × List Event :=
  let runnable := runnableTasks s.tasks
  let beingRun := tasksBeingRun s.tasks
  if runnable.isEmpty && beingRun.isEmpty then
    let hasFailed := (avalues s.tasks).any
      (fun t => match t.execution with
        | some e => e.success = some false
        | none => false)
    setTreeStatus s (if hasFailed then TreeStatus.fail else TreeStatus.ok)
  else
    setTreeStatus s (if beingRun.isEmpty then TreeStatus.pending
                     else TreeStatus.running)

/-- `taskStatus(taskId)`.  The JavaScript asserts that the task exists;
`none` models the thrown assertion. -/
def taskStatusFn (s : TaskTree) (taskId : String) : Option TaskStatus :=
  match alookup s.tasks taskId with
  | none => none
  | some t =>
    some (match t.execution with
      | none =>
        if s.status = TreeStatus.ok || s.status = TreeStatus.fail then
          TaskStatus.na
        else TaskStatus.pending
      | some e =>
        match e.success with
        | none => TaskStatus.running
        | some true => TaskStatus.ok
        | some false => TaskStatus.fail)

/-- `_resetTask(task)`: drop the execution (firing its abort controller,
whose Project-side effect is modelled separately) and emit `task_reset`;
a task without execution is left alone silently. -/
def resetTask (t : Task) : Task × List Event :=
  match t.execution with
  | none => (t, [])
  | some e => ({ t with execution := none }, [Event.taskReset t.taskId e.execId])

/-! ### `setTasks` -/

/-- `setTasks`, phase 1: drop tasks absent from the new id set, resetting
their executions on the way (map iteration order). -/
def removeAbsent (keep : List String) :
    List (String × Task) → List (String × Task) × List Event
  | [] => ([], [])
  | (k, t) :: rest =>
    let rec' := removeAbsent keep rest
    if k ∈ keep then ((k, t) :: rec'.1, rec'.2)
    else (rec'.1, (resetTask t).2 ++ rec'.2)

/-- The record built by `setTasks` for a previously unknown task id. -/
def freshTask (id : String) (objId : Nat) : Task :=
  { taskId := id, parents := [], children := [], subtreeSha := "",
    generation := 0, execution := none, objId := objId }

/-- `setTasks`, phase 2: create missing task records (fresh ghost object
ids, appended in id order) and clear every task's `children`/`parents`. -/
def ensureTasks (ids : List String) (m : List (String × Task))
    (nextObjId : Nat) : List (String × Task) × Nat :=
  match ids with
  | [] => (m, nextObjId)
  | id :: rest =>
    let m1 := if (alookup m id).isSome then m
      else aappend m id (freshTask id nextObjId)
    let n1 := if (alookup m id).isSome then nextObjId else nextObjId + 1
    ensureTasks rest
      (aupdate m1 id (fun t => { t with children := [], parents := [] })) n1

/-- `setTasks`, phase 3 inner loop: wire one parent's edge list. -/
def addLinksOfKey (k : String) (cs : List String)
    (m : List (String × Task)) : List (String × Task) :=
  match cs with
  | [] => m
  | c :: rest =>
    let m := aupdate m k (fun t => { t with children := t.children ++ [c] })
    let m := aupdate m c (fun t => { t with parents := t.parents ++ [k] })
    addLinksOfKey k rest m

/-- `setTasks`, phase 3: `for (const [taskId, children] of tasks)`. -/
def addLinks (A : Multimap) (ks : List String) (m : List (String × Task)) :
    List (String × Task) :=
  match ks with
  | [] => m
  | k :: rest => addLinks A rest (addLinksOfKey k (Multimap.getAll A k) m)

/-- String insertion sort realising the `(a, b) => a.taskId < b.taskId ? -1 : 1`
comparator (all sorted lists here have pairwise distinct elements). -/
def insertLt (x : String) : List String → List String
  | [] => [x]
  | y :: ys => if x < y then x :: y :: ys else y :: insertLt x ys

def sortByLt (l : List String) : List String :=
  match l with
  | [] => []
  | x :: xs => insertLt x (sortByLt xs)

/-- The `for (const child of task.children)` loop of the subtree-sha DFS;
`f` is the recursive call at one fuel level lower. -/
def shaDfsChildrenWith
    (f : String → List (String × Task) → List (String × Task) × List Event) :
    List String → List (String × Task) → List (String × Task) × List Event
  | [], m => (m, [])
  | c :: rest, m =>
    let r1 := f c m
    let r2 := shaDfsChildrenWith f rest r1.1
    (r2.1, r1.2 ++ r2.2)

/-- `setTasks`, phase 5: the subtree-sha DFS.  Sorts the node's children in
place, recurses, recomputes the subtree sha and resets the task's execution
if the sha changed.  The recursion depth of the JavaScript original is the
graph depth; `setTasks` calls this with fuel exceeding the node count, which
the lemmas below show is never exhausted on the (acyclic) graphs that reach
this phase. -/
def shaDfs : Nat → String → List (String × Task) →
    List (String × Task) × List Event
  | 0, _, m => (m, [])
  | fuel + 1, v, m =>
    match alookup m v with
    | none => (m, [])
    | some t =>
      let sorted := sortByLt t.children
      let mc := shaDfsChildrenWith (shaDfs fuel) sorted
        (aupdate m v (fun t => { t with children := sorted }))
      match alookup mc.1 v with
      | none => mc
      | some t' =>
        let childShas := t'.children.map (fun c =>
          match alookup mc.1 c with
          | some ct => ct.subtreeSha
          | none => "")
        let sha := sha256 (t'.taskId :: childShas)
        if t'.subtreeSha = sha then mc
        else
          (aupdate mc.1 v (fun _ => (resetTask { t' with subtreeSha := sha }).1),
           mc.2 ++ (resetTask { t' with subtreeSha := sha }).2)

/-- The `for (const root of this._roots)` loop running the subtree-sha DFS. -/
def shaDfsRoots (fuel : Nat) (rs : List String) (m : List (String × Task)) :
    List (String × Task) × List Event :=
  match rs with
  | [] => (m, [])
  | r :: rest =>
    let r1 := shaDfs fuel r m
    let r2 := shaDfsRoots fuel rest r1.1
    (r2.1, r1.2 ++ r2.2)

/-- `setTasks(tasks)`.  Returns the detected cycle (the thrown `CycleError`
payload), the state after the call and the events emitted during it; when a
cycle is detected the state is returned untouched and no event is emitted,
exactly as the JavaScript throws before any mutation. -/
def setTasks (A : Multimap) (s : TaskTree) :
    Option (List String) × TaskTree × List Event :=
  match findDependencyCycle A with
  | some cyc => (some cyc, s, [])
  | none =>
    let ids := Multimap.taskIds A
    let rm := removeAbsent ids s.tasks
    let en := ensureTasks ids rm.1 s.nextObjId
    let ml := addLinks A (Multimap.keysList A) en.1
    let roots := sortByLt (((avalues ml).filter
      (fun t => t.parents.isEmpty)).map Task.taskId)
    let sh := shaDfsRoots (ml.length + 1) roots ml
    let cs := computeTreeStatus
      { s with tasks := sh.1, roots := roots, nextObjId := en.2 }
    (none, cs.1, rm.2 ++ sh.2 ++ cs.2)

/-! ### `markChanged` -/

/-- The `for (const parent of task.parents)` loop of `markChanged`'s dfs;
`f` is the recursive call at one fuel level lower.  Events are returned
fresh (callers concatenate), in emission order. -/
def markDfsParentsWith
    (f : List (String × Task) → List String → String →
      List (String × Task) × List String × List Event) :
    List (String × Task) → List String → List String →
    List (String × Task) × List String × List Event
  | m, visited, [] => (m, visited, [])
  | m, visited, p :: ps =>
    let r := f m visited p
    let rest := markDfsParentsWith f r.1 r.2.1 ps
    (rest.1, rest.2.1, r.2.2 ++ rest.2.2)

/-- `markChanged`'s inner `dfs(task)`: bump the generation, reset the
execution and recurse into the parents, guarded by the visited set.  The
recursion depth is bounded by the number of unvisited tasks; `markChanged`
passes fuel exceeding the task count. -/
def markDfs : Nat → List (String × Task) → List String →
    String → List (String × Task) × List String × List Event
  | 0, m, visited, _ => (m, visited, [])
  | fuel + 1, m, visited, id =>
    if id ∈ visited then (m, visited, [])
    else
      match alookup m id with
      | none => (m, visited, [])
      | some t =>
        let r := resetTask { t with generation := t.generation + 1 }
        let rest := markDfsParentsWith (markDfs fuel)
          (aupdate m id (fun _ => r.1)) (id :: visited) t.parents
        (rest.1, rest.2.1, r.2 ++ rest.2.2)

/-- `markChanged(taskId)`: silently ignores unknown ids, otherwise bumps the
task and its transitive parents and recomputes the tree status. -/
def markChangedFn (s : TaskTree) (taskId : String) : TaskTree × List Event :=
  match alookup s.tasks taskId with
  | none => (s, [])
  | some _ =>
    let r := markDfs (s.tasks.length + 1) s.tasks [] taskId
    let cs := computeTreeStatus { s with tasks := r.1 }
    (cs.1, r.2.2 ++ cs.2)

/-! ### `run` and the completion protocol -/

/-- The task update performed at dispatch: install a fresh execution with
undecided outcome, capturing the task version. -/
def dispatchUpdate (ver : String) (nid : Nat) (t0 : Task) : Task :=
  { t0 with execution := some { success := none, taskVersion := ver, execId := nid } }

/-- The dispatch loop of `run()`: assign a fresh execution to each picked
task (snapshot order), emitting `task_started` before the run callback is
invoked (the callback itself lives on the Workspace side). -/
def dispatchTasks (picked : List Task) (m : List (String × Task))
    (nextExecId : Nat) :
    List (String × Task) × Nat × List Event :=
  match picked with
  | [] => (m, nextExecId, [])
  | t :: rest =>
    let m1 := aupdate m t.taskId (dispatchUpdate (taskVersion t) nextExecId)
    let r := dispatchTasks rest m1 (nextExecId + 1)
    (r.1, r.2.1, Event.taskStarted t.taskId nextExecId :: r.2.2)

/-- `run()`. -/
def runFn (s : TaskTree) : TaskTree × List Event :=
  let beingRun := tasksBeingRun s.tasks
  let runnable := runnableTasks s.tasks
  if s.jobs ≤ beingRun.length || runnable.isEmpty then
    computeTreeStatus s
  else
    let st := setTreeStatus s TreeStatus.running
    let picked := runnable.take (st.1.jobs - beingRun.length)
    let d := dispatchTasks picked st.1.tasks st.1.nextExecId
    ({ st.1 with tasks := d.1, nextExecId := d.2.1 }, st.2 ++ d.2.2)

/-- The task update performed by an effective `_onTaskComplete` call:
record the outcome on the current execution. -/
def recordOutcome (e : Execution) (ok : Bool) (t0 : Task) : Task :=
  { t0 with execution := some { e with success := some ok } }

/-- `_onTaskComplete(task, taskVersion, success)`.  The JavaScript closure is
bound to a task object and the version string captured at dispatch; the
model addresses the object through its ghost `objId` (a stale closure whose
record was dropped — and possibly re-created — never matches).  The call is
ignored unless the bound record still holds an execution dispatched at the
captured version whose outcome is still unset. -/
def onTaskComplete (s : TaskTree) (objId : Nat) (taskId : String)
    (version : String) (success : Bool) : TaskTree × List Event :=
  match alookup s.tasks taskId with
  | none => (s, [])
  | some t =>
    if t.objId = objId then
      match t.execution with
      | none => (s, [])
      | some e =>
        if e.taskVersion = version && e.success = none then
          ({ s with tasks := aupdate s.tasks taskId (recordOutcome e success) },
           [Event.taskFinished taskId e.execId])
        else (s, [])
    else (s, [])

/-- The `for (const node of this._tasks.values())` loop of `resetAllTasks`. -/
def resetEntries : List (String × Task) → List (String × Task) × List Event
  | [] => ([], [])
  | (k, t) :: rest =>
    let r := resetEntries rest
    ((k, (resetTask t).1) :: r.1, (resetTask t).2 ++ r.2)

/-- `resetAllTasks()`. -/
def resetAllTasks (s : TaskTree) : TaskTree × List Event :=
  let r := resetEntries s.tasks
  let cs := computeTreeStatus { s with tasks := r.1 }
  (cs.1, r.2 ++ cs.2)

/-! ### Operation traces

The engine mutates its state only through the public operations below;
completions arrive as separate turns of the cooperative event loop (the
`Promise.resolve().then(() => this.run())` in `_onTaskComplete` shows up as a
later `run` operation in the trace).  The `onComplete` operation carries the
data captured by the dispatched closure; allowing arbitrary such values only
widens the statements proved over all traces. -/

inductive Op where
  | setTasksOp (A : Multimap)
  | markChangedOp (id : String)
  | runOp
  | onCompleteOp (objId : Nat) (taskId : String) (version : String) (ok : Bool)
  | resetAllOp

def stepOp (s : TaskTree) : Op → TaskTree × List Event
  | Op.setTasksOp A => (setTasks A s).2
  | Op.markChangedOp id => markChangedFn s id
  | Op.runOp => runFn s
  | Op.onCompleteOp objId taskId version ok => onTaskComplete s objId taskId version ok
  | Op.resetAllOp => resetAllTasks s

/-- Run a list of operations, accumulating the emitted events in order. -/
def runOps (s : TaskTree) : List Op → TaskTree × List Event
  | [] => (s, [])
  | op :: ops =>
    let r := stepOp s op
    let r' := runOps r.1 ops
    (r'.1, r.2 ++ r'.2)

/-! ### Per-execution event bookkeeping -/

/-- Classify the events of a trace that belong to execution `eid`: `true`
for its `task_finished`, `false` for its `task_reset`, in emission order. -/
def finResetSeq (tr : List Event) (eid : Nat) : List Bool :=
  tr.filterMap (fun ev =>
    match ev with
    | Event.taskFinished _ i => if i = eid then some true else none
    | Event.taskReset _ i => if i = eid then some false else none
    | _ => none)

/-- The executions currently stored in the task map, projected to
`(execId, outcome)` pairs in entry order. -/
def execSucc (m : List (String × Task)) : List (Nat × Option Bool) :=
  m.filterMap (fun kv => kv.2.execution.map (fun e => (e.execId, e.success)))

/-- The per-execution protocol invariant tying the stored executions, the
fresh-id counter and the event trace together: stored ids are below the
counter and pairwise distinct; an id never handed out has no events; a
stored undecided execution has no events yet, a decided one exactly one
`task_finished`; an id no longer stored has emitted events forming one of
the four completed shapes. -/
def InvL (l : List (Nat × Option Bool)) (nid : Nat) (tr : List Event) : Prop :=
  (∀ p ∈ l, p.1 < nid) ∧
  (l.map Prod.fst).Nodup ∧
  (∀ eid, nid ≤ eid → finResetSeq tr eid = []) ∧
  (∀ p ∈ l, (p.2 = none → finResetSeq tr p.1 = []) ∧
    (∀ b, p.2 = some b → finResetSeq tr p.1 = [true])) ∧
  (∀ eid, eid < nid → (∀ p ∈ l, p.1 ≠ eid) →
    finResetSeq tr eid = [] ∨ finResetSeq tr eid = [false] ∨
    finResetSeq tr eid = [true] ∨ finResetSeq tr eid = [true, false])

/-- The operations of the trace refuting the literal reading of the
finished/reset dichotomy: set up a single task, dispatch it, complete it
successfully, then mark it changed — the one dispatched execution emits
`task_finished` and later `task_reset`. -/
def c6ops : List Op :=
  [Op.setTasksOp [("a", [])], Op.runOp,
   Op.onCompleteOp 0 "a" (sha256 [toString 0, sha256 ["a"]]) true,
   Op.markChangedOp "a"]

/-! ### Configuration loader (`configLoader.ts`)

The probing plumbing of `readSingleConfig` (existence check, sub-process
spawn, JSON parse and their error returns) is not modelled; the model
covers the successful parse path that builds the returned `Config`.  The
Node `path` built-ins are modelled as far as the claims reach: a POSIX
path is absolute when it starts with `/`; `path.resolve(base, relative)`
returns `relative` when it is already absolute and otherwise joins it onto
`base`; `path.dirname` cuts the input at its last slash (`.` without one,
`/` when the last slash leads).  Segment normalization (`..`, `.`,
duplicate slashes), which never affects absoluteness, is not modelled. -/

/-- POSIX `path.isAbsolute`. -/
def isAbsolutePath (p : String) : Bool :=
  match p.data with
  | [] => false
  | c :: _ => c = '/'

/-- Index of the last `/`, the pivot of `path.dirname`. -/
def lastSlashAux : List Char → Option Nat
  | [] => none
  | c :: rest =>
    match lastSlashAux rest with
    | some i => some (i + 1)
    | none => if c = '/' then some 0 else none

/-- POSIX `path.dirname`. -/
def dirname (p : String) : String :=
  match lastSlashAux p.data with
  | none => "."
  | some 0 => "/"
  | some i => { data := p.data.take i }

/-- `path.resolve(base, relative)` — `toAbsolutePath`. -/
def pathResolve (base rel : String) : String :=
  if isAbsolutePath rel then rel else base ++ "/" ++ rel

/-- A `watch` / `ignore` / `deps` field as parsed from the configuration's
JSON dump: missing, a single string, or a list of strings. -/
def fieldToList : Option (Sum String (List String)) → List String
  | none => []
  | some (Sum.inl s) => [s]
  | some (Sum.inr l) => l

/-- The destructured `TaskOptions` of `readSingleConfig` (`let { name,
watch = [], ignore = [], deps = [] } = JSON.parse(stdout)`). -/
structure TaskOptionsJson where
  name : Option String
  watch : Option (Sum String (List String))
  ignore : Option (Sum String (List String))
  deps : Option (Sum String (List String))

/-- The `Config` record built on success. -/
structure Config where
  name : Option String
  watch : List String
  ignore : List String
  deps : List String
  deriving DecidableEq

/-- The successful tail of `readSingleConfig`: normalize each field to a
list (`if (!Array.isArray(x)) x = [x]`) and resolve every entry against
`configDir = path.dirname(configPath)` via `toAbsolutePath`. -/
def readSingleConfigOk (configPath : String) (opts : TaskOptionsJson) :
    Config :=
  let configDir := dirname configPath
  { name := opts.name,
    watch := (fieldToList opts.watch).map (pathResolve configDir),
    ignore := (fieldToList opts.ignore).map (pathResolve configDir),
    deps := (fieldToList opts.deps).map (pathResolve configDir) }

/-! ### The Project side of the Workspace (`workspace.ts`)

A `Project` is bound to one task id (its `configPath`); the tree's runner
callback invokes `requestBuild` at dispatch, whose captured `options` hold
the `onComplete` closure (modelled by the ghost `objId` and the version
captured at dispatch, exactly as in `onTaskComplete`).  The modelled state
is the output buffer, the configuration error and whether a child process
is attached; timestamps, stdout/stderr plumbing, the abort-signal listener
and the emitted `build_*` events are outside every claim and omitted.  The
child-process side effects are driven by the `message` / `close` handler
functions below, translated from `requestBuild`'s subscriptions. -/

/-- The readiness sentinel a child sends via `Task.done()`. -/
def MSG_TASK_DONE : String := "service started"

/-- A `Project` together with the `TaskTree` it is wired to. -/
structure ProjState where
  tree : TaskTree
  output : String
  configurationError : Option String
  subprocess : Bool
  deriving DecidableEq

/-- The `task_reset` listener installed by the `Project` constructor:
on a reset of its own task the project clears its output buffer. -/
def projectOnTaskReset (st : ProjState) (eventTaskId configPath : String) :
    ProjState :=
  if eventTaskId = configPath then { st with output := "" } else st

/-- `requestBuild`: with a configuration error the build fails right away
(`onComplete(false)`); otherwise the previous process is killed and a new
one forked (`forkFails` selects the `catch` branch, which overwrites the
output with a launch-failure message and fails the build). -/
def requestBuildFn (st : ProjState) (objId : Nat)
    (configPath version : String) (forkFails : Bool) : ProjState :=
  match st.configurationError with
  | some _ =>
    let r := onTaskComplete st.tree objId configPath version false
    { st with tree := r.1 }
  | none =>
    if forkFails then
      let r := onTaskComplete st.tree objId configPath version false
      { st with
          tree := r.1,
          output := "Failed to launch " ++ configPath ++ "\n",
          subprocess := false }
    else
      { st with subprocess := true }

/-- The `message` subscription of `requestBuild`: a message equal to the
sentinel completes the task successfully, leaving the process running;
any other message is ignored. -/
def projectOnMessage (st : ProjState) (objId : Nat)
    (configPath version msg : String) : ProjState :=
  if msg = MSG_TASK_DONE then
    let r := onTaskComplete st.tree objId configPath version true
    { st with tree := r.1 }
  else st

/-- The `close` subscription of `requestBuild`: if the task still counts as
running the exit code decides the outcome; otherwise (the task already
reported via the sentinel) the exit code is only logged to the output.
Either way the process record is dropped (`_killProcess`). -/
def projectOnClose (st : ProjState) (objId : Nat)
    (configPath version : String) (code : Int) : ProjState :=
  if taskStatusFn st.tree configPath = some TaskStatus.running then
    let r := onTaskComplete st.tree objId configPath version (code = 0)
    { st with tree := r.1, subprocess := false }
  else
    { st with
        output :=
          st.output ++ "(process exited with code=" ++ toString code ++ ")",
        subprocess := false }

/-- A concrete execution, task, and wired project state with the task
running (dispatched at version `"v1"`), used to witness the sentinel and
exit-code behaviour. -/
def c8exec : Execution :=
  { success := none, taskVersion := "v1", execId := 3 }

def c8task : Task :=
  { taskId := "/p", parents := [], children := [], subtreeSha := "sha",
    generation := 0, execution := some c8exec, objId := 5 }

def c8state : ProjState :=
  { tree :=
      { tasks := [("/p", c8task)], roots := ["/p"],
        status := TreeStatus.running, jobs := 1, nextExecId := 4,
        nextObjId := 6 },
    output := "boot log\n", configurationError := none, subprocess := true }

/-- A project state with a configuration error and accumulated output,
used to witness the output-preservation conjuncts. -/
def c7state : ProjState :=
  { tree := TaskTree.init 1, output := "keep",
    configurationError := some "bad config", subprocess := false }

/-! ### Canonical subtree-sha predicates

Used to relate two consecutive `setTasks` calls: the first call leaves
every sha it visits agreeing with the hash recomputed from the adjacency,
so the second call's DFS finds nothing to reset. -/

/-- The `children`/`parents` clearing `setTasks` applies to every task. -/
def clearLinks (t : Task) : Task := { t with children := [], parents := [] }

/-- The child-sha mapping of the subtree DFS: the stored sha of the child
entry, `""` when the child is absent. -/
def shaIn (m : List (String × Task)) (c : String) : String :=
  match alookup m c with
  | some ct => ct.subtreeSha
  | none => ""

/-- Reachability along adjacency edges of the multimap. -/
def reachA (A : Multimap) (v w : String) : Prop :=
  Relation.ReflTransGen (medge A) v w

/-- The stored subtree sha at `w` agrees with the hash the DFS recomputes
from the stored child shas (children from the adjacency, DFS-sorted). -/
def shaOKAt (A : Multimap) (m : List (String × Task)) (w : String) : Prop :=
  ∀ t, alookup m w = some t →
    t.subtreeSha =
      sha256 (t.taskId :: (sortByLt (Multimap.getAll A w)).map (shaIn m))

/-- The stored children of `w` are the adjacency children, raw or sorted. -/
def childrenOKAt (A : Multimap) (m : List (String × Task)) (w : String) :
    Prop :=
  ∀ t, alookup m w = some t →
    t.children = Multimap.getAll A w ∨
    t.children = sortByLt (Multimap.getAll A w)

/-- Positional view of the fields `setTasks`'s link phases read and write
(key, task id, children, parents). -/
def linkView (m : List (String × Task)) :
    List (String × String × List String × List String) :=
  m.map (fun kv => (kv.1, kv.2.taskId, kv.2.children, kv.2.parents))

/-- Positional view of key and stored task id. -/
def kview (m : List (String × Task)) : List (String × String) :=
  m.map (fun kv => (kv.1, kv.2.taskId))

/-- The root list `setTasks` computes before sorting: task ids of the
entries without parents, in map order. -/
def rootsView (m : List (String × Task)) : List String :=
  ((avalues m).filter (fun t => t.parents.isEmpty)).map Task.taskId

/-! ## Association-list lemmas -/

theorem alookup_eq_none {m : List (String × Task)} {k : String} :
    alookup m k = none ↔ k ∉ m.map Prod.fst := by
  induction m with
  | nil => simp [alookup]
  | cons kv rest ih =>
    obtain ⟨k', t⟩ := kv
    by_cases h : k' = k <;> simp [alookup, h, ih, Ne.symm]

theorem alookup_isSome_of_mem {m : List (String × Task)} {k : String}
    (h : k ∈ m.map Prod.fst) : (alookup m k).isSome := by
  cases hl : alookup m k with
  | none => exact absurd h (alookup_eq_none.mp hl)
  | some t => rfl

theorem alookup_aupdate_self (m : List (String × Task)) (k : String)
    (f : Task → Task) : alookup (aupdate m k f) k = (alookup m k).map f := by
  induction m with
  | nil => rfl
  | cons kv rest ih =>
    obtain ⟨k', t⟩ := kv
    unfold aupdate
    simp only [List.map_cons]
    unfold aupdate at ih
    by_cases h : k' = k
    · subst h
      rw [if_pos rfl]
      simp [alookup]
    · rw [if_neg h]
      simp only [alookup, if_neg h]
      exact ih

theorem alookup_aupdate_other (m : List (String × Task)) {k k' : String}
    (f : Task → Task) (hne : k' ≠ k) :
    alookup (aupdate m k f) k' = alookup m k' := by
  induction m with
  | nil => rfl
  | cons kv rest ih =>
    obtain ⟨k₀, t⟩ := kv
    unfold aupdate
    simp only [List.map_cons]
    unfold aupdate at ih
    by_cases h : k₀ = k
    · subst h
      rw [if_pos rfl]
      simp only [alookup, if_neg (fun hh : k₀ = k' => hne (hh ▸ rfl))]
      exact ih
    · rw [if_neg h]
      simp only [alookup]
      by_cases h' : k₀ = k'
      · rw [if_pos h', if_pos h']
      · rw [if_neg h', if_neg h']
        exact ih

theorem aupdate_keys (m : List (String × Task)) (k : String) (f : Task → Task) :
    (aupdate m k f).map Prod.fst = m.map Prod.fst := by
  unfold aupdate
  rw [List.map_map]
  apply List.map_congr_left
  intro a _
  by_cases h : a.1 = k <;> simp [h]

theorem aupdate_of_not_mem {m : List (String × Task)} {k : String}
    (h : k ∉ m.map Prod.fst) (f : Task → Task) : aupdate m k f = m := by
  induction m with
  | nil => rfl
  | cons kv rest ih =>
    simp only [List.map_cons, List.mem_cons] at h
    push_neg at h
    unfold aupdate
    simp only [List.map_cons]
    rw [if_neg (fun hh => h.1 hh.symm)]
    have hrest := ih h.2
    unfold aupdate at hrest
    rw [hrest]

/-! ## Claim C10 — `markChanged` on an unknown id is a silent no-op -/

/-- Claim C10: for every `task_id` not present in the graph, `markChanged`
neither throws nor changes any state nor emits any event, whereas
`taskStatus` asserts (modelled by `none`) on the same unknown id. -/
theorem markChanged_unknown_id_noop (s : TaskTree) (id : String)
    (h : alookup s.tasks id = none) :
    markChangedFn s id = (s, []) ∧ taskStatusFn s id = none := by
  constructor
  · unfold markChangedFn
    rw [h]
  · unfold taskStatusFn
    rw [h]

theorem markChanged_unknown_id_noop_witness :
    alookup (TaskTree.init 3).tasks "ghost" = none ∧
      markChangedFn (TaskTree.init 3) "ghost" = (TaskTree.init 3, []) ∧
      taskStatusFn (TaskTree.init 3) "ghost" = none :=
  ⟨rfl, markChanged_unknown_id_noop (TaskTree.init 3) "ghost" rfl⟩

/-! ## Claim C4 — `on_complete` is effective at most once -/

/-- Claim C4: an `on_complete` invocation is silently ignored (state and
events untouched) when the bound task's execution is absent, when the version
captured at dispatch no longer matches, or when an outcome was already
recorded; the first invocation that does match records the outcome and emits
`task_finished`, and immediately repeating the same invocation afterwards is
silently ignored (at-most-once per dispatched execution). -/
theorem onComplete_effective_at_most_once (s : TaskTree) (objId : Nat)
    (tid ver : String) (ok : Bool) (t : Task)
    (hlook : alookup s.tasks tid = some t) (hobj : t.objId = objId) :
    (t.execution = none → onTaskComplete s objId tid ver ok = (s, [])) ∧
    (∀ e, t.execution = some e → e.taskVersion ≠ ver →
      onTaskComplete s objId tid ver ok = (s, [])) ∧
    (∀ e, t.execution = some e → e.success ≠ none →
      onTaskComplete s objId tid ver ok = (s, [])) ∧
    (∀ e, t.execution = some e → e.taskVersion = ver → e.success = none →
      onTaskComplete s objId tid ver ok =
        ({ s with tasks := aupdate s.tasks tid (recordOutcome e ok) },
         [Event.taskFinished tid e.execId]) ∧
      ∀ ok', onTaskComplete (onTaskComplete s objId tid ver ok).1 objId tid ver ok' =
        ((onTaskComplete s objId tid ver ok).1, [])) := by
  refine ⟨?_, ?_, ?_, ?_⟩
  · intro hexec
    unfold onTaskComplete
    rw [hlook]
    simp [hobj, hexec]
  · intro e hexec hver
    unfold onTaskComplete
    rw [hlook]
    simp [hobj, hexec, hver]
  · intro e hexec hsucc
    unfold onTaskComplete
    rw [hlook]
    simp [hobj, hexec, hsucc]
  · intro e hexec hver hsucc
    subst hver
    have heff : onTaskComplete s objId tid e.taskVersion ok =
        ({ s with tasks := aupdate s.tasks tid (recordOutcome e ok) },
         [Event.taskFinished tid e.execId]) := by
      unfold onTaskComplete
      rw [hlook]
      simp [hobj, hexec, hsucc]
    refine ⟨heff, ?_⟩
    intro ok'
    rw [heff]
    unfold onTaskComplete
    simp only [alookup_aupdate_self, hlook, Option.map_some]
    simp [recordOutcome, hobj]

/-- Witness for C4: a concrete one-task state with a running execution at
version `"v"`; the matching completion is effective once and the repeat is
ignored. -/
theorem onComplete_effective_at_most_once_witness :
    (alookup
        [("a", { taskId := "a", parents := [], children := [], subtreeSha := "sh",
                 generation := 0,
                 execution := some { success := none, taskVersion := "v", execId := 7 },
                 objId := 5 })] "a" =
      some { taskId := "a", parents := [], children := [], subtreeSha := "sh",
             generation := 0,
             execution := some { success := none, taskVersion := "v", execId := 7 },
             objId := 5 }) ∧
    (onTaskComplete
        { tasks := [("a", { taskId := "a", parents := [], children := [], subtreeSha := "sh",
                            generation := 0,
                            execution := some { success := none, taskVersion := "v", execId := 7 },
                            objId := 5 })],
          roots := ["a"], status := TreeStatus.running, jobs := 1,
          nextExecId := 8, nextObjId := 6 } 5 "a" "v" true).2 =
      [Event.taskFinished "a" 7] := by
  refine ⟨rfl, ?_⟩
  have h := onComplete_effective_at_most_once
    { tasks := [("a", { taskId := "a", parents := [], children := [], subtreeSha := "sh",
                        generation := 0,
                        execution := some { success := none, taskVersion := "v", execId := 7 },
                        objId := 5 })],
      roots := ["a"], status := TreeStatus.running, jobs := 1,
      nextExecId := 8, nextObjId := 6 } 5 "a" "v" true
    { taskId := "a", parents := [], children := [], subtreeSha := "sh",
      generation := 0,
      execution := some { success := none, taskVersion := "v", execId := 7 },
      objId := 5 } rfl rfl
  have heff := (h.2.2.2 { success := none, taskVersion := "v", execId := 7 } rfl rfl rfl).1
  rw [heff]

/-! ## Claim C2 — the `jobs` bound on concurrent executions

`inflightCount` is the spec's `in_flight`; the claim is that `run` never
dispatches more than `jobs - in_flight` tasks, and that along any operation
sequence the number of undecided executions never exceeds `jobs`. -/

def inflightCount (m : List (String × Task)) : Nat :=
  (tasksBeingRun m).length

def isStartedEv : Event → Bool
  | Event.taskStarted _ _ => true
  | _ => false

def countStarted (evs : List Event) : Nat :=
  (evs.filter isStartedEv).length

/-- Keys of the task map are pairwise distinct (a JavaScript `Map`
invariant). -/
def wfKeysM (m : List (String × Task)) : Prop :=
  (m.map Prod.fst).Nodup

theorem inflightCount_cons (kv : String × Task) (m : List (String × Task)) :
    inflightCount (kv :: m) =
      (if isInflight kv.2 then 1 else 0) + inflightCount m := by
  by_cases h : isInflight kv.2 <;>
    simp [inflightCount, tasksBeingRun, avalues, h, Nat.add_comm]

theorem inflightCount_append (m₁ m₂ : List (String × Task)) :
    inflightCount (m₁ ++ m₂) = inflightCount m₁ + inflightCount m₂ := by
  simp [inflightCount, tasksBeingRun, avalues]

theorem resetTask_fst_not_inflight (t : Task) :
    isInflight (resetTask t).1 = false := by
  unfold resetTask
  cases h : t.execution with
  | none =>
    simp only [isInflight]
    rw [h]
  | some e => simp [isInflight]

theorem inflightCount_aupdate_le {f : Task → Task}
    (h : ∀ t, isInflight (f t) = true → isInflight t = true)
    (m : List (String × Task)) (k : String) :
    inflightCount (aupdate m k f) ≤ inflightCount m := by
  induction m with
  | nil => exact Nat.le_refl _
  | cons kv rest ih =>
    unfold aupdate
    simp only [List.map_cons]
    rw [show (List.map (fun kv => if kv.1 = k then (kv.1, f kv.2) else kv) rest) =
      aupdate rest k f from rfl]
    by_cases hk : kv.1 = k
    · rw [if_pos hk, inflightCount_cons, inflightCount_cons]
      apply Nat.add_le_add _ ih
      by_cases hf : isInflight (f kv.2)
      · rw [if_pos hf, if_pos (h kv.2 hf)]
      · rw [if_neg hf]
        exact Nat.zero_le _
    · rw [if_neg hk, inflightCount_cons, inflightCount_cons]
      exact Nat.add_le_add (Nat.le_refl _) ih

theorem inflightCount_aupdate_le_succ (m : List (String × Task)) (k : String)
    (f : Task → Task) (h : wfKeysM m) :
    inflightCount (aupdate m k f) ≤ inflightCount m + 1 := by
  induction m with
  | nil => simp [aupdate, inflightCount, tasksBeingRun, avalues]
  | cons kv rest ih =>
    unfold wfKeysM at h
    simp only [List.map_cons, List.nodup_cons] at h
    unfold aupdate
    simp only [List.map_cons]
    rw [show (List.map (fun kv => if kv.1 = k then (kv.1, f kv.2) else kv) rest) =
      aupdate rest k f from rfl]
    by_cases hk : kv.1 = k
    · rw [if_pos hk, inflightCount_cons, inflightCount_cons]
      rw [aupdate_of_not_mem (hk ▸ h.1) f]
      have hle : (if isInflight (f kv.2) then 1 else 0) ≤
          (if isInflight kv.2 then 1 else 0) + 1 := by
        by_cases hf : isInflight (f kv.2) <;> by_cases hg : isInflight kv.2 <;>
          simp [hf, hg]
      calc (if isInflight (f kv.2) then 1 else 0) + inflightCount rest
          ≤ ((if isInflight kv.2 then 1 else 0) + 1) + inflightCount rest :=
            Nat.add_le_add hle (Nat.le_refl _)
        _ = (if isInflight kv.2 then 1 else 0) + inflightCount rest + 1 := by
            omega
    · rw [if_neg hk, inflightCount_cons, inflightCount_cons]
      have := ih h.2
      omega

/-- Phase 1 of `setTasks` only removes entries and never raises the in-flight
count. -/
theorem inflightCount_removeAbsent_le (keep : List String)
    (m : List (String × Task)) :
    inflightCount (removeAbsent keep m).1 ≤ inflightCount m := by
  induction m with
  | nil => exact Nat.le_refl _
  | cons kv rest ih =>
    obtain ⟨k, t⟩ := kv
    unfold removeAbsent
    by_cases hk : k ∈ keep
    · simp only [if_pos hk]
      rw [inflightCount_cons, inflightCount_cons]
      exact Nat.add_le_add (Nat.le_refl _) ih
    · simp only [if_neg hk]
      rw [inflightCount_cons]
      exact Nat.le_trans ih (Nat.le_add_left _ _)

theorem inflightCount_ensureTasks_le (ids : List String)
    (m : List (String × Task)) (n : Nat) :
    inflightCount (ensureTasks ids m n).1 ≤ inflightCount m := by
  induction ids generalizing m n with
  | nil => exact Nat.le_refl _
  | cons id rest ih =>
    unfold ensureTasks
    by_cases h : (alookup m id).isSome
    · simp only [if_pos h]
      refine Nat.le_trans (ih _ _) ?_
      exact inflightCount_aupdate_le (fun t ht => by simpa [isInflight] using ht) _ _
    · simp only [if_neg h]
      refine Nat.le_trans (ih _ _) ?_
      refine Nat.le_trans
        (inflightCount_aupdate_le (fun t ht => by simpa [isInflight] using ht) _ _) ?_
      rw [aappend, inflightCount_append]
      simp [inflightCount_cons, inflightCount, tasksBeingRun, avalues, isInflight,
        freshTask]

theorem inflightCount_addLinksOfKey_le (k : String) (cs : List String)
    (m : List (String × Task)) :
    inflightCount (addLinksOfKey k cs m) ≤ inflightCount m := by
  induction cs generalizing m with
  | nil => exact Nat.le_refl _
  | cons c rest ih =>
    unfold addLinksOfKey
    refine Nat.le_trans (ih _) ?_
    refine Nat.le_trans
      (inflightCount_aupdate_le (fun t ht => by simpa [isInflight] using ht) _ _) ?_
    exact inflightCount_aupdate_le (fun t ht => by simpa [isInflight] using ht) _ _

theorem inflightCount_addLinks_le (A : Multimap) (ks : List String)
    (m : List (String × Task)) :
    inflightCount (addLinks A ks m) ≤ inflightCount m := by
  induction ks generalizing m with
  | nil => exact Nat.le_refl _
  | cons k rest ih =>
    unfold addLinks
    exact Nat.le_trans (ih _) (inflightCount_addLinksOfKey_le _ _ _)

/-- An in-place update that keeps the execution field cannot raise the
in-flight count. -/
theorem inflightCount_aupdate_keepExec (m : List (String × Task)) (k : String)
    (f : Task → Task) (hf : ∀ t, (f t).execution = t.execution) :
    inflightCount (aupdate m k f) ≤ inflightCount m := by
  refine @inflightCount_aupdate_le f (fun t ht => ?_) m k
  unfold isInflight at ht ⊢
  rw [hf] at ht
  exact ht

/-- An in-place update that writes a non-in-flight task cannot raise the
in-flight count. -/
theorem inflightCount_aupdate_toNotInflight (m : List (String × Task))
    (k : String) (f : Task → Task) (hf : ∀ t, isInflight (f t) = false) :
    inflightCount (aupdate m k f) ≤ inflightCount m := by
  refine @inflightCount_aupdate_le f (fun t ht => ?_) m k
  rw [hf t] at ht
  exact absurd ht (by simp)

theorem inflightCount_shaDfs_le (fuel : Nat) :
    (∀ v m, inflightCount (shaDfs fuel v m).1 ≤ inflightCount m) ∧
    (∀ cs m, inflightCount (shaDfsChildrenWith (shaDfs fuel) cs m).1 ≤ inflightCount m) := by
  induction fuel with
  | zero =>
    have hd : ∀ v m, inflightCount (shaDfs 0 v m).1 ≤ inflightCount m := by
      intro v m
      simp [shaDfs]
    refine ⟨hd, ?_⟩
    intro cs
    induction cs with
    | nil => intro m; simp [shaDfsChildrenWith]
    | cons c rest ih =>
      intro m
      unfold shaDfsChildrenWith
      exact Nat.le_trans (ih _) (hd c m)
  | succ fuel ih =>
    have hd : ∀ v m, inflightCount (shaDfs (fuel + 1) v m).1 ≤ inflightCount m := by
      intro v m
      unfold shaDfs
      cases hl : alookup m v with
      | none => exact Nat.le_refl _
      | some t =>
        simp only
        have h1 : inflightCount
            (aupdate m v (fun t0 => { t0 with children := sortByLt t.children })) ≤
            inflightCount m :=
          inflightCount_aupdate_keepExec _ _ _ (fun t0 => rfl)
        have h2 : inflightCount (shaDfsChildrenWith (shaDfs fuel) (sortByLt t.children)
            (aupdate m v (fun t0 => { t0 with children := sortByLt t.children }))).1 ≤
            inflightCount m :=
          Nat.le_trans (ih.2 _ _) h1
        set mc := shaDfsChildrenWith (shaDfs fuel) (sortByLt t.children)
          (aupdate m v (fun t0 => { t0 with children := sortByLt t.children })) with hmc
        cases hl2 : alookup mc.1 v with
        | none => exact h2
        | some t' =>
          simp only
          by_cases hsha : t'.subtreeSha =
              sha256 (t'.taskId :: t'.children.map (fun c0 =>
                match alookup mc.1 c0 with
                | some ct => ct.subtreeSha
                | none => ""))
          · rw [if_pos hsha]
            exact h2
          · rw [if_neg hsha]
            refine Nat.le_trans (inflightCount_aupdate_toNotInflight _ _ _
              (fun t0 => resetTask_fst_not_inflight _)) h2
    refine ⟨hd, ?_⟩
    intro cs
    induction cs with
    | nil => intro m; simp [shaDfsChildrenWith]
    | cons c rest ihc =>
      intro m
      unfold shaDfsChildrenWith
      exact Nat.le_trans (ihc _) (hd c m)

theorem inflightCount_shaDfsRoots_le (fuel : Nat) (rs : List String)
    (m : List (String × Task)) :
    inflightCount (shaDfsRoots fuel rs m).1 ≤ inflightCount m := by
  induction rs generalizing m with
  | nil => exact Nat.le_refl _
  | cons r rest ih =>
    unfold shaDfsRoots
    exact Nat.le_trans (ih _) ((inflightCount_shaDfs_le fuel).1 r m)

theorem inflightCount_markDfs_le (fuel : Nat) :
    (∀ m visited id, inflightCount (markDfs fuel m visited id).1 ≤
      inflightCount m) ∧
    (∀ m visited ps, inflightCount (markDfsParentsWith (markDfs fuel) m visited ps).1 ≤
      inflightCount m) := by
  induction fuel with
  | zero =>
    have hd : ∀ m visited id,
        inflightCount (markDfs 0 m visited id).1 ≤ inflightCount m := by
      intro m visited id
      simp [markDfs]
    refine ⟨hd, ?_⟩
    intro m visited ps
    induction ps generalizing m visited with
    | nil => simp [markDfsParentsWith]
    | cons p rest ih =>
      unfold markDfsParentsWith
      dsimp only
      exact Nat.le_trans (ih _ _) (hd m visited p)
  | succ fuel ih =>
    have hd : ∀ m visited id,
        inflightCount (markDfs (fuel + 1) m visited id).1 ≤ inflightCount m := by
      intro m visited id
      unfold markDfs
      by_cases hv : id ∈ visited
      · rw [if_pos hv]
      · rw [if_neg hv]
        cases hl : alookup m id with
        | none => exact Nat.le_refl _
        | some t =>
          dsimp only
          refine Nat.le_trans (ih.2 _ _ _) ?_
          exact inflightCount_aupdate_toNotInflight _ _ _
            (fun t0 => resetTask_fst_not_inflight _)
    refine ⟨hd, ?_⟩
    intro m visited ps
    induction ps generalizing m visited with
    | nil => simp [markDfsParentsWith]
    | cons p rest ih2 =>
      unfold markDfsParentsWith
      dsimp only
      exact Nat.le_trans (ih2 _ _) (hd m visited p)

theorem inflightCount_resetEntries_le (m : List (String × Task)) :
    inflightCount (resetEntries m).1 ≤ inflightCount m := by
  induction m with
  | nil => exact Nat.le_refl _
  | cons kv rest ih =>
    obtain ⟨k, t⟩ := kv
    unfold resetEntries
    rw [inflightCount_cons, inflightCount_cons]
    refine Nat.add_le_add ?_ ih
    rw [resetTask_fst_not_inflight]
    simp

/-! ### Key preservation lemmas -/

theorem removeAbsent_keys_sublist (keep : List String)
    (m : List (String × Task)) :
    ((removeAbsent keep m).1.map Prod.fst).Sublist (m.map Prod.fst) := by
  induction m with
  | nil => simp [removeAbsent]
  | cons kv rest ih =>
    obtain ⟨k, t⟩ := kv
    unfold removeAbsent
    by_cases hk : k ∈ keep
    · simp only [if_pos hk, List.map_cons]
      exact List.Sublist.cons₂ k ih
    · simp only [if_neg hk, List.map_cons]
      exact List.Sublist.cons k ih

theorem wf_removeAbsent (keep : List String) {m : List (String × Task)}
    (h : wfKeysM m) : wfKeysM (removeAbsent keep m).1 :=
  List.Nodup.sublist (removeAbsent_keys_sublist keep m) h

theorem wf_aupdate {m : List (String × Task)} (k : String) (f : Task → Task)
    (h : wfKeysM m) : wfKeysM (aupdate m k f) := by
  unfold wfKeysM
  rw [aupdate_keys]
  exact h

theorem wf_ensureTasks (ids : List String) {m : List (String × Task)}
    (n : Nat) (h : wfKeysM m) : wfKeysM (ensureTasks ids m n).1 := by
  induction ids generalizing m n with
  | nil => exact h
  | cons id rest ih =>
    unfold ensureTasks
    by_cases hs : (alookup m id).isSome
    · simp only [if_pos hs]
      exact ih _ (wf_aupdate _ _ h)
    · simp only [if_neg hs]
      refine ih _ (wf_aupdate _ _ ?_)
      unfold wfKeysM aappend
      rw [List.map_append]
      rw [List.nodup_append]
      refine ⟨h, by simp, ?_⟩
      intro a ha
      simp only [List.map_cons, List.map_nil, List.mem_singleton]
      intro hb
      subst hb
      have : alookup m a = none := by
        cases hl : alookup m a with
        | none => rfl
        | some t => rw [hl] at hs; exact absurd rfl hs
      exact absurd ha (alookup_eq_none.mp this)

theorem addLinksOfKey_keys (k : String) (cs : List String)
    (m : List (String × Task)) :
    (addLinksOfKey k cs m).map Prod.fst = m.map Prod.fst := by
  induction cs generalizing m with
  | nil => rfl
  | cons c rest ih =>
    unfold addLinksOfKey
    rw [ih, aupdate_keys, aupdate_keys]

theorem addLinks_keys (A : Multimap) (ks : List String)
    (m : List (String × Task)) :
    (addLinks A ks m).map Prod.fst = m.map Prod.fst := by
  induction ks generalizing m with
  | nil => rfl
  | cons k rest ih =>
    unfold addLinks
    rw [ih, addLinksOfKey_keys]

theorem shaDfs_keys (fuel : Nat) :
    (∀ v m, (shaDfs fuel v m).1.map Prod.fst = m.map Prod.fst) ∧
    (∀ cs m, (shaDfsChildrenWith (shaDfs fuel) cs m).1.map Prod.fst = m.map Prod.fst) := by
  induction fuel with
  | zero =>
    have hd : ∀ v m, (shaDfs 0 v m).1.map Prod.fst = m.map Prod.fst := by
      intro v m; simp [shaDfs]
    refine ⟨hd, ?_⟩
    intro cs
    induction cs with
    | nil => intro m; simp [shaDfsChildrenWith]
    | cons c rest ih =>
      intro m
      unfold shaDfsChildrenWith
      rw [ih, hd]
  | succ fuel ih =>
    have hd : ∀ v m, (shaDfs (fuel + 1) v m).1.map Prod.fst = m.map Prod.fst := by
      intro v m
      unfold shaDfs
      cases hl : alookup m v with
      | none => rfl
      | some t =>
        simp only
        have h2 : (shaDfsChildrenWith (shaDfs fuel) (sortByLt t.children)
            (aupdate m v (fun t0 => { t0 with children := sortByLt t.children }))).1.map
              Prod.fst = m.map Prod.fst := by
          rw [ih.2, aupdate_keys]
        set mc := shaDfsChildrenWith (shaDfs fuel) (sortByLt t.children)
          (aupdate m v (fun t0 => { t0 with children := sortByLt t.children })) with hmc
        cases hl2 : alookup mc.1 v with
        | none => exact h2
        | some t' =>
          simp only
          by_cases hsha : t'.subtreeSha =
              sha256 (t'.taskId :: t'.children.map (fun c0 =>
                match alookup mc.1 c0 with
                | some ct => ct.subtreeSha
                | none => ""))
          · rw [if_pos hsha]
            exact h2
          · rw [if_neg hsha]
            rw [show (aupdate mc.1 v (fun _ =>
                (resetTask { t' with subtreeSha := sha256 (t'.taskId ::
                  t'.children.map (fun c0 =>
                    match alookup mc.1 c0 with
                    | some ct => ct.subtreeSha
                    | none => "")) }).1), mc.2 ++
                (resetTask { t' with subtreeSha := sha256 (t'.taskId ::
                  t'.children.map (fun c0 =>
                    match alookup mc.1 c0 with
                    | some ct => ct.subtreeSha
                    | none => "")) }).2).1 =
              aupdate mc.1 v (fun _ =>
                (resetTask { t' with subtreeSha := sha256 (t'.taskId ::
                  t'.children.map (fun c0 =>
                    match alookup mc.1 c0 with
                    | some ct => ct.subtreeSha
                    | none => "")) }).1) from rfl]
            rw [aupdate_keys]
            exact h2
    refine ⟨hd, ?_⟩
    intro cs
    induction cs with
    | nil => intro m; simp [shaDfsChildrenWith]
    | cons c rest ih2 =>
      intro m
      unfold shaDfsChildrenWith
      rw [ih2, hd]

theorem shaDfsRoots_keys (fuel : Nat) (rs : List String)
    (m : List (String × Task)) :
    (shaDfsRoots fuel rs m).1.map Prod.fst = m.map Prod.fst := by
  induction rs generalizing m with
  | nil => rfl
  | cons r rest ih =>
    unfold shaDfsRoots
    rw [ih, (shaDfs_keys fuel).1]

theorem markDfs_keys (fuel : Nat) :
    (∀ m visited id, (markDfs fuel m visited id).1.map Prod.fst =
      m.map Prod.fst) ∧
    (∀ m visited ps, (markDfsParentsWith (markDfs fuel) m visited ps).1.map Prod.fst =
      m.map Prod.fst) := by
  induction fuel with
  | zero =>
    have hd : ∀ m visited id,
        (markDfs 0 m visited id).1.map Prod.fst = m.map Prod.fst := by
      intro m visited id; simp [markDfs]
    refine ⟨hd, ?_⟩
    intro m visited ps
    induction ps generalizing m visited with
    | nil => simp [markDfsParentsWith]
    | cons p rest ih =>
      unfold markDfsParentsWith
      dsimp only
      rw [ih, hd]
  | succ fuel ih =>
    have hd : ∀ m visited id,
        (markDfs (fuel + 1) m visited id).1.map Prod.fst = m.map Prod.fst := by
      intro m visited id
      unfold markDfs
      by_cases hv : id ∈ visited
      · rw [if_pos hv]
      · rw [if_neg hv]
        cases hl : alookup m id with
        | none => rfl
        | some t =>
          dsimp only
          rw [ih.2, aupdate_keys]
    refine ⟨hd, ?_⟩
    intro m visited ps
    induction ps generalizing m visited with
    | nil => simp [markDfsParentsWith]
    | cons p rest ih2 =>
      unfold markDfsParentsWith
      dsimp only
      rw [ih2, hd]

theorem dispatchTasks_keys (picked : List Task) (m : List (String × Task))
    (nid : Nat) :
    (dispatchTasks picked m nid).1.map Prod.fst = m.map Prod.fst := by
  induction picked generalizing m nid with
  | nil => rfl
  | cons t rest ih =>
    unfold dispatchTasks
    dsimp only
    rw [ih, aupdate_keys]

theorem resetEntries_keys (m : List (String × Task)) :
    (resetEntries m).1.map Prod.fst = m.map Prod.fst := by
  induction m with
  | nil => rfl
  | cons kv rest ih =>
    obtain ⟨k, t⟩ := kv
    unfold resetEntries
    simp only [List.map_cons]
    rw [ih]

/-! ### Status-update projections and event counts -/

theorem setTreeStatus_tasks (s : TaskTree) (st : TreeStatus) :
    (setTreeStatus s st).1.tasks = s.tasks := by
  unfold setTreeStatus; split <;> rfl

theorem setTreeStatus_jobs (s : TaskTree) (st : TreeStatus) :
    (setTreeStatus s st).1.jobs = s.jobs := by
  unfold setTreeStatus; split <;> rfl

theorem setTreeStatus_nextExecId (s : TaskTree) (st : TreeStatus) :
    (setTreeStatus s st).1.nextExecId = s.nextExecId := by
  unfold setTreeStatus; split <;> rfl

theorem setTreeStatus_nextObjId (s : TaskTree) (st : TreeStatus) :
    (setTreeStatus s st).1.nextObjId = s.nextObjId := by
  unfold setTreeStatus; split <;> rfl

theorem computeTreeStatus_tasks (s : TaskTree) :
    (computeTreeStatus s).1.tasks = s.tasks := by
  unfold computeTreeStatus
  dsimp only
  split <;> exact setTreeStatus_tasks _ _

theorem computeTreeStatus_jobs (s : TaskTree) :
    (computeTreeStatus s).1.jobs = s.jobs := by
  unfold computeTreeStatus
  dsimp only
  split <;> exact setTreeStatus_jobs _ _

theorem computeTreeStatus_nextExecId (s : TaskTree) :
    (computeTreeStatus s).1.nextExecId = s.nextExecId := by
  unfold computeTreeStatus
  dsimp only
  split <;> exact setTreeStatus_nextExecId _ _

theorem computeTreeStatus_nextObjId (s : TaskTree) :
    (computeTreeStatus s).1.nextObjId = s.nextObjId := by
  unfold computeTreeStatus
  dsimp only
  split <;> exact setTreeStatus_nextObjId _ _

theorem countStarted_append (e₁ e₂ : List Event) :
    countStarted (e₁ ++ e₂) = countStarted e₁ + countStarted e₂ := by
  simp [countStarted]

theorem countStarted_setTreeStatus (s : TaskTree) (st : TreeStatus) :
    countStarted (setTreeStatus s st).2 = 0 := by
  unfold setTreeStatus; split <;> rfl

theorem countStarted_computeTreeStatus (s : TaskTree) :
    countStarted (computeTreeStatus s).2 = 0 := by
  unfold computeTreeStatus
  dsimp only
  split <;> exact countStarted_setTreeStatus _ _

/-! ### Dispatch lemmas -/

theorem dispatchTasks_countStarted (picked : List Task)
    (m : List (String × Task)) (nid : Nat) :
    countStarted (dispatchTasks picked m nid).2.2 = picked.length := by
  induction picked generalizing m nid with
  | nil => simp [dispatchTasks, countStarted]
  | cons t rest ih =>
    unfold dispatchTasks
    dsimp only
    have h2 := ih (aupdate m t.taskId (dispatchUpdate (taskVersion t) nid)) (nid + 1)
    simp only [countStarted] at h2 ⊢
    simp [List.filter_cons, isStartedEv, h2]

theorem dispatchTasks_inflight_le (picked : List Task)
    (m : List (String × Task)) (nid : Nat)
    (h : wfKeysM m) :
    inflightCount (dispatchTasks picked m nid).1 ≤
      inflightCount m + picked.length := by
  induction picked generalizing m nid with
  | nil => simp [dispatchTasks]
  | cons t rest ih =>
    unfold dispatchTasks
    dsimp only
    refine Nat.le_trans (ih _ _ (wf_aupdate _ _ h)) ?_
    have := inflightCount_aupdate_le_succ m t.taskId
      (dispatchUpdate (taskVersion t) nid) h
    simp only [List.length_cons]
    omega

/-! ### Per-operation bounds -/

theorem stepOp_jobs (s : TaskTree) (op : Op) : (stepOp s op).1.jobs = s.jobs := by
  cases op with
  | setTasksOp A =>
    show (setTasks A s).2.1.jobs = s.jobs
    unfold setTasks
    cases findDependencyCycle A with
    | some cyc => rfl
    | none =>
      simp only
      exact computeTreeStatus_jobs _
  | markChangedOp id =>
    show (markChangedFn s id).1.jobs = s.jobs
    unfold markChangedFn
    cases alookup s.tasks id with
    | none => rfl
    | some t =>
      simp only
      exact computeTreeStatus_jobs _
  | runOp =>
    show (runFn s).1.jobs = s.jobs
    unfold runFn
    dsimp only
    split
    · exact computeTreeStatus_jobs _
    · exact setTreeStatus_jobs _ _
  | onCompleteOp objId taskId version ok =>
    show (onTaskComplete s objId taskId version ok).1.jobs = s.jobs
    unfold onTaskComplete
    cases alookup s.tasks taskId with
    | none => rfl
    | some t =>
      simp only
      split
      · cases t.execution with
        | none => rfl
        | some e =>
          simp only
          split <;> rfl
      · rfl
  | resetAllOp =>
    show (resetAllTasks s).1.jobs = s.jobs
    unfold resetAllTasks
    exact computeTreeStatus_jobs _

theorem stepOp_wf (s : TaskTree) (op : Op) (h : wfKeysM s.tasks) :
    wfKeysM (stepOp s op).1.tasks := by
  cases op with
  | setTasksOp A =>
    show wfKeysM (setTasks A s).2.1.tasks
    unfold setTasks
    cases findDependencyCycle A with
    | some cyc => exact h
    | none =>
      simp only
      unfold wfKeysM
      rw [computeTreeStatus_tasks]
      simp only
      rw [shaDfsRoots_keys, addLinks_keys]
      exact wf_ensureTasks _ _ (wf_removeAbsent _ h)
  | markChangedOp id =>
    show wfKeysM (markChangedFn s id).1.tasks
    unfold markChangedFn
    cases alookup s.tasks id with
    | none => exact h
    | some t =>
      simp only
      unfold wfKeysM
      rw [computeTreeStatus_tasks]
      simp only
      rw [(markDfs_keys _).1]
      exact h
  | runOp =>
    show wfKeysM (runFn s).1.tasks
    unfold runFn
    dsimp only
    split
    · unfold wfKeysM
      rw [computeTreeStatus_tasks]
      exact h
    · unfold wfKeysM
      rw [dispatchTasks_keys, setTreeStatus_tasks]
      exact h
  | onCompleteOp objId taskId version ok =>
    show wfKeysM (onTaskComplete s objId taskId version ok).1.tasks
    unfold onTaskComplete
    cases alookup s.tasks taskId with
    | none => exact h
    | some t =>
      simp only
      split
      · cases t.execution with
        | none => exact h
        | some e =>
          simp only
          split
          · exact wf_aupdate taskId (recordOutcome e ok) h
          · exact h
      · exact h
  | resetAllOp =>
    show wfKeysM (resetAllTasks s).1.tasks
    unfold resetAllTasks
    unfold wfKeysM
    rw [computeTreeStatus_tasks]
    simp only
    rw [resetEntries_keys]
    exact h

theorem stepOp_inflight (s : TaskTree) (op : Op) (hwf : wfKeysM s.tasks)
    (h : inflightCount s.tasks ≤ s.jobs) :
    inflightCount (stepOp s op).1.tasks ≤ s.jobs := by
  cases op with
  | setTasksOp A =>
    show inflightCount (setTasks A s).2.1.tasks ≤ s.jobs
    unfold setTasks
    cases findDependencyCycle A with
    | some cyc => exact h
    | none =>
      simp only
      rw [computeTreeStatus_tasks]
      simp only
      refine Nat.le_trans (inflightCount_shaDfsRoots_le _ _ _) ?_
      refine Nat.le_trans (inflightCount_addLinks_le _ _ _) ?_
      refine Nat.le_trans (inflightCount_ensureTasks_le _ _ _) ?_
      exact Nat.le_trans (inflightCount_removeAbsent_le _ _) h
  | markChangedOp id =>
    show inflightCount (markChangedFn s id).1.tasks ≤ s.jobs
    unfold markChangedFn
    cases alookup s.tasks id with
    | none => exact h
    | some t =>
      simp only
      rw [computeTreeStatus_tasks]
      simp only
      exact Nat.le_trans ((inflightCount_markDfs_le _).1 _ _ _) h
  | runOp =>
    show inflightCount (runFn s).1.tasks ≤ s.jobs
    unfold runFn
    by_cases hc : s.jobs ≤ (tasksBeingRun s.tasks).length ||
        (runnableTasks s.tasks).isEmpty
    · rw [if_pos hc]
      rw [computeTreeStatus_tasks]
      exact h
    · rw [if_neg hc]
      simp only
      have hwf' : wfKeysM (setTreeStatus s TreeStatus.running).1.tasks := by
        unfold wfKeysM
        rw [setTreeStatus_tasks]
        exact hwf
      refine Nat.le_trans (dispatchTasks_inflight_le _ _ _ hwf') ?_
      rw [setTreeStatus_tasks, setTreeStatus_jobs]
      have hlt : (tasksBeingRun s.tasks).length < s.jobs := by
        simp only [Bool.or_eq_true, decide_eq_true_eq] at hc
        push_neg at hc
        omega
      have htake : ((runnableTasks s.tasks).take
          (s.jobs - (tasksBeingRun s.tasks).length)).length ≤
          s.jobs - (tasksBeingRun s.tasks).length := by
        rw [List.length_take]
        exact Nat.min_le_left _ _
      have hin : inflightCount s.tasks = (tasksBeingRun s.tasks).length := rfl
      omega
  | onCompleteOp objId taskId version ok =>
    show inflightCount (onTaskComplete s objId taskId version ok).1.tasks ≤ s.jobs
    unfold onTaskComplete
    cases alookup s.tasks taskId with
    | none => exact h
    | some t =>
      simp only
      split
      · cases t.execution with
        | none => exact h
        | some e =>
          simp only
          split
          · simp only
            refine Nat.le_trans (inflightCount_aupdate_toNotInflight _ _ _
              (fun t0 => by simp [isInflight, recordOutcome])) h
          · exact h
      · exact h
  | resetAllOp =>
    show inflightCount (resetAllTasks s).1.tasks ≤ s.jobs
    unfold resetAllTasks
    rw [computeTreeStatus_tasks]
    simp only
    exact Nat.le_trans (inflightCount_resetEntries_le _) h

/-- Claim C2: `run()` dispatches at most `jobs - in_flight` tasks (counted by
the `task_started` events of a single `run` call); consequently along every
operation sequence from a fresh tree the number of tasks holding an
undecided execution never exceeds the configured `jobs` bound, and with
`jobs = 1` at most one task is ever running. -/
theorem jobs_bound_invariant :
    (∀ s : TaskTree, countStarted (runFn s).2 ≤ s.jobs - inflightCount s.tasks) ∧
    (∀ (jobs : Nat) (ops : List Op),
      inflightCount ((runOps (TaskTree.init jobs) ops).1.tasks) ≤ jobs) ∧
    (∀ ops : List Op,
      inflightCount ((runOps (TaskTree.init 1) ops).1.tasks) ≤ 1) := by
  have hrun : ∀ s : TaskTree,
      countStarted (runFn s).2 ≤ s.jobs - inflightCount s.tasks := by
    intro s
    unfold runFn
    by_cases hc : s.jobs ≤ (tasksBeingRun s.tasks).length ||
        (runnableTasks s.tasks).isEmpty
    · rw [if_pos hc]
      rw [countStarted_computeTreeStatus]
      exact Nat.zero_le _
    · rw [if_neg hc]
      simp only
      rw [countStarted_append, countStarted_setTreeStatus, dispatchTasks_countStarted]
      rw [setTreeStatus_jobs]
      have htake : ((runnableTasks s.tasks).take
          (s.jobs - (tasksBeingRun s.tasks).length)).length ≤
          s.jobs - (tasksBeingRun s.tasks).length := by
        rw [List.length_take]
        exact Nat.min_le_left _ _
      have hin : inflightCount s.tasks = (tasksBeingRun s.tasks).length := rfl
      omega
  have hseq : ∀ (jobs : Nat) (ops : List Op),
      inflightCount ((runOps (TaskTree.init jobs) ops).1.tasks) ≤ jobs := by
    intro jobs ops
    suffices h : ∀ (ops : List Op) (s : TaskTree), wfKeysM s.tasks →
        inflightCount s.tasks ≤ s.jobs →
        wfKeysM (runOps s ops).1.tasks ∧
          inflightCount (runOps s ops).1.tasks ≤ (runOps s ops).1.jobs ∧
          (runOps s ops).1.jobs = s.jobs by
      have := h ops (TaskTree.init jobs) (by simp [TaskTree.init, wfKeysM])
        (by simp [TaskTree.init, inflightCount, tasksBeingRun, avalues])
      rw [this.2.2] at this
      exact this.2.1
    intro ops
    induction ops with
    | nil =>
      intro s hwf h
      exact ⟨hwf, h, rfl⟩
    | cons op rest ih =>
      intro s hwf h
      unfold runOps
      simp only
      have hwf' := stepOp_wf s op hwf
      have hj := stepOp_jobs s op
      have hi : inflightCount (stepOp s op).1.tasks ≤ (stepOp s op).1.jobs := by
        rw [hj]
        exact stepOp_inflight s op hwf h
      have hres := ih (stepOp s op).1 hwf' hi
      exact ⟨hres.1, hres.2.1, by rw [hres.2.2, hj]⟩
  refine ⟨hrun, hseq, fun ops => hseq 1 ops⟩

/-! ## Claim C3 — `markChanged` bumps exactly the transitive ancestors -/

/-- The parent ids of a task (empty for absent ids, which cannot occur for
tasks reached from a present start in a well-formed tree). -/
def parentsOf (m : List (String × Task)) (id : String) : List String :=
  match alookup m id with
  | some t => t.parents
  | none => []

/-- The parent edge relation: `b` is a direct parent of `a`. -/
def parentEdge (m : List (String × Task)) (a b : String) : Prop :=
  b ∈ parentsOf m a

/-- `v` is `t` itself or a transitive ancestor of `t` (via parent links). -/
def ancestorReach (m : List (String × Task)) (t v : String) : Prop :=
  Relation.ReflTransGen (parentEdge m) t v

/-- Every parent list points back into the task map (holds for every state
built by `setTasks`, where links are wired among the created records). -/
def wfParents (m : List (String × Task)) : Prop :=
  ∀ v, parentsOf m v ⊆ m.map Prod.fst

/-- What `markChanged`'s dfs does to one visited task. -/
def bumpTask (t : Task) : Task :=
  { t with generation := t.generation + 1, execution := none }

theorem resetTask_fst (t : Task) :
    (resetTask t).1 = { t with execution := none } := by
  unfold resetTask
  cases h : t.execution with
  | none =>
    cases t
    simp_all
  | some e => rfl

theorem resetTask_bump (t : Task) :
    (resetTask { t with generation := t.generation + 1 }).1 = bumpTask t := by
  rw [resetTask_fst]
  rfl

theorem alookup_mem {m : List (String × Task)} {k : String} {t : Task}
    (h : alookup m k = some t) : (k, t) ∈ m := by
  induction m with
  | nil => simp [alookup] at h
  | cons kv rest ih =>
    obtain ⟨k', t'⟩ := kv
    unfold alookup at h
    by_cases hk : k' = k
    · rw [if_pos hk] at h
      injection h with h
      subst h; subst hk
      exact List.mem_cons_self _ _
    · rw [if_neg hk] at h
      exact List.mem_cons_of_mem _ (ih h)

theorem alookup_some_mem_keys {m : List (String × Task)} {k : String} {t : Task}
    (h : alookup m k = some t) : k ∈ m.map Prod.fst := by
  have := alookup_mem h
  exact List.mem_map_of_mem Prod.fst this

/-- Derive the unbounded `wfParents` from its bounded (decidable) form. -/
theorem wfParents_of_entries {m : List (String × Task)}
    (h : ∀ kv ∈ m, kv.2.parents ⊆ m.map Prod.fst) : wfParents m := by
  intro v p hp
  unfold parentsOf at hp
  cases hl : alookup m v with
  | none => rw [hl] at hp; simp at hp
  | some t =>
    rw [hl] at hp
    exact h (v, t) (alookup_mem hl) hp

/-- Count of map keys not yet visited (the potential of the dfs). -/
def unvisitedKeys (ks : List String) (visited : List String) : Nat :=
  (ks.filter (fun k => decide (¬ k ∈ visited))).length

theorem filter_length_mono {α : Type} (l : List α) (p q : α → Bool)
    (h : ∀ a, p a = true → q a = true) :
    (l.filter p).length ≤ (l.filter q).length := by
  induction l with
  | nil => exact Nat.le_refl _
  | cons a rest ih =>
    simp only [List.filter]
    cases hp : p a with
    | false =>
      cases hq : q a with
      | false => exact ih
      | true => exact Nat.le_trans ih (Nat.le_succ _)
    | true =>
      rw [h a hp]
      simpa using ih

theorem unvisitedKeys_le_of_subset (ks : List String)
    {v₁ v₂ : List String} (h : v₁ ⊆ v₂) :
    unvisitedKeys ks v₂ ≤ unvisitedKeys ks v₁ := by
  refine filter_length_mono ks _ _ (fun a ha => ?_)
  simp only [decide_eq_true_eq] at ha ⊢
  intro hmem
  exact ha (h hmem)

theorem unvisitedKeys_cons_lt {ks : List String} {id : String}
    (hid : id ∈ ks) {visited : List String} (hnv : id ∉ visited) :
    unvisitedKeys ks (id :: visited) < unvisitedKeys ks visited := by
  induction ks with
  | nil => simp at hid
  | cons k rest ih =>
    unfold unvisitedKeys
    simp only [List.filter]
    by_cases hk : k = id
    · subst hk
      rw [show (decide (¬ k ∈ k :: visited)) = false by simp]
      rw [show (decide (¬ k ∈ visited)) = true by simp [hnv]]
      simp only [List.length_cons]
      have hmono : unvisitedKeys rest (k :: visited) ≤ unvisitedKeys rest visited :=
        unvisitedKeys_le_of_subset rest (fun x hx => List.mem_cons_of_mem _ hx)
      unfold unvisitedKeys at hmono
      omega
    · have hid' : id ∈ rest := by
        cases hid with
        | head => exact absurd rfl hk
        | tail _ h => exact h
      have := ih hid'
      unfold unvisitedKeys at this
      by_cases hkv : k ∈ visited
      · rw [show (decide (¬ k ∈ id :: visited)) = false by simp [hkv]]
        rw [show (decide (¬ k ∈ visited)) = false by simp [hkv]]
        exact this
      · rw [show (decide (¬ k ∈ id :: visited)) = true by simp [hkv, hk]]
        rw [show (decide (¬ k ∈ visited)) = true by simp [hkv]]
        simp only [List.length_cons]
        omega

/-- The state/visited-set part of the postcondition of `markChanged`'s dfs:
old visited nodes survive, newly visited nodes are bumped exactly once, all
other entries and every parent list are untouched. -/
def MC (m : List (String × Task)) (visited : List String)
    (r : List (String × Task) × List String × List Event) : Prop :=
  (∀ v, v ∈ visited → v ∈ r.2.1) ∧
  (∀ v, v ∈ r.2.1 → v ∉ visited →
    ∃ tv, alookup m v = some tv ∧ alookup r.1 v = some (bumpTask tv)) ∧
  (∀ v, (v ∉ r.2.1 ∨ v ∈ visited) → alookup r.1 v = alookup m v) ∧
  (∀ v, parentsOf r.1 v = parentsOf m v)

theorem MC_refl (m : List (String × Task)) (visited : List String)
    (evs : List Event) : MC m visited (m, visited, evs) :=
  ⟨fun _ h => h, fun _ hv hnv => absurd hv hnv, fun _ _ => rfl, fun _ => rfl⟩

theorem MC_trans {m : List (String × Task)} {visited : List String}
    {r1 r2 : List (String × Task) × List String × List Event}
    (h1 : MC m visited r1) (h2 : MC r1.1 r1.2.1 r2) : MC m visited r2 := by
  obtain ⟨a1, c1, d1, e1⟩ := h1
  obtain ⟨a2, c2, d2, e2⟩ := h2
  refine ⟨fun v h => a2 v (a1 v h), ?_, ?_, fun v => (e2 v).trans (e1 v)⟩
  · intro v hv hnv
    by_cases hmid : v ∈ r1.2.1
    · obtain ⟨tv, hm, hr1⟩ := c1 v hmid hnv
      exact ⟨tv, hm, by rw [d2 v (Or.inr hmid)]; exact hr1⟩
    · obtain ⟨tv, hr1, hr2⟩ := c2 v hv hmid
      refine ⟨tv, ?_, hr2⟩
      rw [← d1 v (Or.inl hmid)]
      exact hr1
  · intro v hv
    cases hv with
    | inl hnf =>
      have hmid : v ∉ r1.2.1 := fun hm => hnf (a2 v hm)
      rw [d2 v (Or.inl hnf), d1 v (Or.inl hmid)]
    | inr hvis =>
      rw [d2 v (Or.inr (a1 v hvis)), d1 v (Or.inr hvis)]

/-- Bumping one freshly visited node satisfies the state part of the
postcondition. -/
theorem MC_bump {m : List (String × Task)} {visited : List String}
    {id : String} {t : Task} (hlook : alookup m id = some t)
    (hv : id ∉ visited) (evs : List Event) :
    MC m visited (aupdate m id (fun _ => bumpTask t), id :: visited, evs) := by
  refine ⟨fun v h => List.mem_cons_of_mem _ h, ?_, ?_, ?_⟩
  · intro v hvm hnv
    have hvid : v = id := by
      cases hvm with
      | head => rfl
      | tail _ h => exact absurd h hnv
    subst hvid
    refine ⟨t, hlook, ?_⟩
    rw [alookup_aupdate_self, hlook]
    rfl
  · intro v hv'
    have hne : v ≠ id := by
      intro heq
      subst heq
      cases hv' with
      | inl h => exact h (List.mem_cons_self _ _)
      | inr h => exact hv h
    exact alookup_aupdate_other m (fun _ => bumpTask t) hne
  · intro v
    show parentsOf (aupdate m id (fun _ => bumpTask t)) v = parentsOf m v
    unfold parentsOf
    by_cases hvid : v = id
    · subst hvid
      rw [alookup_aupdate_self, hlook]
      rfl
    · rw [alookup_aupdate_other _ _ hvid]

/-- Full postcondition of `markDfs` from start node `start`. -/
def MarkDfsPost (m : List (String × Task)) (visited : List String)
    (start : String)
    (r : List (String × Task) × List String × List Event) : Prop :=
  MC m visited r ∧
  (∀ v, v ∈ r.2.1 → v ∉ visited → parentsOf m v ⊆ r.2.1) ∧
  (((alookup m start).isSome ∨ start ∈ visited) → start ∈ r.2.1) ∧
  (∀ v, v ∈ r.2.1 → v ∈ visited ∨ Relation.ReflTransGen (parentEdge m) start v)

/-- Full postcondition of `markDfsParents` over the pending parent list. -/
def MarkParentsPost (m : List (String × Task)) (visited : List String)
    (ps : List String)
    (r : List (String × Task) × List String × List Event) : Prop :=
  MC m visited r ∧
  (∀ v, v ∈ r.2.1 → v ∉ visited → parentsOf m v ⊆ r.2.1) ∧
  (∀ p, p ∈ ps → ((alookup m p).isSome ∨ p ∈ visited) → p ∈ r.2.1) ∧
  (∀ v, v ∈ r.2.1 → v ∈ visited ∨
    ∃ p, p ∈ ps ∧ Relation.ReflTransGen (parentEdge m) p v)

theorem markDfs_spec : ∀ fuel : Nat,
    (∀ m visited id,
      unvisitedKeys (m.map Prod.fst) visited < fuel → wfParents m →
      MarkDfsPost m visited id (markDfs fuel m visited id)) ∧
    (∀ m visited ps,
      unvisitedKeys (m.map Prod.fst) visited < fuel → wfParents m →
      MarkParentsPost m visited ps (markDfsParentsWith (markDfs fuel) m visited ps)) := by
  intro fuel
  induction fuel with
  | zero =>
    exact ⟨fun m visited id hf _ => absurd hf (Nat.not_lt_zero _),
           fun m visited ps hf _ => absurd hf (Nat.not_lt_zero _)⟩
  | succ fuel ih =>
    have hd : ∀ m visited id,
        unvisitedKeys (m.map Prod.fst) visited < fuel + 1 → wfParents m →
        MarkDfsPost m visited id (markDfs (fuel + 1) m visited id) := by
      intro m visited id hfuel hwf
      unfold markDfs
      by_cases hv : id ∈ visited
      · rw [if_pos hv]
        refine ⟨MC_refl _ _ _, ?_, ?_, ?_⟩
        · intro v hvm hnv
          exact absurd hvm hnv
        · intro _
          exact hv
        · intro v hvm
          exact Or.inl hvm
      · rw [if_neg hv]
        cases hlook : alookup m id with
        | none =>
          refine ⟨MC_refl _ _ _, ?_, ?_, ?_⟩
          · intro v hvm hnv
            exact absurd hvm hnv
          · intro h
            cases h with
            | inl h =>
              rw [hlook] at h
              exact absurd h (by simp)
            | inr h => exact absurd h hv
          · intro v hvm
            exact Or.inl hvm
        | some t =>
          dsimp only
          rw [resetTask_bump]
          have hkeys : (aupdate m id (fun _ => bumpTask t)).map Prod.fst =
              m.map Prod.fst := aupdate_keys _ _ _
          have hlook1 : alookup (aupdate m id (fun _ => bumpTask t)) id =
              some (bumpTask t) := by
            rw [alookup_aupdate_self, hlook]
            rfl
          have hpar1 : ∀ v, parentsOf (aupdate m id (fun _ => bumpTask t)) v =
              parentsOf m v := by
            intro v
            unfold parentsOf
            by_cases hvid : v = id
            · subst hvid
              rw [hlook1, hlook]
              rfl
            · rw [alookup_aupdate_other _ _ hvid]
          have hwf1 : wfParents (aupdate m id (fun _ => bumpTask t)) := by
            intro v
            rw [hpar1 v, hkeys]
            exact hwf v
          have hfuel1 : unvisitedKeys
              ((aupdate m id (fun _ => bumpTask t)).map Prod.fst)
              (id :: visited) < fuel := by
            rw [hkeys]
            have h1 := unvisitedKeys_cons_lt (alookup_some_mem_keys hlook) hv
            omega
          obtain ⟨mcP, closP, startP, reachP⟩ :=
            ih.2 (aupdate m id (fun _ => bumpTask t)) (id :: visited)
              t.parents hfuel1 hwf1
          refine ⟨MC_trans (MC_bump hlook hv []) mcP, ?_, ?_, ?_⟩
          · intro v hvr hnv
            by_cases hvmid : v ∈ id :: visited
            · have hvid : v = id := by
                cases hvmid with
                | head => rfl
                | tail _ h => exact absurd h hnv
              subst hvid
              intro p hp
              have hpid : p ∈ t.parents := by
                unfold parentsOf at hp
                rw [hlook] at hp
                exact hp
              refine startP p hpid (Or.inl ?_)
              have hpk : p ∈ m.map Prod.fst := by
                refine hwf v ?_
                unfold parentsOf
                rw [hlook]
                exact hpid
              rw [← hkeys] at hpk
              exact alookup_isSome_of_mem hpk
            · have := closP v hvr hvmid
              intro p hp
              refine this ?_
              rw [hpar1 v]
              exact hp
          · intro _
            exact mcP.1 id (List.mem_cons_self _ _)
          · intro v hvr
            rcases reachP v hvr with hvmid | ⟨p, hp, hreach⟩
            · cases hvmid with
              | head => exact Or.inr Relation.ReflTransGen.refl
              | tail _ h => exact Or.inl h
            · refine Or.inr ?_
              have hreach' : Relation.ReflTransGen (parentEdge m) p v := by
                refine Relation.ReflTransGen.mono ?_ hreach
                intro a b hab
                unfold parentEdge at hab ⊢
                rw [hpar1 a] at hab
                exact hab
              refine Relation.ReflTransGen.head ?_ hreach'
              unfold parentEdge parentsOf
              rw [hlook]
              exact hp
    refine ⟨hd, ?_⟩
    intro m visited ps
    induction ps generalizing m visited with
    | nil =>
      intro hfuel hwf
      simp only [markDfsParentsWith]
      refine ⟨MC_refl _ _ _, ?_, ?_, ?_⟩
      · intro v hvm hnv
        exact absurd hvm hnv
      · intro p hp
        simp at hp
      · intro v hvm
        exact Or.inl hvm
    | cons p ps ihps =>
      intro hfuel hwf
      unfold markDfsParentsWith
      dsimp only
      obtain ⟨mc1, clos1, start1, reach1⟩ := hd m visited p hfuel hwf
      set r1 := markDfs (fuel + 1) m visited p with hr1
      have hkeys1 : r1.1.map Prod.fst = m.map Prod.fst := (markDfs_keys _).1 _ _ _
      have hfuel2 : unvisitedKeys (r1.1.map Prod.fst) r1.2.1 < fuel + 1 := by
        rw [hkeys1]
        have hsub : visited ⊆ r1.2.1 := fun x hx => mc1.1 x hx
        have := unvisitedKeys_le_of_subset (m.map Prod.fst) hsub
        omega
      have hwf2 : wfParents r1.1 := by
        intro v
        rw [mc1.2.2.2 v, hkeys1]
        exact hwf v
      obtain ⟨mc2, clos2, start2, reach2⟩ := ihps r1.1 r1.2.1 hfuel2 hwf2
      refine ⟨MC_trans mc1 mc2, ?_, ?_, ?_⟩
      · intro v hvr hnv
        by_cases hvmid : v ∈ r1.2.1
        · intro q hq
          exact mc2.1 q (clos1 v hvmid hnv hq)
        · intro q hq
          refine clos2 v hvr hvmid ?_
          rw [mc1.2.2.2 v]
          exact hq
      · intro q hq hstart
        cases hq with
        | head =>
          exact mc2.1 p (start1 hstart)
        | tail _ hmem =>
          refine start2 q hmem ?_
          cases hstart with
          | inl hs =>
            refine Or.inl ?_
            have hqk : q ∈ m.map Prod.fst := by
              cases hlq : alookup m q with
              | none => rw [hlq] at hs; exact absurd hs (by simp)
              | some tq => exact alookup_some_mem_keys hlq
            rw [← hkeys1] at hqk
            exact alookup_isSome_of_mem hqk
          | inr hs =>
            exact Or.inr (mc1.1 q hs)
      · intro v hvr
        rcases reach2 v hvr with hvmid | ⟨q, hq, hreach⟩
        · rcases reach1 v hvmid with hvis | hreach
          · exact Or.inl hvis
          · exact Or.inr ⟨p, List.mem_cons_self _ _, hreach⟩
        · refine Or.inr ⟨q, List.mem_cons_of_mem _ hq, ?_⟩
          refine Relation.ReflTransGen.mono ?_ hreach
          intro a b hab
          unfold parentEdge at hab ⊢
          rw [mc1.2.2.2 a] at hab
          exact hab

instance (m : List (String × Task)) (a b : String) :
    Decidable (parentEdge m a b) := by
  unfold parentEdge; infer_instance

theorem unvisitedKeys_nil (ks : List String) : unvisitedKeys ks [] = ks.length := by
  unfold unvisitedKeys
  simp

/-- Claim C3: `markChanged(t)` on a present task `t` (in a state whose
parent pointers resolve, as `setTasks` guarantees) bumps the generation of
`t` and of every transitive ancestor by exactly one each and clears their
executions, while every task that is not an ancestor-or-self of `t` — in
particular every proper descendant — keeps its entry (generation and
execution included) unchanged. -/
theorem markChanged_bumps_exactly_ancestors (s : TaskTree) (t : String)
    (hwf : wfParents s.tasks) (hpresent : (alookup s.tasks t).isSome) :
    (∀ v, ancestorReach s.tasks t v →
      ∃ tv, alookup s.tasks v = some tv ∧
        alookup (markChangedFn s t).1.tasks v = some (bumpTask tv)) ∧
    (∀ v, ¬ ancestorReach s.tasks t v →
      alookup (markChangedFn s t).1.tasks v = alookup s.tasks v) := by
  obtain ⟨tk, hlook⟩ : ∃ tk, alookup s.tasks t = some tk := by
    cases h : alookup s.tasks t with
    | none => rw [h] at hpresent; exact absurd hpresent (by simp)
    | some tk => exact ⟨tk, rfl⟩
  have hfuel : unvisitedKeys (s.tasks.map Prod.fst) [] < s.tasks.length + 1 := by
    rw [unvisitedKeys_nil, List.length_map]
    exact Nat.lt_succ_self _
  obtain ⟨mc, clos, start, reach⟩ :=
    (markDfs_spec (s.tasks.length + 1)).1 s.tasks [] t hfuel hwf
  have htasks : (markChangedFn s t).1.tasks =
      (markDfs (s.tasks.length + 1) s.tasks [] t).1 := by
    unfold markChangedFn
    rw [hlook]
    exact computeTreeStatus_tasks _
  have hmem_iff : ∀ v, v ∈ (markDfs (s.tasks.length + 1) s.tasks [] t).2.1 ↔
      ancestorReach s.tasks t v := by
    intro v
    constructor
    · intro hv
      rcases reach v hv with h | h
      · simp at h
      · exact h
    · intro hv
      induction hv with
      | refl => exact start (Or.inl hpresent)
      | tail _ hbc ih => exact clos _ ih (by simp) hbc
  constructor
  · intro v hv
    rw [htasks]
    exact mc.2.1 v ((hmem_iff v).mpr hv) (by simp)
  · intro v hv
    rw [htasks]
    refine mc.2.2.1 v (Or.inl ?_)
    intro hmem
    exact hv ((hmem_iff v).mp hmem)

/-- Closure certificate for refuting reachability on concrete graphs: if a
finite set contains the start and is closed under parent edges, nothing
outside it is reachable. -/
theorem not_ancestorReach_of_closed (m : List (String × Task))
    (S : List String) {start v : String} (hstart : start ∈ S)
    (hclosed : ∀ x ∈ S, parentsOf m x ⊆ S) (hv : v ∉ S) :
    ¬ ancestorReach m start v := by
  intro h
  have hall : ∀ w, ancestorReach m start w → w ∈ S := by
    intro w hw
    induction hw with
    | refl => exact hstart
    | tail _ hbc ih => exact hclosed _ ih hbc
  exact hv (hall v h)

/-- A concrete chain `root → middle → leaf` built by `setTasks`, used to
witness the `markChanged` characterization. -/
def c3state : TaskTree :=
  (setTasks [("root", ["middle"]), ("middle", ["leaf"]), ("leaf", [])]
    (TaskTree.init 2)).2.1

theorem markChanged_bumps_exactly_ancestors_witness :
    wfParents c3state.tasks ∧
    (alookup c3state.tasks "middle").isSome ∧
    ancestorReach c3state.tasks "middle" "root" ∧
    ¬ ancestorReach c3state.tasks "middle" "leaf" ∧
    (∃ tv, alookup c3state.tasks "root" = some tv ∧
      alookup (markChangedFn c3state "middle").1.tasks "root" =
        some (bumpTask tv)) ∧
    alookup (markChangedFn c3state "middle").1.tasks "leaf" =
      alookup c3state.tasks "leaf" := by
  have hwf : wfParents c3state.tasks := wfParents_of_entries (by decide)
  have hpres : (alookup c3state.tasks "middle").isSome := by decide
  have hreach : ancestorReach c3state.tasks "middle" "root" :=
    Relation.ReflTransGen.single (by decide)
  have hnot : ¬ ancestorReach c3state.tasks "middle" "leaf" :=
    not_ancestorReach_of_closed _ ["middle", "root"] (by decide) (by decide)
      (by decide)
  have h := markChanged_bumps_exactly_ancestors c3state "middle" hwf hpres
  exact ⟨hwf, hpres, hreach, hnot, h.1 "root" hreach, h.2 "leaf" hnot⟩

/-! ## Claim C1 — `setTasks` rejects exactly the cyclic graphs

Soundness (a returned slice is a real cycle) and completeness (an acyclic
verdict is correct) of `findDependencyCycle`'s grey-stack DFS. -/

theorem firstIndexOf_none {l : List String} {a : String}
    (h : firstIndexOf l a = none) : a ∉ l := by
  induction l with
  | nil => simp
  | cons x xs ih =>
    unfold firstIndexOf at h
    by_cases hx : x = a
    · rw [if_pos hx] at h
      exact absurd h (by simp)
    · rw [if_neg hx] at h
      intro hmem
      cases hmem with
      | head => exact hx rfl
      | tail _ hm =>
        cases hfi : firstIndexOf xs a with
        | none => exact ih hfi hm
        | some i => rw [hfi] at h; exact absurd h (by simp)

theorem firstIndexOf_drop {l : List String} {a : String} {i : Nat}
    (h : firstIndexOf l a = some i) : ∃ rest, l.drop i = a :: rest := by
  induction l generalizing i with
  | nil => simp [firstIndexOf] at h
  | cons x xs ih =>
    unfold firstIndexOf at h
    by_cases hx : x = a
    · rw [if_pos hx] at h
      injection h with h
      subst h
      subst hx
      exact ⟨xs, rfl⟩
    · rw [if_neg hx] at h
      cases hfi : firstIndexOf xs a with
      | none =>
        rw [hfi] at h
        simp at h
      | some j =>
        rw [hfi] at h
        simp at h
        subst h
        exact ih hfi

theorem mem_dedupFAux {l seen : List String} {x : String} :
    x ∈ dedupFAux seen l ↔ x ∈ l ∧ x ∉ seen := by
  induction l generalizing seen with
  | nil => simp [dedupFAux]
  | cons y ys ih =>
    unfold dedupFAux
    by_cases hy : y ∈ seen
    · rw [if_pos hy, ih]
      constructor
      · rintro ⟨h1, h2⟩
        exact ⟨List.mem_cons_of_mem _ h1, h2⟩
      · rintro ⟨h1, h2⟩
        refine ⟨?_, h2⟩
        cases h1 with
        | head => exact absurd hy h2
        | tail _ hm => exact hm
    · rw [if_neg hy]
      constructor
      · intro h
        cases h with
        | head => exact ⟨List.mem_cons_self _ _, hy⟩
        | tail _ hm =>
          have := ih.mp hm
          simp only [List.mem_cons] at this
          refine ⟨List.mem_cons_of_mem _ this.1, fun hs => this.2 (Or.inr hs)⟩
      · rintro ⟨h1, h2⟩
        cases h1 with
        | head => exact List.mem_cons_self _ _
        | tail _ hm =>
          by_cases hxy : x = y
          · subst hxy
            exact List.mem_cons_self _ _
          · refine List.mem_cons_of_mem _ (ih.mpr ⟨hm, ?_⟩)
            simp [hxy, h2]

theorem mem_dedupF {l : List String} {x : String} : x ∈ dedupF l ↔ x ∈ l := by
  unfold dedupF
  rw [mem_dedupFAux]
  simp

theorem medge_mem_keysList {A : Multimap} {a b : String} (h : medge A a b) :
    a ∈ Multimap.keysList A := by
  unfold medge Multimap.getAll at h
  rw [mem_dedupF] at h
  simp only [List.mem_flatten, List.mem_map, List.mem_filter] at h
  obtain ⟨vs, ⟨e, ⟨he, hk⟩, hvs⟩, _⟩ := h
  unfold Multimap.keysList
  rw [mem_dedupF]
  simp only [decide_eq_true_eq] at hk
  subst hvs
  rw [← hk]
  exact List.mem_map_of_mem Prod.fst he

theorem medge_mem_taskIds {A : Multimap} {a b : String} (h : medge A a b) :
    b ∈ Multimap.taskIds A := by
  unfold Multimap.taskIds
  rw [mem_dedupF]
  refine List.mem_append_left _ ?_
  unfold Multimap.valuesList
  rw [List.mem_flatMap]
  exact ⟨a, medge_mem_keysList h, h⟩

theorem keysList_subset_taskIds {A : Multimap} {k : String}
    (h : k ∈ Multimap.keysList A) : k ∈ Multimap.taskIds A := by
  unfold Multimap.taskIds
  rw [mem_dedupF]
  exact List.mem_append_right _ h

/-- A nonempty list is a cycle of the adjacency if consecutive elements are
edges and the last element points back at the first. -/
def isCycleList (A : Multimap) (c : List String) : Prop :=
  c ≠ [] ∧ List.Chain' (medge A) c ∧
  ∀ x ∈ c.getLast?, ∀ y ∈ c.head?, medge A x y

theorem chain'_reflTransGen_head_getLast {r : String → String → Prop} :
    ∀ l : List String, List.Chain' r l →
    ∀ a ∈ l.head?, ∀ b ∈ l.getLast?, Relation.ReflTransGen r a b := by
  intro l
  induction l with
  | nil => intro _ a ha; simp at ha
  | cons x xs ih =>
    intro hchain a ha b hb
    simp only [List.head?_cons, Option.mem_def, Option.some_inj] at ha
    subst ha
    cases xs with
    | nil =>
      simp only [List.getLast?_singleton, Option.mem_def, Option.some_inj] at hb
      subst hb
      exact Relation.ReflTransGen.refl
    | cons y ys =>
      have hedge : r x y := (List.chain'_cons.mp hchain).1
      have htail : List.Chain' r (y :: ys) := (List.chain'_cons.mp hchain).2
      rw [List.getLast?_cons_cons] at hb
      exact Relation.ReflTransGen.head hedge (ih htail y rfl b hb)

theorem isCycleList_hasCycle {A : Multimap} {c : List String}
    (h : isCycleList A c) : hasCycle A := by
  obtain ⟨hne, hchain, hclose⟩ := h
  cases c with
  | nil => exact absurd rfl hne
  | cons v rest =>
    obtain ⟨L, hL⟩ : ∃ L, (v :: rest).getLast? = some L :=
      ⟨(v :: rest).getLast (by simp), List.getLast?_eq_getLast _ _⟩
    have hreach : Relation.ReflTransGen (medge A) v L :=
      chain'_reflTransGen_head_getLast _ hchain v rfl L hL
    have hedge : medge A L v := hclose L hL v rfl
    exact ⟨v, Relation.TransGen.tail' hreach hedge⟩

theorem chain'_drop {r : String → String → Prop} :
    ∀ (i : Nat) (l : List String), List.Chain' r l → List.Chain' r (l.drop i) := by
  intro i
  induction i with
  | zero => intro l h; exact h
  | succ i ih =>
    intro l h
    cases l with
    | nil => simp
    | cons x xs =>
      rw [List.drop_succ_cons]
      exact ih xs (List.Chain'.tail h)

theorem getLast?_drop {l : List String} : ∀ {i : Nat}, l.drop i ≠ [] →
    (l.drop i).getLast? = l.getLast? := by
  induction l with
  | nil => intro i h; simp at h
  | cons x xs ih =>
    intro i h
    cases i with
    | zero => rfl
    | succ i =>
      rw [List.drop_succ_cons] at h ⊢
      rw [ih h]
      have hxs : xs ≠ [] := by
        intro hxs
        rw [hxs] at h
        simp at h
      cases xs with
      | nil => exact absurd rfl hxs
      | cons y ys => rw [List.getLast?_cons_cons]

theorem findCycleAux_sound (A : Multimap) : ∀ fuel : Nat,
    (∀ visited stack v c vis,
      List.Chain' (medge A) (stack ++ [v]) →
      findCycleAux A fuel visited stack v = (some c, vis) →
      isCycleList A c) ∧
    (∀ visited stack cs c vis,
      List.Chain' (medge A) stack →
      (∀ x ∈ cs, ∀ L ∈ stack.getLast?, medge A L x) →
      findCycleChildrenWith (findCycleAux A fuel) visited stack cs =
        (some c, vis) →
      isCycleList A c) := by
  intro fuel
  induction fuel with
  | zero =>
    have hd : ∀ visited stack v c vis,
        List.Chain' (medge A) (stack ++ [v]) →
        findCycleAux A 0 visited stack v = (some c, vis) → isCycleList A c := by
      intro visited stack v c vis _ heq
      simp [findCycleAux] at heq
    refine ⟨hd, ?_⟩
    intro visited stack cs
    induction cs generalizing visited with
    | nil =>
      intro c vis _ _ heq
      simp [findCycleChildrenWith] at heq
    | cons x xs ih =>
      intro c vis hchain hedges heq
      unfold findCycleChildrenWith at heq
      cases hx : findCycleAux A 0 visited stack x with
      | mk o vis1 =>
        cases o with
        | some cyc =>
          rw [hx] at heq
          simp only at heq
          have hchain' : List.Chain' (medge A) (stack ++ [x]) := by
            rw [List.chain'_append]
            refine ⟨hchain, List.chain'_singleton _, ?_⟩
            intro L hL y hy
            simp only [List.head?_cons, Option.mem_def, Option.some_inj] at hy
            subst hy
            exact hedges x (List.mem_cons_self _ _) L hL
          injection heq with heq1 heq2
          injection heq1 with heq1
          rw [← heq1]
          exact hd visited stack x cyc vis1 hchain' hx
        | none =>
          rw [hx] at heq
          simp only at heq
          exact ih vis1 c vis hchain
            (fun y hy L hL => hedges y (List.mem_cons_of_mem _ hy) L hL) heq
  | succ fuel ih =>
    have hd : ∀ visited stack v c vis,
        List.Chain' (medge A) (stack ++ [v]) →
        findCycleAux A (fuel + 1) visited stack v = (some c, vis) →
        isCycleList A c := by
      intro visited stack v c vis hchain heq
      unfold findCycleAux at heq
      cases hfi : firstIndexOf stack v with
      | some i =>
        rw [hfi] at heq
        simp only at heq
        injection heq with heq1 heq2
        injection heq1 with heq1
        subst heq1
        obtain ⟨rest, hdrop⟩ := firstIndexOf_drop hfi
        obtain ⟨hcs, _, hlast⟩ := List.chain'_append.mp hchain
        refine ⟨by rw [hdrop]; simp, ?_, ?_⟩
        · exact chain'_drop i stack hcs
        · intro x hx y hy
          rw [hdrop] at hy
          simp only [List.head?_cons, Option.mem_def, Option.some_inj] at hy
          subst hy
          have hne : stack.drop i ≠ [] := by rw [hdrop]; simp
          rw [getLast?_drop hne] at hx
          exact hlast x hx v (by simp)
      | none =>
        rw [hfi] at heq
        by_cases hv : v ∈ visited
        · rw [if_pos hv] at heq
          simp at heq
        · rw [if_neg hv] at heq
          refine ih.2 (v :: visited) (stack ++ [v]) (Multimap.getAll A v) c vis
            hchain ?_ heq
          intro x hx L hL
          rw [List.getLast?_concat] at hL
          simp only [Option.mem_def, Option.some_inj] at hL
          subst hL
          exact hx
    refine ⟨hd, ?_⟩
    intro visited stack cs
    induction cs generalizing visited with
    | nil =>
      intro c vis _ _ heq
      simp [findCycleChildrenWith] at heq
    | cons x xs ihx =>
      intro c vis hchain hedges heq
      unfold findCycleChildrenWith at heq
      cases hx : findCycleAux A (fuel + 1) visited stack x with
      | mk o vis1 =>
        cases o with
        | some cyc =>
          rw [hx] at heq
          simp only at heq
          have hchain' : List.Chain' (medge A) (stack ++ [x]) := by
            rw [List.chain'_append]
            refine ⟨hchain, List.chain'_singleton _, ?_⟩
            intro L hL y hy
            simp only [List.head?_cons, Option.mem_def, Option.some_inj] at hy
            subst hy
            exact hedges x (List.mem_cons_self _ _) L hL
          injection heq with heq1 heq2
          injection heq1 with heq1
          rw [← heq1]
          exact hd visited stack x cyc vis1 hchain' hx
        | none =>
          rw [hx] at heq
          simp only at heq
          exact ihx vis1 c vis hchain
            (fun y hy L hL => hedges y (List.mem_cons_of_mem _ hy) L hL) heq

theorem findCycleKeys_sound (A : Multimap) (fuel : Nat) :
    ∀ ks visited c, findCycleKeys A fuel visited ks = some c →
    isCycleList A c := by
  intro ks
  induction ks with
  | nil =>
    intro visited c heq
    simp [findCycleKeys] at heq
  | cons k ks ih =>
    intro visited c heq
    unfold findCycleKeys at heq
    cases hk : findCycleAux A fuel visited [] k with
    | mk o vis1 =>
      cases o with
      | some cyc =>
        rw [hk] at heq
        simp only [Option.some_inj] at heq
        subst heq
        exact (findCycleAux_sound A fuel).1 visited [] k cyc vis1
          (by simp) hk
      | none =>
        rw [hk] at heq
        exact ih vis1 c heq

/-- Soundness of `findDependencyCycle`: a detected cycle is a real cycle of
the adjacency. -/
theorem findDependencyCycle_sound {A : Multimap} {c : List String}
    (h : findDependencyCycle A = some c) : hasCycle A :=
  isCycleList_hasCycle (findCycleKeys_sound A _ _ _ _ h)

theorem findDependencyCycle_of_acyclic {A : Multimap} (h : ¬ hasCycle A) :
    findDependencyCycle A = none := by
  cases hc : findDependencyCycle A with
  | none => rfl
  | some c => exact absurd (findDependencyCycle_sound hc) h

/-- The classic white/grey/black DFS invariant: every visited node that is
off the stack (black) has all successors visited-and-off-stack, and no black
node lies on a cycle. -/
def blackClosed (A : Multimap) (visited stack : List String) : Prop :=
  ∀ v, v ∈ visited → v ∉ stack →
    (∀ c, medge A v c → c ∈ visited ∧ c ∉ stack) ∧
    ¬ Relation.TransGen (medge A) v v

theorem blackClosed_reach {A : Multimap} {visited stack : List String}
    (h : blackClosed A visited stack) {c w : String}
    (hc : c ∈ visited) (hcs : c ∉ stack)
    (hr : Relation.ReflTransGen (medge A) c w) : w ∈ visited ∧ w ∉ stack := by
  induction hr with
  | refl => exact ⟨hc, hcs⟩
  | tail _ hbc ih => exact ((h _ ih.1 ih.2).1 _ hbc)

theorem nodup_length_le {stack U : List String} (hnd : stack.Nodup)
    (hsub : ∀ x ∈ stack, x ∈ U) : stack.length ≤ U.length :=
  List.Subperm.length_le (List.Nodup.subperm hnd (fun x hx => hsub x hx))

theorem findCycleAux_complete (A : Multimap) : ∀ fuel : Nat,
    (∀ visited stack v vis,
      (Multimap.taskIds A).length + 1 ≤ fuel + stack.length →
      stack.Nodup →
      (∀ x ∈ stack, x ∈ Multimap.taskIds A) →
      (∀ x ∈ stack, x ∈ visited) →
      v ∈ Multimap.taskIds A →
      blackClosed A visited stack →
      findCycleAux A fuel visited stack v = (none, vis) →
      visited ⊆ vis ∧ v ∈ vis ∧ v ∉ stack ∧ blackClosed A vis stack) ∧
    (∀ visited stack cs vis,
      (Multimap.taskIds A).length + 1 ≤ fuel + stack.length →
      stack.Nodup →
      (∀ x ∈ stack, x ∈ Multimap.taskIds A) →
      (∀ x ∈ stack, x ∈ visited) →
      (∀ c ∈ cs, c ∈ Multimap.taskIds A) →
      blackClosed A visited stack →
      findCycleChildrenWith (findCycleAux A fuel) visited stack cs = (none, vis) →
      visited ⊆ vis ∧ (∀ c ∈ cs, c ∈ vis ∧ c ∉ stack) ∧
        blackClosed A vis stack) := by
  intro fuel
  induction fuel with
  | zero =>
    have habs : ∀ stack : List String,
        (Multimap.taskIds A).length + 1 ≤ 0 + stack.length →
        stack.Nodup → (∀ x ∈ stack, x ∈ Multimap.taskIds A) → False := by
      intro stack hacc hnd hsub
      have := nodup_length_le hnd hsub
      omega
    exact ⟨fun visited stack v vis hacc hnd hsub _ _ _ _ =>
        (habs stack hacc hnd hsub).elim,
      fun visited stack cs vis hacc hnd hsub _ _ _ _ =>
        (habs stack hacc hnd hsub).elim⟩
  | succ fuel ih =>
    have hd : ∀ visited stack v vis,
        (Multimap.taskIds A).length + 1 ≤ (fuel + 1) + stack.length →
        stack.Nodup →
        (∀ x ∈ stack, x ∈ Multimap.taskIds A) →
        (∀ x ∈ stack, x ∈ visited) →
        v ∈ Multimap.taskIds A →
        blackClosed A visited stack →
        findCycleAux A (fuel + 1) visited stack v = (none, vis) →
        visited ⊆ vis ∧ v ∈ vis ∧ v ∉ stack ∧ blackClosed A vis stack := by
      intro visited stack v vis hacc hnd hsubU hsubV hvU hbc heq
      unfold findCycleAux at heq
      cases hfi : firstIndexOf stack v with
      | some i =>
        rw [hfi] at heq
        simp at heq
      | none =>
        rw [hfi] at heq
        have hvstack : v ∉ stack := firstIndexOf_none hfi
        by_cases hv : v ∈ visited
        · rw [if_pos hv] at heq
          injection heq with heq1 heq2
          subst heq2
          exact ⟨fun x hx => hx, hv, hvstack, hbc⟩
        · rw [if_neg hv] at heq
          have hnd' : (stack ++ [v]).Nodup := by
            rw [List.nodup_append]
            refine ⟨hnd, by simp, ?_⟩
            intro a ha hamem
            simp only [List.mem_singleton] at hamem
            subst hamem
            exact hvstack ha
          have hsubU' : ∀ x ∈ stack ++ [v], x ∈ Multimap.taskIds A := by
            intro x hx
            rcases List.mem_append.mp hx with hx | hx
            · exact hsubU x hx
            · simp only [List.mem_singleton] at hx
              subst hx
              exact hvU
          have hsubV' : ∀ x ∈ stack ++ [v], x ∈ v :: visited := by
            intro x hx
            rcases List.mem_append.mp hx with hx | hx
            · exact List.mem_cons_of_mem _ (hsubV x hx)
            · simp only [List.mem_singleton] at hx
              subst hx
              exact List.mem_cons_self _ _
          have hcsU : ∀ c ∈ Multimap.getAll A v, c ∈ Multimap.taskIds A :=
            fun c hc => medge_mem_taskIds hc
          have hbc' : blackClosed A (v :: visited) (stack ++ [v]) := by
            intro u hu hus
            have huv : u ≠ v := by
              intro heq'
              subst heq'
              exact hus (List.mem_append_right _ (List.mem_cons_self _ _))
            have humem : u ∈ visited := by
              cases hu with
              | head => exact absurd rfl huv
              | tail _ h => exact h
            have hustack : u ∉ stack :=
              fun h => hus (List.mem_append_left _ h)
            obtain ⟨hclose, hcyc⟩ := hbc u humem hustack
            refine ⟨?_, hcyc⟩
            intro c hcedge
            obtain ⟨hc1, hc2⟩ := hclose c hcedge
            have hcv : c ≠ v := by
              intro heq'
              subst heq'
              exact hv hc1
            refine ⟨List.mem_cons_of_mem _ hc1, ?_⟩
            intro hc3
            rcases List.mem_append.mp hc3 with h | h
            · exact hc2 h
            · simp only [List.mem_singleton] at h
              exact hcv h
          have hacc' : (Multimap.taskIds A).length + 1 ≤
              fuel + (stack ++ [v]).length := by
            rw [List.length_append]
            simp only [List.length_singleton]
            omega
          obtain ⟨hsub1, hcs1, hbc1⟩ := ih.2 (v :: visited) (stack ++ [v])
            (Multimap.getAll A v) vis hacc' hnd' hsubU' hsubV' hcsU hbc' heq
          refine ⟨fun x hx => hsub1 (List.mem_cons_of_mem _ hx),
            hsub1 (List.mem_cons_self _ _), hvstack, ?_⟩
          intro u hu hus
          by_cases huv : u = v
          · subst huv
            constructor
            · intro c hcedge
              obtain ⟨hc1, hc2⟩ := hcs1 c hcedge
              exact ⟨hc1, fun h => hc2 (List.mem_append_left _ h)⟩
            · intro hcyc
              obtain ⟨b, hedge, hreach⟩ := Relation.TransGen.head'_iff.mp hcyc
              obtain ⟨hb1, hb2⟩ := hcs1 b hedge
              obtain ⟨_, hu2⟩ := blackClosed_reach hbc1 hb1 hb2 hreach
              exact hu2 (List.mem_append_right _ (List.mem_cons_self _ _))
          · have hus' : u ∉ stack ++ [v] := by
              intro h
              rcases List.mem_append.mp h with h | h
              · exact hus h
              · simp only [List.mem_singleton] at h
                exact huv h
            obtain ⟨hclose, hcyc⟩ := hbc1 u hu hus'
            refine ⟨?_, hcyc⟩
            intro c hcedge
            obtain ⟨hc1, hc2⟩ := hclose c hcedge
            exact ⟨hc1, fun h => hc2 (List.mem_append_left _ h)⟩
    refine ⟨hd, ?_⟩
    intro visited stack cs
    induction cs generalizing visited with
    | nil =>
      intro vis hacc hnd hsubU hsubV hcsU hbc heq
      unfold findCycleChildrenWith at heq
      injection heq with heq1 heq2
      subst heq2
      exact ⟨fun x hx => hx, fun c hc => absurd hc (by simp), hbc⟩
    | cons c cs ihcs =>
      intro vis hacc hnd hsubU hsubV hcsU hbc heq
      unfold findCycleChildrenWith at heq
      cases hc : findCycleAux A (fuel + 1) visited stack c with
      | mk o vis1 =>
        cases o with
        | some cyc =>
          rw [hc] at heq
          simp at heq
        | none =>
          rw [hc] at heq
          simp only at heq
          obtain ⟨hsub1, hcv1, hcst1, hbc1⟩ := hd visited stack c vis1 hacc hnd
            hsubU hsubV (hcsU c (List.mem_cons_self _ _)) hbc hc
          obtain ⟨hsub2, hcs2, hbc2⟩ := ihcs vis1 vis hacc hnd hsubU
            (fun x hx => hsub1 (hsubV x hx))
            (fun x hx => hcsU x (List.mem_cons_of_mem _ hx)) hbc1 heq
          refine ⟨fun x hx => hsub2 (hsub1 hx), ?_, hbc2⟩
          intro x hx
          cases hx with
          | head => exact ⟨hsub2 hcv1, hcst1⟩
          | tail _ hm => exact hcs2 x hm

theorem findCycleKeys_complete (A : Multimap) (fuel : Nat)
    (hfuel : (Multimap.taskIds A).length + 1 ≤ fuel) :
    ∀ ks visited,
    (∀ k ∈ ks, k ∈ Multimap.taskIds A) →
    blackClosed A visited [] →
    findCycleKeys A fuel visited ks = none →
    ∃ vis, visited ⊆ vis ∧ (∀ k ∈ ks, k ∈ vis) ∧ blackClosed A vis [] := by
  intro ks
  induction ks with
  | nil =>
    intro visited _ hbc _
    exact ⟨visited, fun x hx => hx, fun k hk => absurd hk (by simp), hbc⟩
  | cons k ks ih =>
    intro visited hksU hbc heq
    unfold findCycleKeys at heq
    cases hk : findCycleAux A fuel visited [] k with
    | mk o vis1 =>
      cases o with
      | some cyc =>
        rw [hk] at heq
        simp at heq
      | none =>
        rw [hk] at heq
        obtain ⟨hsub1, hkv1, _, hbc1⟩ := (findCycleAux_complete A fuel).1
          visited [] k vis1 (by simpa using hfuel) (by simp) (by simp) (by simp)
          (hksU k (List.mem_cons_self _ _)) hbc hk
        obtain ⟨vis, hsub2, hks2, hbc2⟩ := ih vis1
          (fun x hx => hksU x (List.mem_cons_of_mem _ hx)) hbc1 heq
        refine ⟨vis, fun x hx => hsub2 (hsub1 hx), ?_, hbc2⟩
        intro x hx
        cases hx with
        | head => exact hsub2 hkv1
        | tail _ hm => exact hks2 x hm

/-- Completeness of `findDependencyCycle`: an acyclic verdict means the
adjacency really has no reachable cycle. -/
theorem findDependencyCycle_none_acyclic {A : Multimap}
    (h : findDependencyCycle A = none) : ¬ hasCycle A := by
  rintro ⟨v, hcyc⟩
  unfold findDependencyCycle at h
  obtain ⟨vis, _, hkeys, hbc⟩ := findCycleKeys_complete A
    ((Multimap.taskIds A).length + 1) (Nat.le_refl _)
    (Multimap.keysList A) []
    (fun k hk => keysList_subset_taskIds hk)
    (fun u hu => absurd hu (by simp)) h
  have hvkey : v ∈ Multimap.keysList A := by
    obtain ⟨b, hedge, _⟩ := Relation.TransGen.head'_iff.mp hcyc
    exact medge_mem_keysList hedge
  exact (hbc v (hkeys v hvkey) (by simp)).2 hcyc

/-- Claim C1: `setTasks(A)` throws `CycleError` exactly when the adjacency
contains a (reachable) cycle — also when every node lies on a cycle — and in
that case the tree state is returned untouched with no event emitted;
conversely an acyclic adjacency is accepted without throwing. -/
theorem setTasks_rejects_exactly_cycles (A : Multimap) (s : TaskTree) :
    (hasCycle A → ∃ cyc, setTasks A s = (some cyc, s, [])) ∧
    (¬ hasCycle A → (setTasks A s).1 = none) := by
  constructor
  · intro hcyc
    cases hc : findDependencyCycle A with
    | none => exact absurd hcyc (findDependencyCycle_none_acyclic hc)
    | some c =>
      refine ⟨c, ?_⟩
      unfold setTasks
      rw [hc]
  · intro hnc
    unfold setTasks
    rw [findDependencyCycle_of_acyclic hnc]

theorem setTasks_rejects_exactly_cycles_witness :
    hasCycle [("a", ["b"]), ("b", ["a"])] ∧
    ¬ hasCycle [("a", ["b"])] ∧
    (∃ cyc, setTasks [("a", ["b"]), ("b", ["a"])] (TaskTree.init 4) =
      (some cyc, TaskTree.init 4, [])) ∧
    (setTasks [("a", ["b"])] (TaskTree.init 4)).1 = none := by
  have e1 : medge [("a", ["b"]), ("b", ["a"])] "a" "b" := by decide
  have e2 : medge [("a", ["b"]), ("b", ["a"])] "b" "a" := by decide
  have h1 : hasCycle [("a", ["b"]), ("b", ["a"])] :=
    ⟨"a", Relation.TransGen.head e1 (Relation.TransGen.single e2)⟩
  have h2 : ¬ hasCycle [("a", ["b"])] :=
    findDependencyCycle_none_acyclic (by decide)
  exact ⟨h1, h2,
    (setTasks_rejects_exactly_cycles [("a", ["b"]), ("b", ["a"])]
      (TaskTree.init 4)).1 h1,
    (setTasks_rejects_exactly_cycles [("a", ["b"])] (TaskTree.init 4)).2 h2⟩

/-! ## Per-execution event protocol -/

theorem finResetSeq_append (t₁ t₂ : List Event) (eid : Nat) :
    finResetSeq (t₁ ++ t₂) eid = finResetSeq t₁ eid ++ finResetSeq t₂ eid := by
  simp [finResetSeq]

theorem finResetSeq_started (x : String) (n eid : Nat) :
    finResetSeq [Event.taskStarted x n] eid = [] := by
  simp [finResetSeq]

theorem finResetSeq_reset (x : String) (n eid : Nat) :
    finResetSeq [Event.taskReset x n] eid = if n = eid then [false] else [] := by
  by_cases h : n = eid <;> simp [finResetSeq, h]

theorem finResetSeq_fin (x : String) (n eid : Nat) :
    finResetSeq [Event.taskFinished x n] eid = if n = eid then [true] else [] := by
  by_cases h : n = eid <;> simp [finResetSeq, h]

theorem finResetSeq_setTreeStatus (s : TaskTree) (st : TreeStatus) (eid : Nat) :
    finResetSeq (setTreeStatus s st).2 eid = [] := by
  unfold setTreeStatus; split <;> rfl

theorem finResetSeq_computeTreeStatus (s : TaskTree) (eid : Nat) :
    finResetSeq (computeTreeStatus s).2 eid = [] := by
  unfold computeTreeStatus
  dsimp only
  split <;> exact finResetSeq_setTreeStatus _ _ _

theorem nodup_middle_iff {α : Type} (a : α) (l₁ l₂ : List α) :
    (l₁ ++ a :: l₂).Nodup ↔ a ∉ (l₁ ++ l₂) ∧ (l₁ ++ l₂).Nodup := by
  rw [List.perm_middle.nodup_iff, List.nodup_cons]

theorem InvL_silent {l : List (Nat × Option Bool)} {nid : Nat} {tr : List Event}
    (evs : List Event) (hsil : ∀ eid, finResetSeq evs eid = [])
    (h : InvL l nid tr) : InvL l nid (tr ++ evs) := by
  obtain ⟨ha, hb, hc, hd, he⟩ := h
  have hs : ∀ eid, finResetSeq (tr ++ evs) eid = finResetSeq tr eid := by
    intro eid
    rw [finResetSeq_append, hsil, List.append_nil]
  refine ⟨ha, hb, ?_, ?_, ?_⟩
  · intro eid hle
    rw [hs]; exact hc eid hle
  · intro p hp
    refine ⟨?_, ?_⟩
    · intro h0; rw [hs]; exact (hd p hp).1 h0
    · intro b hbb; rw [hs]; exact (hd p hp).2 b hbb
  · intro eid hlt hnp
    rw [hs]; exact he eid hlt hnp

theorem InvL_reset {l₁ l₂ : List (Nat × Option Bool)} {nid : Nat}
    {tr : List Event} {e0 : Nat} {s0 : Option Bool} (x : String)
    (h : InvL (l₁ ++ (e0, s0) :: l₂) nid tr) :
    InvL (l₁ ++ l₂) nid (tr ++ [Event.taskReset x e0]) := by
  obtain ⟨ha, hb, hc, hd, he⟩ := h
  have hmid : (e0, s0) ∈ l₁ ++ (e0, s0) :: l₂ := by simp
  have he0lt : e0 < nid := ha _ hmid
  have hmap : (l₁ ++ (e0, s0) :: l₂).map Prod.fst =
      l₁.map Prod.fst ++ e0 :: l₂.map Prod.fst := by simp
  rw [hmap] at hb
  have hnotin : e0 ∉ l₁.map Prod.fst ++ l₂.map Prod.fst :=
    ((nodup_middle_iff _ _ _).mp hb).1
  have hnd : (l₁.map Prod.fst ++ l₂.map Prod.fst).Nodup :=
    ((nodup_middle_iff _ _ _).mp hb).2
  have hmem : ∀ p, p ∈ l₁ ++ l₂ → p ∈ l₁ ++ (e0, s0) :: l₂ := by
    intro p hp
    rcases List.mem_append.mp hp with h1 | h2
    · exact List.mem_append.mpr (Or.inl h1)
    · exact List.mem_append.mpr (Or.inr (List.mem_cons_of_mem _ h2))
  have hne : ∀ p, p ∈ l₁ ++ l₂ → p.1 ≠ e0 := by
    intro p hp heq
    have hcontra : p.1 ∈ l₁.map Prod.fst ++ l₂.map Prod.fst := by
      rcases List.mem_append.mp hp with h1 | h2
      · exact List.mem_append.mpr (Or.inl (List.mem_map_of_mem _ h1))
      · exact List.mem_append.mpr (Or.inr (List.mem_map_of_mem _ h2))
    rw [heq] at hcontra
    exact hnotin hcontra
  have hseq : ∀ eid, finResetSeq (tr ++ [Event.taskReset x e0]) eid =
      finResetSeq tr eid ++ (if e0 = eid then [false] else []) := by
    intro eid
    rw [finResetSeq_append, finResetSeq_reset]
  refine ⟨?_, ?_, ?_, ?_, ?_⟩
  · intro p hp
    exact ha p (hmem p hp)
  · rw [show (l₁ ++ l₂).map Prod.fst = l₁.map Prod.fst ++ l₂.map Prod.fst by simp]
    exact hnd
  · intro eid hle
    rw [hseq, if_neg (by omega), List.append_nil]
    exact hc eid hle
  · intro p hp
    have hpne : e0 ≠ p.1 := fun hh => hne p hp hh.symm
    constructor
    · intro h0
      rw [hseq, if_neg hpne, List.append_nil]
      exact (hd p (hmem p hp)).1 h0
    · intro b hbb
      rw [hseq, if_neg hpne, List.append_nil]
      exact (hd p (hmem p hp)).2 b hbb
  · intro eid hlt hnp
    by_cases heq : e0 = eid
    · subst heq
      rw [hseq, if_pos rfl]
      rcases hs0 : s0 with _ | b
      · have h0 : finResetSeq tr e0 = [] := (hd _ hmid).1 hs0
        rw [h0]
        right; left; rfl
      · have h0 : finResetSeq tr e0 = [true] := (hd _ hmid).2 b hs0
        rw [h0]
        right; right; right; rfl
    · rw [hseq, if_neg heq, List.append_nil]
      refine he eid hlt ?_
      intro p hp
      rcases List.mem_append.mp hp with h1 | h2
      · exact hnp p (List.mem_append.mpr (Or.inl h1))
      · cases h2 with
        | head => exact heq
        | tail _ h2t => exact hnp p (List.mem_append.mpr (Or.inr h2t))

theorem InvL_insert {l₁ l₂ : List (Nat × Option Bool)} {nid : Nat}
    {tr : List Event} (x : String)
    (h : InvL (l₁ ++ l₂) nid tr) :
    InvL (l₁ ++ (nid, (none : Option Bool)) :: l₂) (nid + 1)
      (tr ++ [Event.taskStarted x nid]) := by
  obtain ⟨ha, hb, hc, hd, he⟩ := h
  have hseq : ∀ eid, finResetSeq (tr ++ [Event.taskStarted x nid]) eid =
      finResetSeq tr eid := by
    intro eid
    rw [finResetSeq_append, finResetSeq_started, List.append_nil]
  have hmem : ∀ p, p ∈ l₁ ++ (nid, (none : Option Bool)) :: l₂ →
      p = (nid, none) ∨ p ∈ l₁ ++ l₂ := by
    intro p hp
    rcases List.mem_append.mp hp with h1 | h2
    · exact Or.inr (List.mem_append.mpr (Or.inl h1))
    · cases h2 with
      | head => exact Or.inl rfl
      | tail _ h2t => exact Or.inr (List.mem_append.mpr (Or.inr h2t))
  refine ⟨?_, ?_, ?_, ?_, ?_⟩
  · intro p hp
    rcases hmem p hp with rfl | hpo
    · exact Nat.lt_succ_self _
    · exact Nat.lt_succ_of_lt (ha p hpo)
  · rw [show (l₁ ++ (nid, (none : Option Bool)) :: l₂).map Prod.fst =
        l₁.map Prod.fst ++ nid :: l₂.map Prod.fst by simp]
    refine (nodup_middle_iff _ _ _).mpr ⟨?_, ?_⟩
    · intro hin
      have hex : ∃ p, p ∈ l₁ ++ l₂ ∧ p.1 = nid := by
        rcases List.mem_append.mp hin with h1 | h2
        · obtain ⟨p, hp, hpe⟩ := List.mem_map.mp h1
          exact ⟨p, List.mem_append.mpr (Or.inl hp), hpe⟩
        · obtain ⟨p, hp, hpe⟩ := List.mem_map.mp h2
          exact ⟨p, List.mem_append.mpr (Or.inr hp), hpe⟩
      obtain ⟨p, hp, hpe⟩ := hex
      have := ha p hp
      omega
    · rw [show l₁.map Prod.fst ++ l₂.map Prod.fst =
          (l₁ ++ l₂).map Prod.fst by simp]
      exact hb
  · intro eid hle
    rw [hseq]
    exact hc eid (by omega)
  · intro p hp
    rcases hmem p hp with rfl | hpo
    · constructor
      · intro _
        rw [hseq]
        exact hc nid (Nat.le_refl _)
      · intro b hbb
        exact absurd hbb (by simp)
    · constructor
      · intro h0; rw [hseq]; exact (hd p hpo).1 h0
      · intro b hbb; rw [hseq]; exact (hd p hpo).2 b hbb
  · intro eid hlt hnp
    have hne : eid ≠ nid := by
      intro heq
      exact hnp (nid, none)
        (List.mem_append.mpr (Or.inr (List.mem_cons_self _ _))) heq.symm
    rw [hseq]
    refine he eid (by omega) ?_
    intro p hp
    refine hnp p ?_
    rcases List.mem_append.mp hp with h1 | h2
    · exact List.mem_append.mpr (Or.inl h1)
    · exact List.mem_append.mpr (Or.inr (List.mem_cons_of_mem _ h2))

theorem InvL_bump_nid {l : List (Nat × Option Bool)} {nid : Nat}
    {tr : List Event} (x : String) (h : InvL l nid tr) :
    InvL l (nid + 1) (tr ++ [Event.taskStarted x nid]) := by
  obtain ⟨ha, hb, hc, hd, he⟩ := h
  have hseq : ∀ eid, finResetSeq (tr ++ [Event.taskStarted x nid]) eid =
      finResetSeq tr eid := by
    intro eid
    rw [finResetSeq_append, finResetSeq_started, List.append_nil]
  refine ⟨fun p hp => Nat.lt_succ_of_lt (ha p hp), hb, ?_, ?_, ?_⟩
  · intro eid hle
    rw [hseq]
    exact hc eid (by omega)
  · intro p hp
    constructor
    · intro h0; rw [hseq]; exact (hd p hp).1 h0
    · intro b hbb; rw [hseq]; exact (hd p hp).2 b hbb
  · intro eid hlt hnp
    rw [hseq]
    by_cases heq : eid = nid
    · subst heq
      left
      exact hc eid (Nat.le_refl _)
    · exact he eid (by omega) hnp

theorem InvL_overwrite {l₁ l₂ : List (Nat × Option Bool)} {nid : Nat}
    {tr : List Event} {e0 : Nat} {s0 : Option Bool} (x : String)
    (h : InvL (l₁ ++ (e0, s0) :: l₂) nid tr) :
    InvL (l₁ ++ (nid, (none : Option Bool)) :: l₂) (nid + 1)
      (tr ++ [Event.taskStarted x nid]) := by
  obtain ⟨ha, hb, hc, hd, he⟩ := h
  have hmid : (e0, s0) ∈ l₁ ++ (e0, s0) :: l₂ := by simp
  have he0lt : e0 < nid := ha _ hmid
  have hmap : (l₁ ++ (e0, s0) :: l₂).map Prod.fst =
      l₁.map Prod.fst ++ e0 :: l₂.map Prod.fst := by simp
  rw [hmap] at hb
  have hnd : (l₁.map Prod.fst ++ l₂.map Prod.fst).Nodup :=
    ((nodup_middle_iff _ _ _).mp hb).2
  have hseq : ∀ eid, finResetSeq (tr ++ [Event.taskStarted x nid]) eid =
      finResetSeq tr eid := by
    intro eid
    rw [finResetSeq_append, finResetSeq_started, List.append_nil]
  have hmemold : ∀ p, p ∈ l₁ ++ l₂ → p ∈ l₁ ++ (e0, s0) :: l₂ := by
    intro p hp
    rcases List.mem_append.mp hp with h1 | h2
    · exact List.mem_append.mpr (Or.inl h1)
    · exact List.mem_append.mpr (Or.inr (List.mem_cons_of_mem _ h2))
  have hmem : ∀ p, p ∈ l₁ ++ (nid, (none : Option Bool)) :: l₂ →
      p = (nid, none) ∨ p ∈ l₁ ++ l₂ := by
    intro p hp
    rcases List.mem_append.mp hp with h1 | h2
    · exact Or.inr (List.mem_append.mpr (Or.inl h1))
    · cases h2 with
      | head => exact Or.inl rfl
      | tail _ h2t => exact Or.inr (List.mem_append.mpr (Or.inr h2t))
  refine ⟨?_, ?_, ?_, ?_, ?_⟩
  · intro p hp
    rcases hmem p hp with rfl | hpo
    · exact Nat.lt_succ_self _
    · exact Nat.lt_succ_of_lt (ha p (hmemold p hpo))
  · rw [show (l₁ ++ (nid, (none : Option Bool)) :: l₂).map Prod.fst =
        l₁.map Prod.fst ++ nid :: l₂.map Prod.fst by simp]
    refine (nodup_middle_iff _ _ _).mpr ⟨?_, ?_⟩
    · intro hin
      have hex : ∃ p, p ∈ l₁ ++ l₂ ∧ p.1 = nid := by
        rcases List.mem_append.mp hin with h1 | h2
        · obtain ⟨p, hp, hpe⟩ := List.mem_map.mp h1
          exact ⟨p, List.mem_append.mpr (Or.inl hp), hpe⟩
        · obtain ⟨p, hp, hpe⟩ := List.mem_map.mp h2
          exact ⟨p, List.mem_append.mpr (Or.inr hp), hpe⟩
      obtain ⟨p, hp, hpe⟩ := hex
      have := ha p (hmemold p hp)
      omega
    · exact hnd
  · intro eid hle
    rw [hseq]
    exact hc eid (by omega)
  · intro p hp
    rcases hmem p hp with rfl | hpo
    · constructor
      · intro _
        rw [hseq]
        exact hc nid (Nat.le_refl _)
      · intro b hbb
        exact absurd hbb (by simp)
    · constructor
      · intro h0; rw [hseq]; exact (hd p (hmemold p hpo)).1 h0
      · intro b hbb; rw [hseq]; exact (hd p (hmemold p hpo)).2 b hbb
  · intro eid hlt hnp
    have hne : eid ≠ nid := by
      intro heq
      exact hnp (nid, none)
        (List.mem_append.mpr (Or.inr (List.mem_cons_self _ _))) heq.symm
    rw [hseq]
    by_cases heq0 : eid = e0
    · subst heq0
      rcases hs0 : s0 with _ | b
      · left
        exact (hd _ hmid).1 hs0
      · right; right; left
        exact (hd _ hmid).2 b hs0
    · refine he eid (by omega) ?_
      intro p hp
      rcases List.mem_append.mp hp with h1 | h2
      · exact hnp p (List.mem_append.mpr (Or.inl h1))
      · cases h2 with
        | head => exact fun hcon => heq0 hcon.symm
        | tail _ h2t =>
          exact hnp p (List.mem_append.mpr (Or.inr (List.mem_cons_of_mem _ h2t)))

theorem InvL_finish {l₁ l₂ : List (Nat × Option Bool)} {nid : Nat}
    {tr : List Event} {e0 : Nat} (x : String) (b : Bool)
    (h : InvL (l₁ ++ (e0, (none : Option Bool)) :: l₂) nid tr) :
    InvL (l₁ ++ (e0, some b) :: l₂) nid (tr ++ [Event.taskFinished x e0]) := by
  obtain ⟨ha, hb, hc, hd, he⟩ := h
  have hmid : (e0, (none : Option Bool)) ∈
      l₁ ++ (e0, (none : Option Bool)) :: l₂ := by simp
  have he0lt : e0 < nid := ha _ hmid
  have h0 : finResetSeq tr e0 = [] := (hd _ hmid).1 rfl
  have hmap : (l₁ ++ (e0, (none : Option Bool)) :: l₂).map Prod.fst =
      l₁.map Prod.fst ++ e0 :: l₂.map Prod.fst := by simp
  rw [hmap] at hb
  have hnotin : e0 ∉ l₁.map Prod.fst ++ l₂.map Prod.fst :=
    ((nodup_middle_iff _ _ _).mp hb).1
  have hseq : ∀ eid, finResetSeq (tr ++ [Event.taskFinished x e0]) eid =
      finResetSeq tr eid ++ (if e0 = eid then [true] else []) := by
    intro eid
    rw [finResetSeq_append, finResetSeq_fin]
  have hmemold : ∀ p, p ∈ l₁ ++ l₂ →
      p ∈ l₁ ++ (e0, (none : Option Bool)) :: l₂ := by
    intro p hp
    rcases List.mem_append.mp hp with h1 | h2
    · exact List.mem_append.mpr (Or.inl h1)
    · exact List.mem_append.mpr (Or.inr (List.mem_cons_of_mem _ h2))
  have hneside : ∀ p, p ∈ l₁ ++ l₂ → p.1 ≠ e0 := by
    intro p hp heq
    have hcontra : p.1 ∈ l₁.map Prod.fst ++ l₂.map Prod.fst := by
      rcases List.mem_append.mp hp with h1 | h2
      · exact List.mem_append.mpr (Or.inl (List.mem_map_of_mem _ h1))
      · exact List.mem_append.mpr (Or.inr (List.mem_map_of_mem _ h2))
    rw [heq] at hcontra
    exact hnotin hcontra
  have hmem : ∀ p, p ∈ l₁ ++ (e0, some b) :: l₂ →
      p = (e0, some b) ∨ p ∈ l₁ ++ l₂ := by
    intro p hp
    rcases List.mem_append.mp hp with h1 | h2
    · exact Or.inr (List.mem_append.mpr (Or.inl h1))
    · cases h2 with
      | head => exact Or.inl rfl
      | tail _ h2t => exact Or.inr (List.mem_append.mpr (Or.inr h2t))
  refine ⟨?_, ?_, ?_, ?_, ?_⟩
  · intro p hp
    rcases hmem p hp with rfl | hpo
    · exact he0lt
    · exact ha p (hmemold p hpo)
  · rw [show (l₁ ++ (e0, some b) :: l₂).map Prod.fst =
        l₁.map Prod.fst ++ e0 :: l₂.map Prod.fst by simp]
    exact hb
  · intro eid hle
    rw [hseq, if_neg (by omega), List.append_nil]
    exact hc eid hle
  · intro p hp
    rcases hmem p hp with rfl | hpo
    · constructor
      · intro hcontra
        exact absurd hcontra (by simp)
      · intro b2 hbb
        show finResetSeq (tr ++ [Event.taskFinished x e0]) e0 = [true]
        rw [hseq, if_pos rfl, h0]
        rfl
    · have hpne : e0 ≠ p.1 := fun hh => hneside p hpo hh.symm
      constructor
      · intro hnone
        rw [hseq, if_neg hpne, List.append_nil]
        exact (hd p (hmemold p hpo)).1 hnone
      · intro b2 hbb
        rw [hseq, if_neg hpne, List.append_nil]
        exact (hd p (hmemold p hpo)).2 b2 hbb
  · intro eid hlt hnp
    have hne : eid ≠ e0 := by
      intro heq
      exact hnp (e0, some b)
        (List.mem_append.mpr (Or.inr (List.mem_cons_self _ _))) heq.symm
    rw [hseq, if_neg (fun hh => hne hh.symm), List.append_nil]
    refine he eid hlt ?_
    intro p hp
    rcases List.mem_append.mp hp with h1 | h2
    · exact hnp p (List.mem_append.mpr (Or.inl h1))
    · cases h2 with
      | head => exact fun hcon => hne hcon.symm
      | tail _ h2t =>
        exact hnp p (List.mem_append.mpr (Or.inr (List.mem_cons_of_mem _ h2t)))

/-! ## Stored-execution projections -/

theorem execSucc_cons (kv : String × Task) (m : List (String × Task)) :
    execSucc (kv :: m) =
      (kv.2.execution.map (fun e => (e.execId, e.success))).toList ++
        execSucc m := by
  cases h : kv.2.execution <;> simp [execSucc, h]

theorem execSucc_append (m₁ m₂ : List (String × Task)) :
    execSucc (m₁ ++ m₂) = execSucc m₁ ++ execSucc m₂ := by
  simp [execSucc]

theorem execSucc_aupdate_keepExec (m : List (String × Task)) (k : String)
    {f : Task → Task} (hf : ∀ t, (f t).execution = t.execution) :
    execSucc (aupdate m k f) = execSucc m := by
  induction m with
  | nil => rfl
  | cons kv rest ih =>
    show execSucc ((if kv.1 = k then (kv.1, f kv.2) else kv) :: aupdate rest k f) = _
    rw [execSucc_cons, execSucc_cons, ih]
    by_cases hk : kv.1 = k
    · rw [if_pos hk]
      simp [hf]
    · rw [if_neg hk]

theorem execSucc_aupdate_surgery (m : List (String × Task)) (k : String)
    (hwf : wfKeysM m) {t : Task} (hlook : alookup m k = some t) :
    ∃ l₁ l₂,
      execSucc m =
        l₁ ++ (t.execution.map (fun e => (e.execId, e.success))).toList ++ l₂ ∧
      ∀ f : Task → Task, execSucc (aupdate m k f) =
        l₁ ++ ((f t).execution.map (fun e => (e.execId, e.success))).toList ++
          l₂ := by
  induction m with
  | nil => exact absurd hlook (by simp [alookup])
  | cons kv rest ih =>
    obtain ⟨k0, t0⟩ := kv
    by_cases hk : k0 = k
    · subst hk
      have ht : t0 = t := by
        unfold alookup at hlook
        rw [if_pos rfl] at hlook
        exact Option.some.inj hlook
      subst ht
      have hnotin : k0 ∉ rest.map Prod.fst := by
        have hnd := hwf
        unfold wfKeysM at hnd
        simp only [List.map_cons] at hnd
        exact (List.nodup_cons.mp hnd).1
      refine ⟨[], execSucc rest, ?_, ?_⟩
      · rw [execSucc_cons]
        rfl
      · intro f
        show execSucc
          ((if k0 = k0 then (k0, f t0) else (k0, t0)) :: aupdate rest k0 f) = _
        rw [if_pos rfl, aupdate_of_not_mem hnotin, execSucc_cons]
        rfl
    · have hlook2 : alookup rest k = some t := by
        unfold alookup at hlook
        rw [if_neg hk] at hlook
        exact hlook
      have hwf2 : wfKeysM rest := by
        have hnd := hwf
        unfold wfKeysM at hnd ⊢
        simp only [List.map_cons] at hnd
        exact (List.nodup_cons.mp hnd).2
      obtain ⟨l₁, l₂, h1, h2⟩ := ih hwf2 hlook2
      refine ⟨(t0.execution.map (fun e => (e.execId, e.success))).toList ++ l₁,
        l₂, ?_, ?_⟩
      · rw [execSucc_cons, h1]
        simp [List.append_assoc]
      · intro f
        show execSucc
          ((if k0 = k then (k0, f t0) else (k0, t0)) :: aupdate rest k f) = _
        rw [if_neg hk, execSucc_cons, h2 f]
        simp [List.append_assoc]

/-! ## Per-phase preservation of the execution protocol -/

theorem InvL_removeAbsent (keep : List String) :
    ∀ (m : List (String × Task)) (pre : List (Nat × Option Bool))
      (nid : Nat) (tr : List Event),
      InvL (pre ++ execSucc m) nid tr →
      InvL (pre ++ execSucc (removeAbsent keep m).1) nid
        (tr ++ (removeAbsent keep m).2) := by
  intro m
  induction m with
  | nil =>
    intro pre nid tr h
    simpa [removeAbsent] using h
  | cons kv rest ih =>
    intro pre nid tr h
    obtain ⟨k, t⟩ := kv
    unfold removeAbsent
    dsimp only
    rw [execSucc_cons] at h
    by_cases hkeep : k ∈ keep
    · rw [if_pos hkeep]
      dsimp only
      rw [execSucc_cons, ← List.append_assoc]
      rw [← List.append_assoc] at h
      exact ih _ nid tr h
    · rw [if_neg hkeep]
      dsimp only
      cases hexec : t.execution with
      | none =>
        simp only [hexec, Option.map_none, Option.toList_none,
          List.nil_append] at h
        have hev : (resetTask t).2 = [] := by
          simp [resetTask, hexec]
        rw [hev, List.nil_append]
        exact ih pre nid tr h
      | some e =>
        simp only [hexec, Option.map_some, Option.toList_some,
          List.singleton_append] at h
        have hev : (resetTask t).2 = [Event.taskReset t.taskId e.execId] := by
          simp [resetTask, hexec]
        rw [hev]
        have h2 := InvL_reset t.taskId h
        rw [← List.append_assoc]
        exact ih pre nid _ h2

theorem execSucc_ensureTasks (ids : List String) :
    ∀ (m : List (String × Task)) (n : Nat),
      execSucc (ensureTasks ids m n).1 = execSucc m := by
  induction ids with
  | nil => intro m n; rfl
  | cons id rest ih =>
    intro m n
    unfold ensureTasks
    dsimp only
    have hkeep : ∀ m2 : List (String × Task),
        execSucc (aupdate m2 id (fun t =>
          { t with children := [], parents := [] })) = execSucc m2 :=
      fun m2 => execSucc_aupdate_keepExec m2 id (fun t => rfl)
    rw [ih, hkeep]
    split
    · rfl
    · show execSucc (aappend m id (freshTask id n)) = execSucc m
      unfold aappend
      rw [execSucc_append]
      simp [execSucc, freshTask]

theorem execSucc_addLinksOfKey (k : String) (cs : List String) :
    ∀ m, execSucc (addLinksOfKey k cs m) = execSucc m := by
  induction cs with
  | nil => intro m; rfl
  | cons c rest ih =>
    intro m
    unfold addLinksOfKey
    dsimp only
    have hkeep1 : ∀ m2 : List (String × Task),
        execSucc (aupdate m2 k (fun t =>
          { t with children := t.children ++ [c] })) = execSucc m2 :=
      fun m2 => execSucc_aupdate_keepExec m2 k (fun t => rfl)
    have hkeep2 : ∀ m2 : List (String × Task),
        execSucc (aupdate m2 c (fun t =>
          { t with parents := t.parents ++ [k] })) = execSucc m2 :=
      fun m2 => execSucc_aupdate_keepExec m2 c (fun t => rfl)
    rw [ih, hkeep2, hkeep1]

theorem execSucc_addLinks (A : Multimap) (ks : List String) :
    ∀ m, execSucc (addLinks A ks m) = execSucc m := by
  induction ks with
  | nil => intro m; rfl
  | cons k rest ih =>
    intro m
    unfold addLinks
    rw [ih, execSucc_addLinksOfKey]

theorem InvL_shaDfs (fuel : Nat) :
    (∀ v m nid tr, wfKeysM m → InvL (execSucc m) nid tr →
      InvL (execSucc (shaDfs fuel v m).1) nid (tr ++ (shaDfs fuel v m).2)) ∧
    (∀ cs m nid tr, wfKeysM m → InvL (execSucc m) nid tr →
      InvL (execSucc (shaDfsChildrenWith (shaDfs fuel) cs m).1) nid
        (tr ++ (shaDfsChildrenWith (shaDfs fuel) cs m).2)) := by
  induction fuel with
  | zero =>
    have hd : ∀ v m nid tr, wfKeysM m → InvL (execSucc m) nid tr →
        InvL (execSucc (shaDfs 0 v m).1) nid (tr ++ (shaDfs 0 v m).2) := by
      intro v m nid tr _ h
      simpa [shaDfs] using h
    refine ⟨hd, ?_⟩
    intro cs
    induction cs with
    | nil =>
      intro m nid tr _ h
      simpa [shaDfsChildrenWith] using h
    | cons c rest ihc =>
      intro m nid tr hwf h
      unfold shaDfsChildrenWith
      dsimp only
      have hwf1 : wfKeysM (shaDfs 0 c m).1 := by
        unfold wfKeysM
        rw [(shaDfs_keys 0).1]
        exact hwf
      have h2 := ihc (shaDfs 0 c m).1 nid (tr ++ (shaDfs 0 c m).2) hwf1
        (hd c m nid tr hwf h)
      rw [← List.append_assoc]
      exact h2
  | succ fuel ih =>
    have hd : ∀ v m nid tr, wfKeysM m → InvL (execSucc m) nid tr →
        InvL (execSucc (shaDfs (fuel + 1) v m).1) nid
          (tr ++ (shaDfs (fuel + 1) v m).2) := by
      intro v m nid tr hwf h
      unfold shaDfs
      cases hlook : alookup m v with
      | none => simpa using h
      | some t =>
        dsimp only
        have hkeep : ∀ m2 : List (String × Task),
            execSucc (aupdate m2 v (fun t2 =>
              { t2 with children := sortByLt t.children })) = execSucc m2 :=
          fun m2 => execSucc_aupdate_keepExec m2 v (fun t2 => rfl)
        have hwfu : wfKeysM (aupdate m v (fun t2 =>
            { t2 with children := sortByLt t.children })) :=
          wf_aupdate _ _ hwf
        have h1 := ih.2 (sortByLt t.children)
          (aupdate m v (fun t2 => { t2 with children := sortByLt t.children }))
          nid tr hwfu (by rw [hkeep]; exact h)
        have hwfmc : wfKeysM (shaDfsChildrenWith (shaDfs fuel)
            (sortByLt t.children) (aupdate m v (fun t2 =>
              { t2 with children := sortByLt t.children }))).1 := by
          unfold wfKeysM
          rw [(shaDfs_keys fuel).2, aupdate_keys]
          exact hwf
        cases hlook2 : alookup (shaDfsChildrenWith (shaDfs fuel)
            (sortByLt t.children) (aupdate m v (fun t2 =>
              { t2 with children := sortByLt t.children }))).1 v with
        | none => exact h1
        | some t2 =>
          dsimp only
          split
          · exact h1
          · obtain ⟨l₁, l₂, hold, hupd⟩ :=
              execSucc_aupdate_surgery _ v hwfmc hlook2
            cases hexec : t2.execution with
            | none =>
              rw [hupd]
              dsimp only [resetTask]
              rw [hold] at h1
              simp only [hexec, Option.map_none, Option.toList_none,
                List.append_nil] at h1 ⊢
              exact h1
            | some e =>
              rw [hupd]
              dsimp only [resetTask]
              rw [hold] at h1
              simp only [hexec, Option.map_some, Option.toList_some,
                List.append_assoc, List.singleton_append] at h1
              have h2 := InvL_reset t2.taskId h1
              simpa using h2
    refine ⟨hd, ?_⟩
    intro cs
    induction cs with
    | nil =>
      intro m nid tr _ h
      simpa [shaDfsChildrenWith] using h
    | cons c rest ihc =>
      intro m nid tr hwf h
      unfold shaDfsChildrenWith
      dsimp only
      have hwf1 : wfKeysM (shaDfs (fuel + 1) c m).1 := by
        unfold wfKeysM
        rw [(shaDfs_keys (fuel + 1)).1]
        exact hwf
      have h2 := ihc (shaDfs (fuel + 1) c m).1 nid
        (tr ++ (shaDfs (fuel + 1) c m).2) hwf1 (hd c m nid tr hwf h)
      rw [← List.append_assoc]
      exact h2

theorem InvL_shaDfsRoots (fuel : Nat) (rs : List String) :
    ∀ m nid tr, wfKeysM m → InvL (execSucc m) nid tr →
      InvL (execSucc (shaDfsRoots fuel rs m).1) nid
        (tr ++ (shaDfsRoots fuel rs m).2) := by
  induction rs with
  | nil =>
    intro m nid tr _ h
    simpa [shaDfsRoots] using h
  | cons r rest ih =>
    intro m nid tr hwf h
    unfold shaDfsRoots
    dsimp only
    have hwf1 : wfKeysM (shaDfs fuel r m).1 := by
      unfold wfKeysM
      rw [(shaDfs_keys fuel).1]
      exact hwf
    have h2 := ih (shaDfs fuel r m).1 nid (tr ++ (shaDfs fuel r m).2) hwf1
      ((InvL_shaDfs fuel).1 r m nid tr hwf h)
    rw [← List.append_assoc]
    exact h2

theorem InvL_markDfs (fuel : Nat) :
    (∀ m visited id nid tr, wfKeysM m → InvL (execSucc m) nid tr →
      InvL (execSucc (markDfs fuel m visited id).1) nid
        (tr ++ (markDfs fuel m visited id).2.2)) ∧
    (∀ ps m visited nid tr, wfKeysM m → InvL (execSucc m) nid tr →
      InvL (execSucc (markDfsParentsWith (markDfs fuel) m visited ps).1) nid
        (tr ++ (markDfsParentsWith (markDfs fuel) m visited ps).2.2)) := by
  induction fuel with
  | zero =>
    have hd : ∀ m visited id nid tr, wfKeysM m → InvL (execSucc m) nid tr →
        InvL (execSucc (markDfs 0 m visited id).1) nid
          (tr ++ (markDfs 0 m visited id).2.2) := by
      intro m visited id nid tr _ h
      simpa [markDfs] using h
    refine ⟨hd, ?_⟩
    intro ps
    induction ps with
    | nil =>
      intro m visited nid tr _ h
      simpa [markDfsParentsWith] using h
    | cons p rest ihp =>
      intro m visited nid tr hwf h
      unfold markDfsParentsWith
      dsimp only
      have hwf1 : wfKeysM (markDfs 0 m visited p).1 := by
        unfold wfKeysM
        rw [(markDfs_keys 0).1]
        exact hwf
      have h2 := ihp (markDfs 0 m visited p).1 (markDfs 0 m visited p).2.1 nid
        (tr ++ (markDfs 0 m visited p).2.2) hwf1 (hd m visited p nid tr hwf h)
      rw [← List.append_assoc]
      exact h2
  | succ fuel ih =>
    have hd : ∀ m visited id nid tr, wfKeysM m → InvL (execSucc m) nid tr →
        InvL (execSucc (markDfs (fuel + 1) m visited id).1) nid
          (tr ++ (markDfs (fuel + 1) m visited id).2.2) := by
      intro m visited id nid tr hwf h
      unfold markDfs
      by_cases hv : id ∈ visited
      · rw [if_pos hv]
        simpa using h
      · rw [if_neg hv]
        cases hlook : alookup m id with
        | none => simpa using h
        | some t =>
          dsimp only
          obtain ⟨l₁, l₂, hold, hupd⟩ := execSucc_aupdate_surgery m id hwf hlook
          have hwfu : wfKeysM (aupdate m id (fun _ =>
              (resetTask { t with generation := t.generation + 1 }).1)) :=
            wf_aupdate _ _ hwf
          have fact1 : InvL (execSucc (aupdate m id (fun _ =>
              (resetTask { t with generation := t.generation + 1 }).1))) nid
              (tr ++ (resetTask { t with generation := t.generation + 1 }).2) := by
            rw [hupd]
            cases hexec : t.execution with
            | none =>
              dsimp only [resetTask]
              rw [hexec] at hold
              simp only [Option.map_none, Option.toList_none,
                List.append_nil] at hold ⊢
              rw [hold] at h
              simpa using h
            | some e =>
              dsimp only [resetTask]
              rw [hexec] at hold
              simp only [Option.map_some', Option.toList_some,
                List.append_assoc, List.singleton_append] at hold
              rw [hold] at h
              have h3 := InvL_reset t.taskId h
              simpa using h3
          have h2 := ih.2 t.parents
            (aupdate m id (fun _ =>
              (resetTask { t with generation := t.generation + 1 }).1))
            (id :: visited) nid
            (tr ++ (resetTask { t with generation := t.generation + 1 }).2)
            hwfu fact1
          rw [← List.append_assoc]
          exact h2
    refine ⟨hd, ?_⟩
    intro ps
    induction ps with
    | nil =>
      intro m visited nid tr _ h
      simpa [markDfsParentsWith] using h
    | cons p rest ihp =>
      intro m visited nid tr hwf h
      unfold markDfsParentsWith
      dsimp only
      have hwf1 : wfKeysM (markDfs (fuel + 1) m visited p).1 := by
        unfold wfKeysM
        rw [(markDfs_keys (fuel + 1)).1]
        exact hwf
      have h2 := ihp (markDfs (fuel + 1) m visited p).1
        (markDfs (fuel + 1) m visited p).2.1 nid
        (tr ++ (markDfs (fuel + 1) m visited p).2.2) hwf1
        (hd m visited p nid tr hwf h)
      rw [← List.append_assoc]
      exact h2

theorem InvL_dispatchTasks (picked : List Task) :
    ∀ m nid tr, wfKeysM m → InvL (execSucc m) nid tr →
      InvL (execSucc (dispatchTasks picked m nid).1)
        ((dispatchTasks picked m nid).2.1)
        (tr ++ (dispatchTasks picked m nid).2.2) := by
  induction picked with
  | nil =>
    intro m nid tr _ h
    simpa [dispatchTasks] using h
  | cons t rest ih =>
    intro m nid tr hwf h
    unfold dispatchTasks
    dsimp only
    have hev : ∀ R : List Event,
        tr ++ (Event.taskStarted t.taskId nid :: R) =
          (tr ++ [Event.taskStarted t.taskId nid]) ++ R := by
      intro R
      simp
    rw [hev]
    cases hlook : alookup m t.taskId with
    | none =>
      have hnm : t.taskId ∉ m.map Prod.fst := alookup_eq_none.mp hlook
      rw [aupdate_of_not_mem hnm]
      exact ih m (nid + 1) _ hwf (InvL_bump_nid t.taskId h)
    | some t0 =>
      obtain ⟨l₁, l₂, hold, hupd⟩ :=
        execSucc_aupdate_surgery m t.taskId hwf hlook
      have hwfu : wfKeysM (aupdate m t.taskId
          (dispatchUpdate (taskVersion t) nid)) := wf_aupdate _ _ hwf
      have hnew : execSucc (aupdate m t.taskId
          (dispatchUpdate (taskVersion t) nid)) =
          l₁ ++ (nid, (none : Option Bool)) :: l₂ := by
        rw [hupd]
        simp [dispatchUpdate]
      have hstep : InvL (execSucc (aupdate m t.taskId
          (dispatchUpdate (taskVersion t) nid))) (nid + 1)
          (tr ++ [Event.taskStarted t.taskId nid]) := by
        rw [hnew]
        cases hexec : t0.execution with
        | none =>
          rw [hold, hexec] at h
          simp only [Option.map_none', Option.toList_none,
            List.append_nil] at h
          exact InvL_insert t.taskId h
        | some e =>
          rw [hold, hexec] at h
          simp only [Option.map_some', Option.toList_some, List.append_assoc,
            List.singleton_append] at h
          exact InvL_overwrite t.taskId h
      exact ih _ (nid + 1) _ hwfu hstep

theorem InvL_resetEntries :
    ∀ (m : List (String × Task)) (pre : List (Nat × Option Bool))
      (nid : Nat) (tr : List Event),
      InvL (pre ++ execSucc m) nid tr →
      InvL (pre ++ execSucc (resetEntries m).1) nid
        (tr ++ (resetEntries m).2) := by
  intro m
  induction m with
  | nil =>
    intro pre nid tr h
    simpa [resetEntries] using h
  | cons kv rest ih =>
    intro pre nid tr h
    obtain ⟨k, t⟩ := kv
    unfold resetEntries
    dsimp only
    rw [execSucc_cons] at h
    rw [execSucc_cons]
    dsimp only
    cases hexec : t.execution with
    | none =>
      have hres1 : (resetTask t).1 = t := by
        simp [resetTask, hexec]
      have hres2 : (resetTask t).2 = [] := by
        simp [resetTask, hexec]
      rw [hres1, hres2, List.nil_append]
      simp only [hexec, Option.map_none, Option.toList_none,
        List.nil_append] at h ⊢
      exact ih pre nid tr h
    | some e =>
      have hres1 : (resetTask t).1.execution = none := by
        simp [resetTask, hexec]
      have hres2 : (resetTask t).2 = [Event.taskReset t.taskId e.execId] := by
        simp [resetTask, hexec]
      rw [hres1, hres2]
      simp only [Option.map_none', Option.toList_none, List.append_nil,
        List.nil_append]
      simp only [hexec, Option.map_some', Option.toList_some,
        List.singleton_append] at h
      have h2 := InvL_reset t.taskId h
      rw [← List.append_assoc]
      exact ih pre nid _ h2

theorem InvL_stepOp (s : TaskTree) (op : Op) (tr : List Event)
    (hwf : wfKeysM s.tasks) (h : InvL (execSucc s.tasks) s.nextExecId tr) :
    InvL (execSucc (stepOp s op).1.tasks) ((stepOp s op).1.nextExecId)
      (tr ++ (stepOp s op).2) := by
  cases op with
  | setTasksOp A =>
    show InvL (execSucc (setTasks A s).2.1.tasks)
      ((setTasks A s).2.1.nextExecId) (tr ++ (setTasks A s).2.2)
    unfold setTasks
    cases findDependencyCycle A with
    | some cyc => simpa using h
    | none =>
      dsimp only
      rw [computeTreeStatus_tasks, computeTreeStatus_nextExecId]
      dsimp only
      set ids := Multimap.taskIds A with hids
      set rm := removeAbsent ids s.tasks with hrm
      set en := ensureTasks ids rm.1 s.nextObjId with hen
      set ml := addLinks A (Multimap.keysList A) en.1 with hml
      set roots := sortByLt (((avalues ml).filter
        (fun t => t.parents.isEmpty)).map Task.taskId) with hroots
      set sh := shaDfsRoots (ml.length + 1) roots ml with hsh
      have h1 := InvL_removeAbsent ids s.tasks [] s.nextExecId tr
        (by simpa using h)
      simp only [List.nil_append] at h1
      have hwf1 : wfKeysM rm.1 := by
        rw [hrm]
        exact wf_removeAbsent _ hwf
      have hwf2 : wfKeysM en.1 := by
        rw [hen]
        exact wf_ensureTasks _ _ hwf1
      have hwf3 : wfKeysM ml := by
        unfold wfKeysM
        rw [hml, addLinks_keys]
        exact hwf2
      have h2 : InvL (execSucc ml) s.nextExecId (tr ++ rm.2) := by
        rw [hml, execSucc_addLinks, hen, execSucc_ensureTasks]
        exact h1
      have h3 := InvL_shaDfsRoots (ml.length + 1) roots ml s.nextExecId
        (tr ++ rm.2) hwf3 h2
      rw [← hsh] at h3
      have h4 := InvL_silent
        (computeTreeStatus
          { s with tasks := sh.1, roots := roots, nextObjId := en.2 }).2
        (fun eid => finResetSeq_computeTreeStatus _ eid) h3
      simpa using h4
  | markChangedOp id =>
    show InvL (execSucc (markChangedFn s id).1.tasks)
      ((markChangedFn s id).1.nextExecId) (tr ++ (markChangedFn s id).2)
    unfold markChangedFn
    cases hlook : alookup s.tasks id with
    | none => simpa using h
    | some t =>
      dsimp only
      rw [computeTreeStatus_tasks, computeTreeStatus_nextExecId]
      dsimp only
      have h1 := (InvL_markDfs (s.tasks.length + 1)).1 s.tasks [] id
        s.nextExecId tr hwf h
      have h2 := InvL_silent
        (computeTreeStatus
          { s with tasks := (markDfs (s.tasks.length + 1) s.tasks [] id).1 }).2
        (fun eid => finResetSeq_computeTreeStatus _ eid) h1
      simpa using h2
  | runOp =>
    show InvL (execSucc (runFn s).1.tasks) ((runFn s).1.nextExecId)
      (tr ++ (runFn s).2)
    unfold runFn
    dsimp only
    split
    · rw [computeTreeStatus_tasks, computeTreeStatus_nextExecId]
      exact InvL_silent _ (fun eid => finResetSeq_computeTreeStatus _ eid) h
    · dsimp only
      have hwfst : wfKeysM (setTreeStatus s TreeStatus.running).1.tasks := by
        unfold wfKeysM
        rw [setTreeStatus_tasks]
        exact hwf
      have h0 : InvL (execSucc (setTreeStatus s TreeStatus.running).1.tasks)
          ((setTreeStatus s TreeStatus.running).1.nextExecId)
          (tr ++ (setTreeStatus s TreeStatus.running).2) := by
        rw [setTreeStatus_tasks, setTreeStatus_nextExecId]
        exact InvL_silent _ (fun eid => finResetSeq_setTreeStatus s
          TreeStatus.running eid) h
      have h1 := InvL_dispatchTasks
        ((runnableTasks s.tasks).take
          ((setTreeStatus s TreeStatus.running).1.jobs -
            (tasksBeingRun s.tasks).length))
        (setTreeStatus s TreeStatus.running).1.tasks
        (setTreeStatus s TreeStatus.running).1.nextExecId
        (tr ++ (setTreeStatus s TreeStatus.running).2) hwfst h0
      simpa using h1
  | onCompleteOp objId taskId version ok =>
    show InvL (execSucc (onTaskComplete s objId taskId version ok).1.tasks)
      ((onTaskComplete s objId taskId version ok).1.nextExecId)
      (tr ++ (onTaskComplete s objId taskId version ok).2)
    unfold onTaskComplete
    cases hlook : alookup s.tasks taskId with
    | none => simpa using h
    | some t =>
      dsimp only
      split
      · cases hexec : t.execution with
        | none => simpa using h
        | some e =>
          dsimp only
          split
          next hcond =>
            dsimp only
            obtain ⟨l₁, l₂, hold, hupd⟩ :=
              execSucc_aupdate_surgery s.tasks taskId hwf hlook
            have hsucc : e.success = none := by
              simp only [Bool.and_eq_true, decide_eq_true_eq] at hcond
              exact hcond.2
            rw [hold, hexec] at h
            simp only [Option.map_some', Option.toList_some, List.append_assoc,
              List.singleton_append] at h
            rw [hsucc] at h
            have h2 := InvL_finish taskId ok h
            have hnew : execSucc (aupdate s.tasks taskId (recordOutcome e ok)) =
                l₁ ++ (e.execId, some ok) :: l₂ := by
              rw [hupd]
              simp [recordOutcome]
            rw [hnew]
            exact h2
          next hcond => simpa using h
      · simpa using h
  | resetAllOp =>
    show InvL (execSucc (resetAllTasks s).1.tasks)
      ((resetAllTasks s).1.nextExecId) (tr ++ (resetAllTasks s).2)
    unfold resetAllTasks
    dsimp only
    rw [computeTreeStatus_tasks, computeTreeStatus_nextExecId]
    dsimp only
    have h1 := InvL_resetEntries s.tasks [] s.nextExecId tr (by simpa using h)
    simp only [List.nil_append] at h1
    have h2 := InvL_silent
      (computeTreeStatus { s with tasks := (resetEntries s.tasks).1 }).2
      (fun eid => finResetSeq_computeTreeStatus _ eid) h1
    simpa using h2

theorem InvL_init (jobs : Nat) :
    wfKeysM (TaskTree.init jobs).tasks ∧
    InvL (execSucc (TaskTree.init jobs).tasks)
      ((TaskTree.init jobs).nextExecId) [] := by
  refine ⟨by simp [TaskTree.init, wfKeysM], ?_, ?_, ?_, ?_, ?_⟩
  · intro p hp
    simp [TaskTree.init, execSucc] at hp
  · simp [TaskTree.init, execSucc]
  · intro eid _
    rfl
  · intro p hp
    simp [TaskTree.init, execSucc] at hp
  · intro eid h0 _
    exact absurd h0 (Nat.not_lt_zero _)

theorem InvL_runOps (ops : List Op) :
    ∀ s tr, wfKeysM s.tasks → InvL (execSucc s.tasks) s.nextExecId tr →
      wfKeysM (runOps s ops).1.tasks ∧
      InvL (execSucc (runOps s ops).1.tasks) ((runOps s ops).1.nextExecId)
        (tr ++ (runOps s ops).2) := by
  induction ops with
  | nil =>
    intro s tr hwf h
    exact ⟨hwf, by simpa [runOps] using h⟩
  | cons op rest ih =>
    intro s tr hwf h
    unfold runOps
    dsimp only
    have hwf1 := stepOp_wf s op hwf
    have h1 := InvL_stepOp s op tr hwf h
    have h2 := ih (stepOp s op).1 (tr ++ (stepOp s op).2) hwf1 h1
    refine ⟨h2.1, ?_⟩
    rw [← List.append_assoc]
    exact h2.2

/-- Claim C6, counterexample to the literal dichotomy: the execution
dispatched for task `"a"` (ghost execution id 0) first emits
`task_finished` when its `on_complete` fires and later also emits
`task_reset` when `markChanged` resets the finished execution — `_resetTask`
drops any present execution, decided or not, so "never both" fails. -/
theorem execution_fin_reset_counterexample :
    Event.taskFinished "a" 0 ∈ (runOps (TaskTree.init 2) c6ops).2 ∧
    Event.taskReset "a" 0 ∈ (runOps (TaskTree.init 2) c6ops).2 ∧
    finResetSeq (runOps (TaskTree.init 2) c6ops).2 0 = [true, false] := by
  refine ⟨?_, ?_, ?_⟩ <;> decide

/-- Claim C6, amended: along every operation sequence from a fresh tree,
each execution id emits `task_finished` at most once and `task_reset` at
most once, and its `task_finished` is never emitted after its `task_reset`;
however both may occur for the same execution (`task_reset` after
`task_finished`), so per execution the classified event sequence is one of
`[]`, `[finished]`, `[reset]`, `[finished, reset]`. -/
theorem execution_events_protocol (jobs : Nat) (ops : List Op) (eid : Nat) :
    finResetSeq (runOps (TaskTree.init jobs) ops).2 eid = [] ∨
    finResetSeq (runOps (TaskTree.init jobs) ops).2 eid = [true] ∨
    finResetSeq (runOps (TaskTree.init jobs) ops).2 eid = [false] ∨
    finResetSeq (runOps (TaskTree.init jobs) ops).2 eid = [true, false] := by
  have hinit := InvL_init jobs
  have h := (InvL_runOps ops (TaskTree.init jobs) [] hinit.1 hinit.2).2
  simp only [List.nil_append] at h
  obtain ⟨ha, hb, hc, hd, he⟩ := h
  by_cases hge : (runOps (TaskTree.init jobs) ops).1.nextExecId ≤ eid
  · exact Or.inl (hc eid hge)
  · push_neg at hge
    by_cases hcur : ∃ p, p ∈ execSucc (runOps (TaskTree.init jobs) ops).1.tasks ∧
        p.1 = eid
    · obtain ⟨p, hp, hpe⟩ := hcur
      rcases hps : p.2 with _ | b
      · refine Or.inl ?_
        rw [← hpe]
        exact (hd p hp).1 hps
      · refine Or.inr (Or.inl ?_)
        rw [← hpe]
        exact (hd p hp).2 b hps
    · push_neg at hcur
      rcases he eid hge (fun p hp => hcur p hp) with h1 | h1 | h1 | h1
      · exact Or.inl h1
      · exact Or.inr (Or.inr (Or.inl h1))
      · exact Or.inr (Or.inl h1)
      · exact Or.inr (Or.inr (Or.inr h1))

/-! ## Configuration loader lemmas -/

theorem lastSlashAux_cons_slash (rest : List Char) :
    ∃ i, lastSlashAux ('/' :: rest) = some i := by
  unfold lastSlashAux
  cases h : lastSlashAux rest with
  | some i => exact ⟨i + 1, rfl⟩
  | none => exact ⟨0, by simp⟩

theorem dirname_absolute (p : String) (h : isAbsolutePath p = true) :
    isAbsolutePath (dirname p) = true := by
  obtain ⟨l⟩ := p
  cases l with
  | nil => simp [isAbsolutePath] at h
  | cons c rest =>
    have hc : c = '/' := by
      simpa [isAbsolutePath] using h
    subst hc
    obtain ⟨i, hi⟩ := lastSlashAux_cons_slash rest
    show isAbsolutePath (dirname { data := '/' :: rest }) = true
    unfold dirname
    rw [show (String.mk ('/' :: rest)).data = '/' :: rest from rfl, hi]
    cases i with
    | zero => rfl
    | succ j =>
      show isAbsolutePath { data := ('/' :: rest).take (j + 1) } = true
      simp [isAbsolutePath, List.take]

theorem pathResolve_absolute (base rel : String)
    (h : isAbsolutePath base = true) :
    isAbsolutePath (pathResolve base rel) = true := by
  unfold pathResolve
  by_cases hr : isAbsolutePath rel = true
  · rw [if_pos hr]
    exact hr
  · rw [if_neg hr]
    obtain ⟨l⟩ := base
    cases l with
    | nil => simp [isAbsolutePath] at h
    | cons c rest =>
      have hc : c = '/' := by
        simpa [isAbsolutePath] using h
      subst hc
      show isAbsolutePath (String.mk ('/' :: rest) ++ "/" ++ rel) = true
      have hdata : (String.mk ('/' :: rest) ++ "/" ++ rel).data =
          '/' :: (rest ++ "/".data ++ rel.data) := by
        simp [String.data_append]
      simp [isAbsolutePath, hdata]

/-- Claim C9: the successful branch of `readSingleConfig` accepts each of
`watch`, `ignore` and `deps` as a single string or a list of strings, turns
a single string (or a missing field) into a one-element (resp. empty) list,
resolves every entry against the configuration file's own directory, and —
the configuration path being absolute — returns only absolute paths. -/
theorem config_loader_normalizes_and_resolves (configPath : String)
    (opts : TaskOptionsJson) (habs : isAbsolutePath configPath = true) :
    (∀ s, opts.watch = some (Sum.inl s) →
      (readSingleConfigOk configPath opts).watch =
        [pathResolve (dirname configPath) s]) ∧
    (∀ l, opts.watch = some (Sum.inr l) →
      (readSingleConfigOk configPath opts).watch =
        l.map (pathResolve (dirname configPath))) ∧
    (∀ s, opts.ignore = some (Sum.inl s) →
      (readSingleConfigOk configPath opts).ignore =
        [pathResolve (dirname configPath) s]) ∧
    (∀ l, opts.ignore = some (Sum.inr l) →
      (readSingleConfigOk configPath opts).ignore =
        l.map (pathResolve (dirname configPath))) ∧
    (∀ s, opts.deps = some (Sum.inl s) →
      (readSingleConfigOk configPath opts).deps =
        [pathResolve (dirname configPath) s]) ∧
    (∀ l, opts.deps = some (Sum.inr l) →
      (readSingleConfigOk configPath opts).deps =
        l.map (pathResolve (dirname configPath))) ∧
    (∀ q, q ∈ (readSingleConfigOk configPath opts).watch ++
        (readSingleConfigOk configPath opts).ignore ++
        (readSingleConfigOk configPath opts).deps →
      isAbsolutePath q = true) := by
  have hdir : isAbsolutePath (dirname configPath) = true :=
    dirname_absolute configPath habs
  refine ⟨?_, ?_, ?_, ?_, ?_, ?_, ?_⟩
  · intro s hs
    simp [readSingleConfigOk, hs, fieldToList]
  · intro l hl
    simp [readSingleConfigOk, hl, fieldToList]
  · intro s hs
    simp [readSingleConfigOk, hs, fieldToList]
  · intro l hl
    simp [readSingleConfigOk, hl, fieldToList]
  · intro s hs
    simp [readSingleConfigOk, hs, fieldToList]
  · intro l hl
    simp [readSingleConfigOk, hl, fieldToList]
  · intro q hq
    simp only [readSingleConfigOk, List.mem_append, List.mem_map] at hq
    rcases hq with (⟨r, _, hr⟩ | ⟨r, _, hr⟩) | ⟨r, _, hr⟩ <;>
      { rw [← hr]; exact pathResolve_absolute _ r hdir }

theorem config_loader_normalizes_and_resolves_witness :
    isAbsolutePath "/w/proj/kubik.config.js" = true ∧
    ({ name := none, watch := some (Sum.inl "src"),
       ignore := some (Sum.inr ["node_modules", "/tmp/cache"]),
       deps := none : TaskOptionsJson }).watch = some (Sum.inl "src") ∧
    (readSingleConfigOk "/w/proj/kubik.config.js"
      { name := none, watch := some (Sum.inl "src"),
        ignore := some (Sum.inr ["node_modules", "/tmp/cache"]),
        deps := none }).watch = ["/w/proj/src"] ∧
    (readSingleConfigOk "/w/proj/kubik.config.js"
      { name := none, watch := some (Sum.inl "src"),
        ignore := some (Sum.inr ["node_modules", "/tmp/cache"]),
        deps := none }).ignore = ["/w/proj/node_modules", "/tmp/cache"] ∧
    (readSingleConfigOk "/w/proj/kubik.config.js"
      { name := none, watch := some (Sum.inl "src"),
        ignore := some (Sum.inr ["node_modules", "/tmp/cache"]),
        deps := none }).deps = [] ∧
    isAbsolutePath "/w/proj/src" = true := by
  have h := config_loader_normalizes_and_resolves "/w/proj/kubik.config.js"
    { name := none, watch := some (Sum.inl "src"),
      ignore := some (Sum.inr ["node_modules", "/tmp/cache"]),
      deps := none } (by decide)
  have h1 := h.1 "src" rfl
  refine ⟨by decide, rfl, ?_, by decide, by decide, ?_⟩
  · rw [h1]
    decide
  · exact h.2.2.2.2.2.2 "/w/proj/src" (by decide)

/-! ## Project output and sentinel lemmas -/

/-- Claim C7, counterexample: `requestBuild` leaves previously accumulated
output in place when a new run is dispatched, while the `task_reset` status
event for the project's own task clears it — the opposite of the claimed
behaviour on both counts. -/
theorem project_output_counterexample :
    (requestBuildFn
      { tree := TaskTree.init 1, output := "stale output",
        configurationError := none, subprocess := false } 0 "/p" "v"
      false).output = "stale output" ∧
    "stale output" ≠ "" ∧
    (projectOnTaskReset
      { tree := TaskTree.init 1, output := "stale output",
        configurationError := none, subprocess := false } "/p" "/p").output =
      "" := by
  refine ⟨rfl, by decide, rfl⟩

/-- Claim C7, amended: dispatching a run never empties the project's output
buffer — `requestBuild` preserves it on the configuration-error path and on
a successful launch, and overwrites it with a launch-failure message (never
the empty string) only when the fork throws; the buffer is emptied exactly
by the `task_reset` status event naming the project's own task. -/
theorem project_output_reset_on_task_reset (st : ProjState) (objId : Nat)
    (configPath version eventTaskId : String) :
    ((requestBuildFn st objId configPath version false).output = st.output) ∧
    (∀ err ff, st.configurationError = some err →
      (requestBuildFn st objId configPath version ff).output = st.output) ∧
    ((requestBuildFn st objId configPath version true).output = st.output ∨
      (requestBuildFn st objId configPath version true).output =
        "Failed to launch " ++ configPath ++ "\n") ∧
    ((projectOnTaskReset st eventTaskId configPath).output =
      if eventTaskId = configPath then "" else st.output) := by
  refine ⟨?_, ?_, ?_, ?_⟩
  · unfold requestBuildFn
    cases herr : st.configurationError <;> rfl
  · intro err ff herr
    unfold requestBuildFn
    rw [herr]
  · unfold requestBuildFn
    cases herr : st.configurationError with
    | none => exact Or.inr rfl
    | some e => exact Or.inl rfl
  · unfold projectOnTaskReset
    by_cases heq : eventTaskId = configPath
    · rw [if_pos heq, if_pos heq]
    · rw [if_neg heq, if_neg heq]

/-- Claim C8, counterexample: the readiness sentinel the message handler
recognises is `MSG_TASK_DONE = "service started"`; an IPC message equal to
the literal `"task-done"` is not the sentinel and is ignored entirely. -/
theorem sentinel_literal_counterexample :
    "task-done" ≠ MSG_TASK_DONE ∧
    (∀ (st : ProjState) (objId : Nat) (configPath version : String),
      projectOnMessage st objId configPath version "task-done" = st) := by
  refine ⟨by decide, ?_⟩
  intro st objId configPath version
  unfold projectOnMessage
  rw [if_neg (by decide)]

/-- Claim C8, amended: with the project's task running (its execution
current and undecided, the closure bound to the live task object), the
message `"task-done"` is ignored, while the actual sentinel
`MSG_TASK_DONE` completes the task as `ok` without touching the process or
the output; when the process then exits with code `7`, the task no longer
counts as running, so `on_complete` is not invoked again — the tree is
unchanged, the status stays `ok` and the output gains
`"(process exited with code=7)"`. -/
theorem sentinel_completes_then_exit_logged (st : ProjState) (objId : Nat)
    (configPath version : String) {t : Task} {e : Execution}
    (hlook : alookup st.tree.tasks configPath = some t)
    (hobj : t.objId = objId)
    (hexec : t.execution = some e)
    (hver : e.taskVersion = version)
    (hsucc : e.success = none) :
    (projectOnMessage st objId configPath version "task-done" = st) ∧
    (taskStatusFn (projectOnMessage st objId configPath version
        MSG_TASK_DONE).tree configPath = some TaskStatus.ok) ∧
    ((projectOnMessage st objId configPath version
        MSG_TASK_DONE).subprocess = st.subprocess) ∧
    ((projectOnMessage st objId configPath version
        MSG_TASK_DONE).output = st.output) ∧
    ((projectOnClose (projectOnMessage st objId configPath version
        MSG_TASK_DONE) objId configPath version 7).output =
      st.output ++ "(process exited with code=7)") ∧
    ((projectOnClose (projectOnMessage st objId configPath version
        MSG_TASK_DONE) objId configPath version 7).tree =
      (projectOnMessage st objId configPath version MSG_TASK_DONE).tree) ∧
    (taskStatusFn (projectOnClose (projectOnMessage st objId configPath
        version MSG_TASK_DONE) objId configPath version 7).tree configPath =
      some TaskStatus.ok) := by
  have heff : onTaskComplete st.tree objId configPath version true =
      ({ st.tree with
          tasks := aupdate st.tree.tasks configPath (recordOutcome e true) },
       [Event.taskFinished configPath e.execId]) := by
    unfold onTaskComplete
    rw [hlook]
    subst hver
    simp [hobj, hexec, hsucc, recordOutcome]
  have hmsg : projectOnMessage st objId configPath version MSG_TASK_DONE =
      { st with tree := { st.tree with
          tasks := aupdate st.tree.tasks configPath (recordOutcome e true) } } := by
    unfold projectOnMessage
    rw [if_pos rfl, heff]
  have hstatus : taskStatusFn { st.tree with
      tasks := aupdate st.tree.tasks configPath (recordOutcome e true) }
      configPath = some TaskStatus.ok := by
    unfold taskStatusFn
    rw [show ({ st.tree with
        tasks := aupdate st.tree.tasks configPath (recordOutcome e true) } :
        TaskTree).tasks = aupdate st.tree.tasks configPath
          (recordOutcome e true) from rfl]
    rw [alookup_aupdate_self, hlook]
    simp [recordOutcome]
  have hignored : projectOnMessage st objId configPath version "task-done" =
      st := by
    unfold projectOnMessage
    rw [if_neg (by decide)]
  have hnotrun : taskStatusFn (projectOnMessage st objId configPath version
      MSG_TASK_DONE).tree configPath ≠ some TaskStatus.running := by
    rw [hmsg]
    dsimp only
    rw [hstatus]
    decide
  have hclose : projectOnClose (projectOnMessage st objId configPath version
      MSG_TASK_DONE) objId configPath version 7 =
      { (projectOnMessage st objId configPath version MSG_TASK_DONE) with
          output :=
            (projectOnMessage st objId configPath version
              MSG_TASK_DONE).output ++ "(process exited with code=" ++
              toString (7 : Int) ++ ")",
          subprocess := false } := by
    unfold projectOnClose
    rw [if_neg hnotrun]
  refine ⟨hignored, ?_, ?_, ?_, ?_, ?_, ?_⟩
  · rw [hmsg]
    exact hstatus
  · rw [hmsg]
  · rw [hmsg]
  · rw [hclose, hmsg]
    dsimp only
    rw [String.append_assoc, String.append_assoc]
    rw [show ("(process exited with code=" ++ (toString (7 : Int) ++ ")") :
      String) = "(process exited with code=7)" from by decide]
  · rw [hclose]
  · rw [hclose]
    dsimp only
    rw [hmsg]
    dsimp only
    exact hstatus

theorem sentinel_completes_then_exit_logged_witness :
    (alookup c8state.tree.tasks "/p" = some c8task) ∧
    c8task.objId = 5 ∧
    c8task.execution = some c8exec ∧
    c8exec.taskVersion = "v1" ∧
    c8exec.success = none ∧
    (projectOnMessage c8state 5 "/p" "v1" "task-done" = c8state) ∧
    (taskStatusFn (projectOnMessage c8state 5 "/p" "v1"
        MSG_TASK_DONE).tree "/p" = some TaskStatus.ok) ∧
    ((projectOnClose (projectOnMessage c8state 5 "/p" "v1" MSG_TASK_DONE)
        5 "/p" "v1" 7).output = "boot log\n(process exited with code=7)") := by
  have h := @sentinel_completes_then_exit_logged c8state 5 "/p" "v1"
    c8task c8exec rfl rfl rfl rfl rfl
  refine ⟨rfl, rfl, rfl, rfl, rfl, h.1, h.2.1, ?_⟩
  rw [h.2.2.2.2.1]
  decide

theorem project_output_reset_on_task_reset_witness :
    c7state.configurationError = some "bad config" ∧
    (requestBuildFn c7state 0 "/p" "v" true).output = "keep" ∧
    (projectOnTaskReset c7state "/q" "/p").output = "keep" ∧
    (projectOnTaskReset c7state "/p" "/p").output = "" := by
  have h := project_output_reset_on_task_reset c7state 0 "/p" "v" "/q"
  have h2 := project_output_reset_on_task_reset c7state 0 "/p" "v" "/p"
  refine ⟨rfl, h.2.1 "bad config" true rfl, ?_, ?_⟩
  · rw [h.2.2.2]
    decide
  · rw [h2.2.2.2]
    decide

/-! ## Insertion-sort lemmas -/

theorem mem_insertLt {x y : String} {l : List String} :
    x ∈ insertLt y l ↔ x = y ∨ x ∈ l := by
  induction l with
  | nil => simp [insertLt]
  | cons z zs ih =>
    unfold insertLt
    by_cases h : y < z
    · rw [if_pos h]
      simp
    · rw [if_neg h]
      simp only [List.mem_cons, ih]
      tauto

theorem mem_sortByLt {x : String} {l : List String} :
    x ∈ sortByLt l ↔ x ∈ l := by
  induction l with
  | nil => simp [sortByLt]
  | cons y ys ih =>
    unfold sortByLt
    rw [mem_insertLt, ih]
    simp

theorem pairwise_insertLt {x : String} {l : List String}
    (h : l.Pairwise (fun a b => ¬ b < a)) :
    (insertLt x l).Pairwise (fun a b => ¬ b < a) := by
  induction l with
  | nil => simp [insertLt]
  | cons y ys ih =>
    unfold insertLt
    rw [List.pairwise_cons] at h
    by_cases hxy : x < y
    · rw [if_pos hxy]
      refine List.Pairwise.cons ?_ (List.Pairwise.cons h.1 h.2)
      intro z hz
      rcases List.mem_cons.mp hz with rfl | hz2
      · exact lt_asymm hxy
      · intro hzx
        exact h.1 z hz2 (lt_trans hzx hxy)
    · rw [if_neg hxy]
      refine List.Pairwise.cons ?_ (ih h.2)
      intro z hz
      rcases mem_insertLt.mp hz with rfl | hz2
      · exact hxy
      · exact h.1 z hz2

theorem pairwise_sortByLt (l : List String) :
    (sortByLt l).Pairwise (fun a b => ¬ b < a) := by
  induction l with
  | nil => simp [sortByLt]
  | cons y ys ih =>
    unfold sortByLt
    exact pairwise_insertLt ih

theorem insertLt_of_forall {x : String} {l : List String}
    (h : ∀ z ∈ l, ¬ z < x) : insertLt x l = x :: l := by
  induction l with
  | nil => rfl
  | cons y ys ih =>
    unfold insertLt
    by_cases hxy : x < y
    · rw [if_pos hxy]
    · rw [if_neg hxy]
      have hyx : ¬ y < x := h y (List.mem_cons_self _ _)
      have hxyeq : x = y := le_antisymm (not_lt.mp hyx) (not_lt.mp hxy)
      rw [ih (fun z hz => h z (List.mem_cons_of_mem _ hz)), hxyeq]

theorem sortByLt_of_pairwise {l : List String}
    (h : l.Pairwise (fun a b => ¬ b < a)) : sortByLt l = l := by
  induction l with
  | nil => rfl
  | cons y ys ih =>
    unfold sortByLt
    rw [List.pairwise_cons] at h
    rw [ih h.2]
    exact insertLt_of_forall h.1

theorem sortByLt_idem (l : List String) :
    sortByLt (sortByLt l) = sortByLt l :=
  sortByLt_of_pairwise (pairwise_sortByLt l)

/-! ## Chain lemmas over the acyclic adjacency -/

theorem chain_mem_reflTransGen {A : Multimap} :
    ∀ {l : List String} {c w : String}, List.Chain (medge A) c l →
      w ∈ c :: l → Relation.ReflTransGen (medge A) c w := by
  intro l
  induction l with
  | nil =>
    intro c w _ hw
    rcases List.mem_cons.mp hw with rfl | h
    · exact Relation.ReflTransGen.refl
    · simp at h
  | cons d ds ih =>
    intro c w hch hw
    rcases List.chain_cons.mp hch with ⟨hcd, hch2⟩
    rcases List.mem_cons.mp hw with rfl | h2
    · exact Relation.ReflTransGen.refl
    · exact Relation.ReflTransGen.head hcd (ih hch2 h2)

theorem chain_nodup_of_acyclic {A : Multimap} (hacyc : ¬ hasCycle A) :
    ∀ {l : List String} {v : String}, List.Chain (medge A) v l →
      (v :: l).Nodup := by
  intro l
  induction l with
  | nil => intro v _; simp
  | cons c cs ih =>
    intro v hch
    rcases List.chain_cons.mp hch with ⟨hvc, hch2⟩
    have hnd2 : (c :: cs).Nodup := ih hch2
    rw [List.nodup_cons]
    refine ⟨?_, hnd2⟩
    intro hv
    have hreach : Relation.ReflTransGen (medge A) c v :=
      chain_mem_reflTransGen hch2 hv
    exact hacyc ⟨v, Relation.TransGen.head' hvc hreach⟩

theorem chain_subset_taskIds {A : Multimap} :
    ∀ {l : List String} {v : String}, List.Chain (medge A) v l →
      ∀ w ∈ l, w ∈ Multimap.taskIds A := by
  intro l
  induction l with
  | nil => intro v _ w hw; simp at hw
  | cons c cs ih =>
    intro v hch w hw
    rcases List.chain_cons.mp hch with ⟨hvc, hch2⟩
    rcases List.mem_cons.mp hw with rfl | h2
    · exact medge_mem_taskIds hvc
    · exact ih hch2 w h2

theorem nodup_dedupFAux : ∀ (l seen : List String), (dedupFAux seen l).Nodup := by
  intro l
  induction l with
  | nil => intro seen; simp [dedupFAux]
  | cons x xs ih =>
    intro seen
    unfold dedupFAux
    by_cases hx : x ∈ seen
    · rw [if_pos hx]
      exact ih seen
    · rw [if_neg hx]
      rw [List.nodup_cons]
      refine ⟨?_, ih _⟩
      intro hmem
      exact (mem_dedupFAux.mp hmem).2 (List.mem_cons_self _ _)

theorem nodup_dedupF (l : List String) : (dedupF l).Nodup :=
  nodup_dedupFAux l []

theorem chain_length_le {A : Multimap} (hacyc : ¬ hasCycle A)
    {U : List String} (hU : ∀ w, w ∈ Multimap.taskIds A → w ∈ U)
    {v : String} {l : List String} (hch : List.Chain (medge A) v l) :
    l.length ≤ U.length := by
  have hnd := chain_nodup_of_acyclic hacyc hch
  have hsub : ∀ w ∈ l, w ∈ U := fun w hw =>
    hU w (chain_subset_taskIds hch w hw)
  exact nodup_length_le (List.nodup_cons.mp hnd).2 hsub

/-! ## Pointwise phase lemmas for `setTasks` -/

theorem alookup_aupdate_proj {β : Type} (π : Task → β) {f : Task → Task}
    (hf : ∀ t, π (f t) = π t) (m : List (String × Task)) (k v : String) :
    (alookup (aupdate m k f) v).map π = (alookup m v).map π := by
  by_cases hv : v = k
  · subst hv
    rw [alookup_aupdate_self]
    cases alookup m v <;> simp [hf]
  · rw [alookup_aupdate_other _ _ hv]

theorem removeAbsent_id_of_all_kept (keep : List String) :
    ∀ m : List (String × Task), (∀ kv ∈ m, kv.1 ∈ keep) →
      removeAbsent keep m = (m, []) := by
  intro m
  induction m with
  | nil => intro _; rfl
  | cons kv rest ih =>
    intro h
    obtain ⟨k, t⟩ := kv
    unfold removeAbsent
    dsimp only
    rw [ih (fun kv2 hkv2 => h kv2 (List.mem_cons_of_mem _ hkv2))]
    rw [if_pos (h (k, t) (List.mem_cons_self _ _))]

theorem removeAbsent_entries (keep : List String) :
    ∀ m kv, kv ∈ (removeAbsent keep m).1 → kv ∈ m ∧ kv.1 ∈ keep := by
  intro m
  induction m with
  | nil => intro kv h; simp [removeAbsent] at h
  | cons kv0 rest ih =>
    intro kv h
    obtain ⟨k, t⟩ := kv0
    unfold removeAbsent at h
    dsimp only at h
    by_cases hk : k ∈ keep
    · rw [if_pos hk] at h
      rcases List.mem_cons.mp h with rfl | h2
      · exact ⟨List.mem_cons_self _ _, hk⟩
      · obtain ⟨h3, h4⟩ := ih kv h2
        exact ⟨List.mem_cons_of_mem _ h3, h4⟩
    · rw [if_neg hk] at h
      obtain ⟨h3, h4⟩ := ih kv h
      exact ⟨List.mem_cons_of_mem _ h3, h4⟩

theorem getAll_eq_nil_of_not_key {A : Multimap} {v : String}
    (h : v ∉ Multimap.keysList A) : Multimap.getAll A v = [] := by
  unfold Multimap.getAll
  have hf : A.filter (fun e => e.1 = v) = [] := by
    rw [List.filter_eq_nil_iff]
    intro e he hev
    refine h ?_
    unfold Multimap.keysList
    rw [mem_dedupF]
    simp only [decide_eq_true_eq] at hev
    rw [← hev]
    exact List.mem_map_of_mem Prod.fst he
  rw [hf]
  rfl

theorem ensureTasks_lookup_all_present (ids : List String) :
    ∀ (m : List (String × Task)) (n : Nat),
      (∀ id ∈ ids, id ∈ m.map Prod.fst) →
      ∀ v, alookup (ensureTasks ids m n).1 v =
        if v ∈ ids then (alookup m v).map clearLinks else alookup m v := by
  induction ids with
  | nil =>
    intro m n _ v
    rw [if_neg (by simp)]
    rfl
  | cons id rest ih =>
    intro m n hpres v
    unfold ensureTasks
    dsimp only
    have hid : id ∈ m.map Prod.fst := hpres id (List.mem_cons_self _ _)
    have hsome : (alookup m id).isSome := alookup_isSome_of_mem hid
    rw [if_pos hsome, if_pos hsome]
    have hpres2 : ∀ i ∈ rest, i ∈ (aupdate m id (fun t =>
        { t with children := [], parents := [] })).map Prod.fst := by
      intro i hi
      rw [aupdate_keys]
      exact hpres i (List.mem_cons_of_mem _ hi)
    rw [ih _ n hpres2 v]
    by_cases hvrest : v ∈ rest
    · rw [if_pos hvrest, if_pos (List.mem_cons_of_mem _ hvrest)]
      by_cases hvid : v = id
      · subst hvid
        rw [alookup_aupdate_self]
        cases alookup m v <;> rfl
      · rw [alookup_aupdate_other _ _ hvid]
    · rw [if_neg hvrest]
      by_cases hvid : v = id
      · subst hvid
        rw [if_pos (List.mem_cons_self _ _), alookup_aupdate_self]
        rfl
      · rw [if_neg (by simp [hvid, hvrest]), alookup_aupdate_other _ _ hvid]

theorem ensureTasks_keys_all_present (ids : List String) :
    ∀ m n, (∀ id ∈ ids, id ∈ m.map Prod.fst) →
      (ensureTasks ids m n).1.map Prod.fst = m.map Prod.fst := by
  induction ids with
  | nil => intro m n _; rfl
  | cons id rest ih =>
    intro m n hpres
    unfold ensureTasks
    dsimp only
    have hid : id ∈ m.map Prod.fst := hpres id (List.mem_cons_self _ _)
    have hsome : (alookup m id).isSome := alookup_isSome_of_mem hid
    rw [if_pos hsome, if_pos hsome]
    rw [ih _ n (fun i hi => by
      rw [aupdate_keys]
      exact hpres i (List.mem_cons_of_mem _ hi))]
    rw [aupdate_keys]

theorem ensureTasks_mem_keys (ids : List String) :
    ∀ m n v, v ∈ (ensureTasks ids m n).1.map Prod.fst ↔
      v ∈ m.map Prod.fst ∨ v ∈ ids := by
  induction ids with
  | nil => intro m n v; simp [ensureTasks]
  | cons id rest ih =>
    intro m n v
    unfold ensureTasks
    dsimp only
    rw [ih, aupdate_keys]
    by_cases hsome : (alookup m id).isSome
    · rw [if_pos hsome]
      have hid : id ∈ m.map Prod.fst := by
        cases hl : alookup m id with
        | none => rw [hl] at hsome; exact absurd hsome (by simp)
        | some t => exact alookup_some_mem_keys hl
      constructor
      · rintro (h1 | h2)
        · exact Or.inl h1
        · exact Or.inr (List.mem_cons_of_mem _ h2)
      · rintro (h1 | h2)
        · exact Or.inl h1
        · rcases List.mem_cons.mp h2 with rfl | h3
          · exact Or.inl hid
          · exact Or.inr h3
    · rw [if_neg hsome]
      unfold aappend
      rw [List.map_append]
      simp only [List.mem_append, List.map_cons, List.map_nil,
        List.mem_singleton, List.mem_cons]
      tauto

theorem ensureTasks_cleared (ids : List String) :
    ∀ m n, (∀ kv ∈ m, kv.1 ∈ ids ∨
        (kv.2.children = [] ∧ kv.2.parents = [])) →
      ∀ kv, kv ∈ (ensureTasks ids m n).1 →
        kv.2.children = [] ∧ kv.2.parents = [] := by
  induction ids with
  | nil =>
    intro m n h kv hkv
    rcases h kv hkv with h1 | h2
    · simp at h1
    · exact h2
  | cons id rest ih =>
    intro m n h kv hkv
    unfold ensureTasks at hkv
    dsimp only at hkv
    refine ih _ _ ?_ kv hkv
    intro kv2 hkv2
    rcases List.mem_map.mp hkv2 with ⟨kv0, hkv0, hkv0eq⟩
    by_cases hk : kv0.1 = id
    · rw [if_pos hk] at hkv0eq
      right
      rw [← hkv0eq]
      exact ⟨rfl, rfl⟩
    · rw [if_neg hk] at hkv0eq
      subst hkv0eq
      by_cases hins : (alookup m id).isSome
      · rw [if_pos hins] at hkv0
        rcases h kv0 hkv0 with h1 | h2
        · rcases List.mem_cons.mp h1 with h3 | h4
          · exact absurd h3 hk
          · exact Or.inl h4
        · exact Or.inr h2
      · rw [if_neg hins] at hkv0
        unfold aappend at hkv0
        rcases List.mem_append.mp hkv0 with h1 | h2
        · rcases h kv0 h1 with h3 | h4
          · rcases List.mem_cons.mp h3 with h5 | h6
            · exact absurd h5 hk
            · exact Or.inl h6
          · exact Or.inr h4
        · rcases List.mem_singleton.mp h2 with rfl
          right
          exact ⟨rfl, rfl⟩

theorem addLinksOfKey_proj {β : Type} (π : Task → β)
    (hπ1 : ∀ t c, π { t with children := t.children ++ [c] } = π t)
    (hπ2 : ∀ t k, π { t with parents := t.parents ++ [k] } = π t)
    (k : String) (cs : List String) :
    ∀ m v, (alookup (addLinksOfKey k cs m) v).map π = (alookup m v).map π := by
  induction cs with
  | nil => intro m v; rfl
  | cons c rest ih =>
    intro m v
    unfold addLinksOfKey
    dsimp only
    rw [ih]
    rw [alookup_aupdate_proj π (fun t => hπ2 t k) _ c v]
    rw [alookup_aupdate_proj π (fun t => hπ1 t c) _ k v]

theorem addLinks_proj {β : Type} (π : Task → β)
    (hπ1 : ∀ t c, π { t with children := t.children ++ [c] } = π t)
    (hπ2 : ∀ t k, π { t with parents := t.parents ++ [k] } = π t)
    (A : Multimap) :
    ∀ (ks : List String) m v,
      (alookup (addLinks A ks m) v).map π = (alookup m v).map π := by
  intro ks
  induction ks with
  | nil => intro m v; rfl
  | cons k rest ih =>
    intro m v
    unfold addLinks
    rw [ih, addLinksOfKey_proj π hπ1 hπ2]

theorem addLinksOfKey_children_self (k : String) :
    ∀ (cs : List String) m,
      (alookup (addLinksOfKey k cs m) k).map Task.children =
        (alookup m k).map (fun t => t.children ++ cs) := by
  intro cs
  induction cs with
  | nil =>
    intro m
    show (alookup m k).map Task.children =
      (alookup m k).map (fun t => t.children ++ [])
    cases alookup m k <;> simp
  | cons c rest ih =>
    intro m
    unfold addLinksOfKey
    dsimp only
    rw [ih]
    have hstep : ∀ m2 : List (String × Task),
        (alookup (aupdate m2 c (fun t =>
          { t with parents := t.parents ++ [k] })) k).map
          (fun t => t.children ++ rest) =
        (alookup m2 k).map (fun t => t.children ++ rest) :=
      fun m2 => @alookup_aupdate_proj _ (fun t => t.children ++ rest)
        (fun t => { t with parents := t.parents ++ [k] })
        (fun t => rfl) m2 c k
    rw [hstep, alookup_aupdate_self]
    cases alookup m k with
    | none => rfl
    | some t => simp

theorem addLinksOfKey_children_other (k : String) (cs : List String) :
    ∀ m v, v ≠ k →
      (alookup (addLinksOfKey k cs m) v).map Task.children =
        (alookup m v).map Task.children := by
  induction cs with
  | nil => intro m v _; rfl
  | cons c rest ih =>
    intro m v hv
    unfold addLinksOfKey
    dsimp only
    rw [ih _ _ hv]
    have hstep : ∀ m2 : List (String × Task),
        (alookup (aupdate m2 c (fun t =>
          { t with parents := t.parents ++ [k] })) v).map Task.children =
        (alookup m2 v).map Task.children :=
      fun m2 => @alookup_aupdate_proj _ Task.children
        (fun t => { t with parents := t.parents ++ [k] })
        (fun t => rfl) m2 c v
    rw [hstep, alookup_aupdate_other _ _ hv]

theorem addLinks_children_spec (A : Multimap) :
    ∀ (ks : List String) (m : List (String × Task)),
      (∀ v t, alookup m v = some t →
        (v ∈ ks → t.children = []) ∧
        (v ∉ ks → t.children = Multimap.getAll A v)) →
      ks.Nodup →
      ∀ v t, alookup (addLinks A ks m) v = some t →
        t.children = Multimap.getAll A v := by
  intro ks
  induction ks with
  | nil =>
    intro m h _ v t hl
    exact (h v t hl).2 (by simp)
  | cons k rest ih =>
    intro m h hnd v t hl
    unfold addLinks at hl
    rw [List.nodup_cons] at hnd
    refine ih _ ?_ hnd.2 v t hl
    intro v2 t2 hl2
    by_cases hv2 : v2 = k
    · subst hv2
      have hmap := addLinksOfKey_children_self v2 (Multimap.getAll A v2) m
      rw [hl2] at hmap
      cases hm : alookup m v2 with
      | none =>
        rw [hm] at hmap
        simp at hmap
      | some t0 =>
        rw [hm] at hmap
        have hch : t2.children = t0.children ++ Multimap.getAll A v2 :=
          Option.some.inj hmap
        have h0 := (h v2 t0 hm).1 (List.mem_cons_self _ _)
        constructor
        · intro habs
          exact absurd habs hnd.1
        · intro _
          rw [hch, h0]
          rfl
    · have hmap := addLinksOfKey_children_other k (Multimap.getAll A k) m v2 hv2
      rw [hl2] at hmap
      cases hm : alookup m v2 with
      | none =>
        rw [hm] at hmap
        simp at hmap
      | some t0 =>
        rw [hm] at hmap
        have hch : t2.children = t0.children := Option.some.inj hmap
        have h0 := h v2 t0 hm
        constructor
        · intro hin
          rw [hch]
          exact h0.1 (List.mem_cons_of_mem _ hin)
        · intro hnin
          rw [hch]
          refine h0.2 ?_
          intro hin2
          rcases List.mem_cons.mp hin2 with h3 | h4
          · exact hv2 h3
          · exact hnin h4

theorem linkView_aupdate (m : List (String × Task)) (k : String)
    (f : Task → Task)
    (g : String × List String × List String →
      String × List String × List String)
    (hfg : ∀ t : Task, ((f t).taskId, (f t).children, (f t).parents) =
      g (t.taskId, t.children, t.parents)) :
    linkView (aupdate m k f) =
      (linkView m).map (fun q => if q.1 = k then (q.1, g q.2) else q) := by
  unfold linkView aupdate
  rw [List.map_map, List.map_map]
  apply List.map_congr_left
  intro kv _
  by_cases hk : kv.1 = k <;> simp [Function.comp, hk, hfg]

theorem linkView_addLinksOfKey (k : String) (cs : List String) :
    ∀ m₁ m₂, linkView m₁ = linkView m₂ →
      linkView (addLinksOfKey k cs m₁) = linkView (addLinksOfKey k cs m₂) := by
  induction cs with
  | nil => intro m₁ m₂ h; exact h
  | cons c rest ih =>
    intro m₁ m₂ h
    unfold addLinksOfKey
    dsimp only
    refine ih _ _ ?_
    have hstep2 : ∀ mm : List (String × Task),
        linkView (aupdate mm c (fun t =>
          { t with parents := t.parents ++ [k] })) =
        (linkView mm).map (fun q => if q.1 = c then
          (q.1, q.2.1, q.2.2.1, q.2.2.2 ++ [k]) else q) :=
      fun mm => linkView_aupdate mm c
        (fun t => { t with parents := t.parents ++ [k] })
        (fun p => (p.1, p.2.1, p.2.2 ++ [k])) (fun t => rfl)
    have hstep1 : ∀ mm : List (String × Task),
        linkView (aupdate mm k (fun t =>
          { t with children := t.children ++ [c] })) =
        (linkView mm).map (fun q => if q.1 = k then
          (q.1, q.2.1, q.2.2.1 ++ [c], q.2.2.2) else q) :=
      fun mm => linkView_aupdate mm k
        (fun t => { t with children := t.children ++ [c] })
        (fun p => (p.1, p.2.1 ++ [c], p.2.2)) (fun t => rfl)
    rw [hstep2, hstep2, hstep1, hstep1, h]

theorem linkView_addLinks (A : Multimap) :
    ∀ (ks : List String) m₁ m₂, linkView m₁ = linkView m₂ →
      linkView (addLinks A ks m₁) = linkView (addLinks A ks m₂) := by
  intro ks
  induction ks with
  | nil => intro m₁ m₂ h; exact h
  | cons k rest ih =>
    intro m₁ m₂ h
    unfold addLinks
    exact ih _ _ (linkView_addLinksOfKey _ _ _ _ h)

theorem rootsView_eq_of_linkView :
    ∀ m₁ m₂ : List (String × Task), linkView m₁ = linkView m₂ →
      rootsView m₁ = rootsView m₂ := by
  intro m₁
  induction m₁ with
  | nil =>
    intro m₂ h
    cases m₂ with
    | nil => rfl
    | cons kv m => simp [linkView] at h
  | cons kv m ih =>
    intro m₂ h
    cases m₂ with
    | nil => simp [linkView] at h
    | cons kv2 m2 =>
      simp only [linkView, List.map_cons, List.cons.injEq] at h
      obtain ⟨h1, h2⟩ := h
      have hT : kv.2.taskId = kv2.2.taskId := congrArg (fun q => q.2.1) h1
      have hP : kv.2.parents = kv2.2.parents :=
        congrArg (fun q => q.2.2.2) h1
      have hrest : rootsView m = rootsView m2 := ih m2 h2
      unfold rootsView avalues at hrest ⊢
      simp only [List.map_cons, List.filter_cons]
      rw [hP]
      by_cases hemp : kv2.2.parents.isEmpty = true
      · rw [if_pos (by simpa using hemp), if_pos (by simpa using hemp)]
        simp only [List.map_cons]
        rw [hT, hrest]
      · rw [if_neg (by simpa using hemp), if_neg (by simpa using hemp)]
        exact hrest

theorem kview_of_lookup :
    ∀ (m₁ m₂ : List (String × Task)),
      m₁.map Prod.fst = m₂.map Prod.fst → wfKeysM m₁ →
      (∀ v, (alookup m₁ v).map Task.taskId = (alookup m₂ v).map Task.taskId) →
      kview m₁ = kview m₂ := by
  intro m₁
  induction m₁ with
  | nil =>
    intro m₂ hk _ _
    cases m₂ with
    | nil => rfl
    | cons kv m => simp at hk
  | cons kv m ih =>
    intro m₂ hk hwf hpt
    cases m₂ with
    | nil => simp at hk
    | cons kv2 m2 =>
      obtain ⟨k, t⟩ := kv
      obtain ⟨k2, t2⟩ := kv2
      simp only [List.map_cons, List.cons.injEq] at hk
      obtain ⟨hk1, hk2⟩ := hk
      subst hk1
      have hnotin : k ∉ m.map Prod.fst := by
        have hnd := hwf
        unfold wfKeysM at hnd
        simp only [List.map_cons, List.nodup_cons] at hnd
        exact hnd.1
      have hwf2 : wfKeysM m := by
        have hnd := hwf
        unfold wfKeysM at hnd ⊢
        simp only [List.map_cons, List.nodup_cons] at hnd
        exact hnd.2
      have hhead := hpt k
      rw [show alookup ((k, t) :: m) k = some t from by
          unfold alookup
          rw [if_pos rfl],
        show alookup ((k, t2) :: m2) k = some t2 from by
          unfold alookup
          rw [if_pos rfl]] at hhead
      have hT : t.taskId = t2.taskId := by
        simpa using hhead
      have hpt2 : ∀ v, (alookup m v).map Task.taskId =
          (alookup m2 v).map Task.taskId := by
        intro v
        by_cases hv : v = k
        · subst hv
          rw [alookup_eq_none.mpr hnotin,
            alookup_eq_none.mpr (by rw [← hk2]; exact hnotin)]
        · have := hpt v
          rw [show alookup ((k, t) :: m) v = alookup m v from by
              unfold alookup
              rw [if_neg (fun hh => hv hh.symm)]
              cases m <;> rfl,
            show alookup ((k, t2) :: m2) v = alookup m2 v from by
              unfold alookup
              rw [if_neg (fun hh => hv hh.symm)]
              cases m2 <;> rfl] at this
          exact this
      unfold kview
      simp only [List.map_cons]
      rw [hT]
      have := ih m2 hk2 hwf2 hpt2
      unfold kview at this
      rw [this]

theorem linkView_of_kview_cleared :
    ∀ m₁ m₂ : List (String × Task), kview m₁ = kview m₂ →
      (∀ kv ∈ m₁, kv.2.children = [] ∧ kv.2.parents = []) →
      (∀ kv ∈ m₂, kv.2.children = [] ∧ kv.2.parents = []) →
      linkView m₁ = linkView m₂ := by
  intro m₁
  induction m₁ with
  | nil =>
    intro m₂ h _ _
    cases m₂ with
    | nil => rfl
    | cons kv m => simp [kview] at h
  | cons kv m ih =>
    intro m₂ h hc1 hc2
    cases m₂ with
    | nil => simp [kview] at h
    | cons kv2 m2 =>
      simp only [kview, List.map_cons, List.cons.injEq] at h
      obtain ⟨h1, h2⟩ := h
      rw [Prod.mk.injEq] at h1
      obtain ⟨hk, hT⟩ := h1
      have e1 := hc1 kv (List.mem_cons_self _ _)
      have e2 := hc2 kv2 (List.mem_cons_self _ _)
      unfold linkView
      simp only [List.map_cons]
      rw [hk, hT, e1.1, e1.2, e2.1, e2.2]
      have := ih m2 h2 (fun q hq => hc1 q (List.mem_cons_of_mem _ hq))
        (fun q hq => hc2 q (List.mem_cons_of_mem _ hq))
      unfold linkView at this
      rw [this]


/-- The projection of a task the subtree-sha DFS never alters: id, parents,
generation. -/
def idPG (t : Task) : String × List String × Nat :=
  (t.taskId, t.parents, t.generation)

/-- The projection `shaOKAt` reads: task id and stored subtree sha. -/
def shaOf (t : Task) : String × String := (t.taskId, t.subtreeSha)

theorem shaIn_of_proj {m' m : List (String × Task)} {c : String}
    (h : (alookup m' c).map shaOf = (alookup m c).map shaOf) :
    shaIn m' c = shaIn m c := by
  cases h1 : alookup m' c with
  | none =>
    cases h2 : alookup m c with
    | none => simp [shaIn, h1, h2]
    | some b => rw [h1, h2] at h; simp at h
  | some a =>
    cases h2 : alookup m c with
    | none => rw [h1, h2] at h; simp at h
    | some b =>
      rw [h1, h2] at h
      simp only [Option.map_some'] at h
      have h3 := Option.some.inj h
      simp only [shaOf, Prod.mk.injEq] at h3
      simp [shaIn, h1, h2, h3.2]

theorem shaOKAt_of_proj {A : Multimap} {m' m : List (String × Task)}
    {w : String}
    (hw : (alookup m' w).map shaOf = (alookup m w).map shaOf)
    (hc : ∀ c, medge A w c →
      (alookup m' c).map shaOf = (alookup m c).map shaOf)
    (hok : shaOKAt A m w) : shaOKAt A m' w := by
  intro t' hl'
  rw [hl'] at hw
  cases h2 : alookup m w with
  | none => rw [h2] at hw; simp at hw
  | some t =>
    rw [h2] at hw
    simp only [Option.map_some'] at hw
    have h3 := Option.some.inj hw
    simp only [shaOf, Prod.mk.injEq] at h3
    have hok2 := hok t h2
    rw [h3.2, h3.1, hok2]
    congr 1
    congr 1
    apply List.map_congr_left
    intro c hcm
    exact (shaIn_of_proj (hc c (mem_sortByLt.mp hcm))).symm


/-- Invariant package of one subtree-sha DFS call on an acyclic adjacency:
with every stored `children` list matching the adjacency and a child-closed,
sha-consistent done set `S`, the call keeps the children consistent, leaves
nodes outside the reachable cone untouched, preserves id/sha on `S` and
id/parents/generation everywhere, establishes sha consistency on `S` plus
the reachable cone, and — when the whole cone is already done — emits no
event and preserves every execution. -/
def ShaPost (A : Multimap) (fuel : Nat) : Prop :=
  ∀ (S : String → Prop) (v : String) (m : List (String × Task)),
    (∀ w, S w → shaOKAt A m w) →
    (∀ w c, S w → medge A w c → S c) →
    (∀ w, childrenOKAt A m w) →
    (∀ w, w ∈ Multimap.taskIds A → w ∈ m.map Prod.fst) →
    (∀ l, List.Chain (medge A) v l → l.length < fuel) →
    (∀ w, childrenOKAt A (shaDfs fuel v m).1 w) ∧
    (∀ w, ¬ reachA A v w →
      alookup (shaDfs fuel v m).1 w = alookup m w) ∧
    (∀ w, S w → (alookup (shaDfs fuel v m).1 w).map shaOf =
      (alookup m w).map shaOf) ∧
    (∀ w, S w ∨ reachA A v w → shaOKAt A (shaDfs fuel v m).1 w) ∧
    (∀ w, (alookup (shaDfs fuel v m).1 w).map idPG =
      (alookup m w).map idPG) ∧
    ((∀ w, reachA A v w → S w) →
      (shaDfs fuel v m).2 = [] ∧
      ∀ w, (alookup (shaDfs fuel v m).1 w).map Task.execution =
        (alookup m w).map Task.execution)

theorem shaPost_all (A : Multimap) (hacyc : ¬ hasCycle A) :
    ∀ fuel, ShaPost A fuel := by
  intro fuel
  induction fuel with
  | zero =>
    intro S v m _ _ _ _ hfuel
    exact absurd (hfuel [] List.Chain.nil) (by simp)
  | succ fuel ih =>
    have hloop : ∀ (cs : List String) (S : String → Prop)
        (m : List (String × Task)),
        (∀ w, S w → shaOKAt A m w) →
        (∀ w c, S w → medge A w c → S c) →
        (∀ w, childrenOKAt A m w) →
        (∀ w, w ∈ Multimap.taskIds A → w ∈ m.map Prod.fst) →
        (∀ c ∈ cs, ∀ l, List.Chain (medge A) c l → l.length < fuel) →
        (∀ w, childrenOKAt A
          (shaDfsChildrenWith (shaDfs fuel) cs m).1 w) ∧
        (∀ w, (∀ c ∈ cs, ¬ reachA A c w) →
          alookup (shaDfsChildrenWith (shaDfs fuel) cs m).1 w =
            alookup m w) ∧
        (∀ w, S w →
          (alookup (shaDfsChildrenWith (shaDfs fuel) cs m).1 w).map shaOf =
            (alookup m w).map shaOf) ∧
        (∀ w, S w ∨ (∃ c ∈ cs, reachA A c w) →
          shaOKAt A (shaDfsChildrenWith (shaDfs fuel) cs m).1 w) ∧
        (∀ w,
          (alookup (shaDfsChildrenWith (shaDfs fuel) cs m).1 w).map idPG =
            (alookup m w).map idPG) ∧
        ((∀ c ∈ cs, ∀ w, reachA A c w → S w) →
          (shaDfsChildrenWith (shaDfs fuel) cs m).2 = [] ∧
          ∀ w, (alookup (shaDfsChildrenWith (shaDfs fuel) cs m).1 w).map
              Task.execution = (alookup m w).map Task.execution) := by
      intro cs
      induction cs with
      | nil =>
        intro S m hS _ hch _ _
        refine ⟨hch, fun w _ => rfl, fun w _ => rfl, ?_, fun w => rfl,
          fun _ => ⟨rfl, fun w => rfl⟩⟩
        intro w hw
        rcases hw with hSw | ⟨c, hc, _⟩
        · exact hS w hSw
        · simp at hc
      | cons c rest ihc =>
        intro S m hS hSc hch htid hfl
        obtain ⟨d1, d2, d3, d4, d5, d6⟩ :=
          ih S c m hS hSc hch htid (hfl c (List.mem_cons_self _ _))
        have htid2 : ∀ w, w ∈ Multimap.taskIds A →
            w ∈ (shaDfs fuel c m).1.map Prod.fst := by
          intro w hw
          rw [(shaDfs_keys fuel).1]
          exact htid w hw
        have hSc2 : ∀ w c2, (S w ∨ reachA A c w) → medge A w c2 →
            (S c2 ∨ reachA A c c2) := by
          intro w c2 hw hmw
          rcases hw with h1 | h2
          · exact Or.inl (hSc w c2 h1 hmw)
          · exact Or.inr (Relation.ReflTransGen.tail h2 hmw)
        obtain ⟨e1, e2, e3, e4, e5, e6⟩ :=
          ihc (fun w => S w ∨ reachA A c w) (shaDfs fuel c m).1
            d4 hSc2 d1 htid2
            (fun c2 hc2 => hfl c2 (List.mem_cons_of_mem _ hc2))
        unfold shaDfsChildrenWith
        dsimp only
        refine ⟨e1, ?_, ?_, ?_, fun w => (e5 w).trans (d5 w), ?_⟩
        · intro w hnr
          rw [e2 w (fun c2 hc2 => hnr c2 (List.mem_cons_of_mem _ hc2))]
          exact d2 w (hnr c (List.mem_cons_self _ _))
        · intro w hSw
          exact (e3 w (Or.inl hSw)).trans (d3 w hSw)
        · intro w hw
          refine e4 w ?_
          rcases hw with h1 | ⟨c2, hc2, hr⟩
          · exact Or.inl (Or.inl h1)
          · rcases List.mem_cons.mp hc2 with rfl | h3
            · exact Or.inl (Or.inr hr)
            · exact Or.inr ⟨c2, h3, hr⟩
        · intro hdone
          obtain ⟨hev1, hex1⟩ := d6 (hdone c (List.mem_cons_self _ _))
          obtain ⟨hev2, hex2⟩ := e6 (fun c2 h2 w hw =>
            Or.inl (hdone c2 (List.mem_cons_of_mem _ h2) w hw))
          refine ⟨?_, fun w => (hex2 w).trans (hex1 w)⟩
          rw [hev1, hev2]
          rfl
    intro S v m hS hSc hch htid hfuel
    unfold shaDfs
    cases hl : alookup m v with
    | none =>
      refine ⟨hch, fun w _ => rfl, fun w _ => rfl, ?_, fun w => rfl,
        fun _ => ⟨rfl, fun w => rfl⟩⟩
      intro w hw
      rcases hw with hSw | hr
      · exact hS w hSw
      · rcases Relation.ReflTransGen.cases_head hr with heq | ⟨c, hvc, _⟩
        · subst heq
          intro t2 hl2
          rw [hl] at hl2
          cases hl2
        · exfalso
          have hv2 : v ∈ m.map Prod.fst :=
            htid v (keysList_subset_taskIds (medge_mem_keysList hvc))
          have hsome := alookup_isSome_of_mem hv2
          rw [hl] at hsome
          simp at hsome
    | some t =>
      simp only
      have hsorted : sortByLt t.children = sortByLt (Multimap.getAll A v) := by
        rcases hch v t hl with h | h
        · rw [h]
        · rw [h, sortByLt_idem]
      have hproj : ∀ u, (alookup (aupdate m v (fun t0 =>
          { t0 with children := sortByLt t.children })) u).map shaOf =
          (alookup m u).map shaOf := fun u =>
        @alookup_aupdate_proj _ shaOf
          (fun t0 => { t0 with children := sortByLt t.children })
          (fun t0 => rfl) m v u
      have hprojE : ∀ u, (alookup (aupdate m v (fun t0 =>
          { t0 with children := sortByLt t.children })) u).map Task.execution =
          (alookup m u).map Task.execution := fun u =>
        @alookup_aupdate_proj _ Task.execution
          (fun t0 => { t0 with children := sortByLt t.children })
          (fun t0 => rfl) m v u
      have hprojI : ∀ u, (alookup (aupdate m v (fun t0 =>
          { t0 with children := sortByLt t.children })) u).map idPG =
          (alookup m u).map idPG := fun u =>
        @alookup_aupdate_proj _ idPG
          (fun t0 => { t0 with children := sortByLt t.children })
          (fun t0 => rfl) m v u
      have hS2 : ∀ w, S w → shaOKAt A (aupdate m v (fun t0 =>
          { t0 with children := sortByLt t.children })) w := fun w hw =>
        shaOKAt_of_proj (hproj w) (fun c _ => hproj c) (hS w hw)
      have hch2 : ∀ w, childrenOKAt A (aupdate m v (fun t0 =>
          { t0 with children := sortByLt t.children })) w := by
        intro w t2 hl2
        by_cases hw : w = v
        · subst hw
          rw [alookup_aupdate_self, hl] at hl2
          simp only [Option.map_some'] at hl2
          have := Option.some.inj hl2
          right
          rw [← this, ← hsorted]
        · rw [alookup_aupdate_other _ _ hw] at hl2
          exact hch w t2 hl2
      have htid2 : ∀ w, w ∈ Multimap.taskIds A →
          w ∈ (aupdate m v (fun t0 =>
            { t0 with children := sortByLt t.children })).map Prod.fst := by
        intro w hw
        rw [aupdate_keys]
        exact htid w hw
      have hmedge : ∀ c ∈ sortByLt t.children, medge A v c := by
        intro c hc
        show c ∈ Multimap.getAll A v
        rw [hsorted] at hc
        exact mem_sortByLt.mp hc
      have hfl2 : ∀ c ∈ sortByLt t.children,
          ∀ l, List.Chain (medge A) c l → l.length < fuel := by
        intro c hc l hchain
        have := hfuel (c :: l) (List.Chain.cons (hmedge c hc) hchain)
        simpa using Nat.lt_of_succ_lt_succ (by simpa using this)
      obtain ⟨c1, c2, c3, c4, c5, c6⟩ :=
        hloop (sortByLt t.children) S
          (aupdate m v (fun t0 => { t0 with children := sortByLt t.children }))
          hS2 hSc hch2 htid2 hfl2
      have hnotreach : ∀ c ∈ sortByLt t.children, ¬ reachA A c v := by
        intro c hc hr
        exact hacyc ⟨v, Relation.TransGen.head' (hmedge c hc) hr⟩
      have hlv : alookup (shaDfsChildrenWith (shaDfs fuel)
          (sortByLt t.children) (aupdate m v (fun t0 =>
            { t0 with children := sortByLt t.children }))).1 v =
          some { t with children := sortByLt t.children } := by
        rw [c2 v hnotreach, alookup_aupdate_self, hl]
        rfl
      rw [hlv]
      simp only
      have hshaV : ({ t with children := sortByLt t.children } :
          Task).children.map (fun c =>
            match alookup (shaDfsChildrenWith (shaDfs fuel)
              (sortByLt t.children) (aupdate m v (fun t0 =>
                { t0 with children := sortByLt t.children }))).1 c with
            | some ct => ct.subtreeSha
            | none => "") =
          (sortByLt t.children).map (shaIn (shaDfsChildrenWith (shaDfs fuel)
            (sortByLt t.children) (aupdate m v (fun t0 =>
              { t0 with children := sortByLt t.children }))).1) := rfl
      by_cases hsha : ({ t with children := sortByLt t.children } :
          Task).subtreeSha = sha256
          (({ t with children := sortByLt t.children } : Task).taskId ::
          ({ t with children := sortByLt t.children } : Task).children.map
            (fun c => match alookup (shaDfsChildrenWith (shaDfs fuel)
              (sortByLt t.children) (aupdate m v (fun t0 =>
                { t0 with children := sortByLt t.children }))).1 c with
              | some ct => ct.subtreeSha
              | none => ""))
      · rw [if_pos hsha]
        refine ⟨c1, ?_, ?_, ?_, fun w => (c5 w).trans (hprojI w), ?_⟩
        · intro w hnr
          have hwv : w ≠ v := fun h =>
            hnr (h ▸ Relation.ReflTransGen.refl)
          rw [c2 w (fun c hc hr =>
            hnr (Relation.ReflTransGen.head (hmedge c hc) hr))]
          exact alookup_aupdate_other _ _ hwv
        · intro w hSw
          exact (c3 w hSw).trans (hproj w)
        · intro w hw
          rcases hw with hSw | hr
          · exact c4 w (Or.inl hSw)
          · rcases Relation.ReflTransGen.cases_head hr with heq | ⟨c, hvc, hcw⟩
            · subst heq
              intro t2 hl2
              rw [hlv] at hl2
              have ht2 := Option.some.inj hl2
              rw [← ht2]
              show t.subtreeSha = _
              have hs := hsha
              rw [hshaV] at hs
              rw [show ({ t with children := sortByLt t.children } :
                Task).subtreeSha = t.subtreeSha from rfl] at hs
              rw [hs, ← hsorted]
            · refine c4 w (Or.inr ⟨c, ?_, hcw⟩)
              rw [hsorted]
              exact mem_sortByLt.mpr hvc
        · intro hdone
          obtain ⟨hev, hex⟩ := c6 (fun c hc w hw =>
            hdone w (Relation.ReflTransGen.head (hmedge c hc) hw))
          exact ⟨hev, fun w => (hex w).trans (hprojE w)⟩
      · rw [if_neg hsha]
        have hvnotS : ¬ S v := by
          intro hvS
          apply hsha
          rw [hshaV]
          have hok := hS v hvS t hl
          show t.subtreeSha = sha256 (t.taskId :: _)
          rw [hok, ← hsorted]
          congr 1
          congr 1
          apply List.map_congr_left
          intro c hcm
          have hcS : S c := hSc v c hvS (hmedge c hcm)
          exact (shaIn_of_proj ((c3 c hcS).trans (hproj c))).symm
        refine ⟨?_, ?_, ?_, ?_, ?_, ?_⟩
        · intro w t2 hl2
          by_cases hw : w = v
          · subst hw
            rw [alookup_aupdate_self, hlv] at hl2
            simp only [Option.map_some'] at hl2
            have ht2 := Option.some.inj hl2
            right
            rw [← ht2, ← hsorted]
            cases hE : t.execution <;> simp [resetTask, hE]
          · rw [alookup_aupdate_other _ _ hw] at hl2
            exact c1 w t2 hl2
        · intro w hnr
          have hwv : w ≠ v := fun h =>
            hnr (h ▸ Relation.ReflTransGen.refl)
          rw [alookup_aupdate_other _ _ hwv]
          rw [c2 w (fun c hc hr =>
            hnr (Relation.ReflTransGen.head (hmedge c hc) hr))]
          exact alookup_aupdate_other _ _ hwv
        · intro w hSw
          have hwv : w ≠ v := fun h => hvnotS (h ▸ hSw)
          rw [alookup_aupdate_other _ _ hwv]
          exact (c3 w hSw).trans (hproj w)
        · intro w hw
          rcases hw with hSw | hr
          · have hwv : w ≠ v := fun h => hvnotS (h ▸ hSw)
            refine shaOKAt_of_proj ?_ ?_ (c4 w (Or.inl hSw))
            · rw [alookup_aupdate_other _ _ hwv]
            · intro c hmc
              have hcS : S c := hSc w c hSw hmc
              have hcv : c ≠ v := fun h => hvnotS (h ▸ hcS)
              rw [alookup_aupdate_other _ _ hcv]
          · rcases Relation.ReflTransGen.cases_head hr with heq | ⟨c, hvc, hcw⟩
            · subst heq
              intro t2 hl2
              rw [alookup_aupdate_self, hlv] at hl2
              simp only [Option.map_some'] at hl2
              have ht2 := Option.some.inj hl2
              rw [← ht2]
              have hresetSha : ∀ u : Task, (resetTask u).1.subtreeSha =
                  u.subtreeSha := by
                intro u
                unfold resetTask
                cases u.execution <;> rfl
              have hresetId : ∀ u : Task, (resetTask u).1.taskId =
                  u.taskId := by
                intro u
                unfold resetTask
                cases u.execution <;> rfl
              rw [hresetSha, hresetId]
              show sha256 _ = _
              congr 1
              rw [← hsorted]
              congr 1
              apply List.map_congr_left
              intro c hcm
              have hcv : c ≠ v := by
                intro h
                rw [h] at hcm
                exact hacyc ⟨v, Relation.TransGen.single (hmedge v hcm)⟩
              unfold shaIn
              rw [alookup_aupdate_other _ _ hcv]
            · have hwv : w ≠ v := by
                intro h
                exact hnotreach c (by rw [hsorted]; exact mem_sortByLt.mpr hvc)
                  (h ▸ hcw)
              have hok2 : shaOKAt A (shaDfsChildrenWith (shaDfs fuel)
                  (sortByLt t.children) (aupdate m v (fun t0 =>
                    { t0 with children := sortByLt t.children }))).1 w :=
                c4 w (Or.inr ⟨c, by rw [hsorted]; exact mem_sortByLt.mpr hvc,
                  hcw⟩)
              refine shaOKAt_of_proj ?_ ?_ hok2
              · rw [alookup_aupdate_other _ _ hwv]
              · intro c2 hmc
                have hcv : c2 ≠ v := by
                  intro h
                  rw [h] at hmc
                  exact hacyc ⟨v, Relation.TransGen.head' hvc
                    (Relation.ReflTransGen.tail hcw hmc)⟩
                rw [alookup_aupdate_other _ _ hcv]
        · intro w
          by_cases hw : w = v
          · subst hw
            rw [alookup_aupdate_self, hlv, hl]
            simp only [Option.map_some']
            cases hE : t.execution <;> simp [resetTask, idPG, hE]
          · rw [alookup_aupdate_other _ _ hw]
            exact (c5 w).trans (hprojI w)
        · intro hdone
          exact absurd (hdone v Relation.ReflTransGen.refl) hvnotS

/-- The root loop of the sha phase establishes sha consistency on the union
of the reachable cones of the processed roots, keeps the stored children
consistent and preserves id/parents/generation everywhere. -/
theorem shaDfsRoots_establish (A : Multimap) (hacyc : ¬ hasCycle A)
    (fuel : Nat) :
    ∀ (rs : List String) (S : String → Prop) (m : List (String × Task)),
      (∀ w, S w → shaOKAt A m w) →
      (∀ w c, S w → medge A w c → S c) →
      (∀ w, childrenOKAt A m w) →
      (∀ w, w ∈ Multimap.taskIds A → w ∈ m.map Prod.fst) →
      (∀ v l, List.Chain (medge A) v l → l.length < fuel) →
      (∀ w, (S w ∨ ∃ r ∈ rs, reachA A r w) →
        shaOKAt A (shaDfsRoots fuel rs m).1 w) ∧
      (∀ w, childrenOKAt A (shaDfsRoots fuel rs m).1 w) ∧
      (∀ w, (alookup (shaDfsRoots fuel rs m).1 w).map idPG =
        (alookup m w).map idPG) := by
  intro rs
  induction rs with
  | nil =>
    intro S m hS _ hch _ _
    refine ⟨?_, hch, fun w => rfl⟩
    intro w hw
    rcases hw with h1 | ⟨r, hr, _⟩
    · exact hS w h1
    · simp at hr
  | cons r rest ihr =>
    intro S m hS hSc hch htid hfl
    obtain ⟨d1, d2, d3, d4, d5, d6⟩ :=
      shaPost_all A hacyc fuel S r m hS hSc hch htid (hfl r)
    have htid2 : ∀ w, w ∈ Multimap.taskIds A →
        w ∈ (shaDfs fuel r m).1.map Prod.fst := by
      intro w hw
      rw [(shaDfs_keys fuel).1]
      exact htid w hw
    have hSc2 : ∀ w c, (S w ∨ reachA A r w) → medge A w c →
        (S c ∨ reachA A r c) := by
      intro w c hw hmw
      rcases hw with h1 | h2
      · exact Or.inl (hSc w c h1 hmw)
      · exact Or.inr (Relation.ReflTransGen.tail h2 hmw)
    obtain ⟨e1, e2, e3⟩ := ihr (fun w => S w ∨ reachA A r w)
      (shaDfs fuel r m).1 d4 hSc2 d1 htid2 hfl
    unfold shaDfsRoots
    dsimp only
    refine ⟨?_, e2, fun w => (e3 w).trans (d5 w)⟩
    intro w hw
    refine e1 w ?_
    rcases hw with h1 | ⟨r2, hr2, hrw⟩
    · exact Or.inl (Or.inl h1)
    · rcases List.mem_cons.mp hr2 with rfl | h3
      · exact Or.inl (Or.inr hrw)
      · exact Or.inr ⟨r2, h3, hrw⟩

/-- When every node reachable from the roots already carries its canonical
sha, the root loop emits nothing and preserves every entry's execution, sha
and task id. -/
theorem shaDfsRoots_all_done (A : Multimap) (hacyc : ¬ hasCycle A)
    (fuel : Nat) :
    ∀ (rs : List String) (S : String → Prop) (m : List (String × Task)),
      (∀ w, S w → shaOKAt A m w) →
      (∀ w c, S w → medge A w c → S c) →
      (∀ w, childrenOKAt A m w) →
      (∀ w, w ∈ Multimap.taskIds A → w ∈ m.map Prod.fst) →
      (∀ v l, List.Chain (medge A) v l → l.length < fuel) →
      (∀ r ∈ rs, ∀ w, reachA A r w → S w) →
      (shaDfsRoots fuel rs m).2 = [] ∧
      (∀ w, (alookup (shaDfsRoots fuel rs m).1 w).map Task.execution =
        (alookup m w).map Task.execution) ∧
      (∀ w, (alookup (shaDfsRoots fuel rs m).1 w).map shaOf =
        (alookup m w).map shaOf) := by
  intro rs
  induction rs with
  | nil =>
    intro S m _ _ _ _ _ _
    exact ⟨rfl, fun w => rfl, fun w => rfl⟩
  | cons r rest ihr =>
    intro S m hS hSc hch htid hfl hdone
    obtain ⟨d1, d2, d3, d4, d5, d6⟩ :=
      shaPost_all A hacyc fuel S r m hS hSc hch htid (hfl r)
    obtain ⟨hev1, hex1⟩ := d6 (hdone r (List.mem_cons_self _ _))
    have htid2 : ∀ w, w ∈ Multimap.taskIds A →
        w ∈ (shaDfs fuel r m).1.map Prod.fst := by
      intro w hw
      rw [(shaDfs_keys fuel).1]
      exact htid w hw
    have hS2 : ∀ w, S w → shaOKAt A (shaDfs fuel r m).1 w := fun w hw =>
      d4 w (Or.inl hw)
    obtain ⟨hev2, hex2, hsha2⟩ := ihr S (shaDfs fuel r m).1 hS2 hSc d1 htid2
      hfl (fun r2 h2 => hdone r2 (List.mem_cons_of_mem _ h2))
    have hsha1 : ∀ w, (alookup (shaDfs fuel r m).1 w).map shaOf =
        (alookup m w).map shaOf := by
      intro w
      by_cases hSw : S w
      · exact d3 w hSw
      · rw [d2 w (fun hr => hSw (hdone r (List.mem_cons_self _ _) w hr))]
    unfold shaDfsRoots
    dsimp only
    refine ⟨?_, fun w => (hex2 w).trans (hex1 w),
      fun w => (hsha2 w).trans (hsha1 w)⟩
    rw [hev1, hev2]
    rfl

/-! Named phases of `setTasks` on a cycle-free adjacency, for relating two
consecutive calls. -/

def rmOf (A : Multimap) (st : TaskTree) :
    List (String × Task) × List Event :=
  removeAbsent (Multimap.taskIds A) st.tasks

def enOf (A : Multimap) (st : TaskTree) : List (String × Task) × Nat :=
  ensureTasks (Multimap.taskIds A) (rmOf A st).1 st.nextObjId

def mlOf (A : Multimap) (st : TaskTree) : List (String × Task) :=
  addLinks A (Multimap.keysList A) (enOf A st).1

def rootsOf (A : Multimap) (st : TaskTree) : List String :=
  sortByLt (rootsView (mlOf A st))

def shOf (A : Multimap) (st : TaskTree) :
    List (String × Task) × List Event :=
  shaDfsRoots ((mlOf A st).length + 1) (rootsOf A st) (mlOf A st)

def csOf (A : Multimap) (st : TaskTree) : TaskTree × List Event :=
  computeTreeStatus { st with
    tasks := (shOf A st).1, roots := rootsOf A st,
    nextObjId := (enOf A st).2 }

theorem setTasks_eq_of_acyclic {A : Multimap}
    (hacycF : findDependencyCycle A = none) (st : TaskTree) :
    setTasks A st = (none, (csOf A st).1,
      (rmOf A st).2 ++ (shOf A st).2 ++ (csOf A st).2) := by
  unfold setTasks
  rw [hacycF]
  rfl

theorem computeTreeStatus_no_taskReset (st : TaskTree) (id : String)
    (eid : Nat) : Event.taskReset id eid ∉ (computeTreeStatus st).2 := by
  have hset : ∀ ts, Event.taskReset id eid ∉ (setTreeStatus st ts).2 := by
    intro ts
    unfold setTreeStatus
    by_cases h : st.status = ts
    · rw [if_pos h]
      simp
    · rw [if_neg h]
      simp
  unfold computeTreeStatus
  dsimp only
  split <;> exact hset _

theorem map_taskId_of_idPG {o o' : Option Task}
    (h : o.map idPG = o'.map idPG) :
    o.map Task.taskId = o'.map Task.taskId := by
  cases o <;> cases o' <;> simp_all [idPG, Prod.mk.injEq]

theorem map_subtreeSha_of_shaOf {o o' : Option Task}
    (h : o.map shaOf = o'.map shaOf) :
    o.map Task.subtreeSha = o'.map Task.subtreeSha := by
  cases o <;> cases o' <;> simp_all [shaOf, Prod.mk.injEq]

theorem addLinks_cleared_childrenOK (A : Multimap)
    {m : List (String × Task)}
    (hclear : ∀ kv ∈ m, kv.2.children = [] ∧ kv.2.parents = []) :
    ∀ w, childrenOKAt A (addLinks A (Multimap.keysList A) m) w := by
  intro w t hl
  left
  refine addLinks_children_spec A (Multimap.keysList A) m ?_
    (by unfold Multimap.keysList; exact nodup_dedupF _) w t hl
  intro v t2 hl2
  have hcl := hclear _ (alookup_mem hl2)
  constructor
  · intro _
    exact hcl.1
  · intro hnin
    rw [hcl.1, getAll_eq_nil_of_not_key hnin]

theorem chains_short (A : Multimap) (hacyc : ¬ hasCycle A)
    {m : List (String × Task)}
    (htid : ∀ w, w ∈ Multimap.taskIds A → w ∈ m.map Prod.fst) :
    ∀ v l, List.Chain (medge A) v l → l.length < m.length + 1 := by
  intro v l hch
  have h1 := chain_length_le hacyc htid hch
  rw [List.length_map] at h1
  omega

/-- C5: for every acyclic adjacency multimap and every well-formed tree
state, calling `setTasks` twice with the same adjacency makes the second
call reset nothing: it emits no `task_reset` event, preserves every stored
execution, and changes no task's `subtree_sha`. -/
theorem setTasks_twice_no_reset (A : Multimap) (s : TaskTree)
    (hacycF : findDependencyCycle A = none) (hwf : wfKeysM s.tasks) :
    (∀ id eid, Event.taskReset id eid ∉ (setTasks A (setTasks A s).2.1).2.2) ∧
    (∀ v, (alookup (setTasks A (setTasks A s).2.1).2.1.tasks v).map
        Task.execution =
      (alookup (setTasks A s).2.1.tasks v).map Task.execution) ∧
    (∀ v, (alookup (setTasks A (setTasks A s).2.1).2.1.tasks v).map
        Task.subtreeSha =
      (alookup (setTasks A s).2.1.tasks v).map Task.subtreeSha) := by
  have hacyc : ¬ hasCycle A := findDependencyCycle_none_acyclic hacycF
  -- call 1: the map is normalised
  have hrm1wf : wfKeysM (rmOf A s).1 := wf_removeAbsent _ hwf
  have hrm1keys : ∀ v, v ∈ (rmOf A s).1.map Prod.fst →
      v ∈ Multimap.taskIds A := by
    intro v hv
    rcases List.mem_map.mp hv with ⟨kv, hkv, rfl⟩
    exact (removeAbsent_entries _ _ kv hkv).2
  have hen1wf : wfKeysM (enOf A s).1 := wf_ensureTasks _ _ hrm1wf
  have hen1keys : ∀ v, v ∈ (enOf A s).1.map Prod.fst ↔
      v ∈ Multimap.taskIds A := by
    intro v
    unfold enOf
    rw [ensureTasks_mem_keys]
    constructor
    · rintro (h | h)
      · exact hrm1keys v h
      · exact h
    · exact Or.inr
  have hen1cleared : ∀ kv ∈ (enOf A s).1,
      kv.2.children = [] ∧ kv.2.parents = [] :=
    ensureTasks_cleared _ _ _
      (fun kv h => Or.inl ((removeAbsent_entries _ _ kv h).2))
  have hmlkeys : (mlOf A s).map Prod.fst = (enOf A s).1.map Prod.fst :=
    addLinks_keys _ _ _
  have hmlwf : wfKeysM (mlOf A s) := by
    unfold wfKeysM
    rw [hmlkeys]
    exact hen1wf
  have hch_ml1 : ∀ w, childrenOKAt A (mlOf A s) w :=
    addLinks_cleared_childrenOK A hen1cleared
  have htid_ml1 : ∀ w, w ∈ Multimap.taskIds A →
      w ∈ (mlOf A s).map Prod.fst := by
    intro w hw
    rw [hmlkeys]
    exact (hen1keys w).mpr hw
  have hfl_ml1 := chains_short A hacyc htid_ml1
  obtain ⟨est1, est2, est3⟩ := shaDfsRoots_establish A hacyc
    ((mlOf A s).length + 1) (rootsOf A s) (fun _ => False) (mlOf A s)
    (fun w h => h.elim) (fun w c h _ => h.elim) hch_ml1 htid_ml1 hfl_ml1
  have hQ4 : ∀ w, (∃ r ∈ rootsOf A s, reachA A r w) →
      shaOKAt A (shOf A s).1 w := fun w h => est1 w (Or.inr h)
  have hQ5idPG : ∀ v, (alookup (shOf A s).1 v).map idPG =
      (alookup (mlOf A s) v).map idPG := est3
  have hM1keys : (shOf A s).1.map Prod.fst = (mlOf A s).map Prod.fst :=
    shaDfsRoots_keys _ _ _
  have hMwf : wfKeysM (shOf A s).1 := by
    unfold wfKeysM
    rw [hM1keys, hmlkeys]
    exact hen1wf
  have hMkeys : ∀ v, v ∈ (shOf A s).1.map Prod.fst ↔
      v ∈ Multimap.taskIds A := by
    intro v
    rw [hM1keys, hmlkeys]
    exact hen1keys v
  have hQ2 : ∀ kv ∈ (shOf A s).1, kv.1 ∈ Multimap.taskIds A :=
    fun kv h => (hMkeys kv.1).mp (List.mem_map_of_mem Prod.fst h)
  have hQ3 : ∀ id ∈ Multimap.taskIds A, id ∈ (shOf A s).1.map Prod.fst :=
    fun id h => (hMkeys id).mpr h
  have hkv1 : kview (shOf A s).1 = kview (mlOf A s) :=
    kview_of_lookup _ _ hM1keys hMwf
      (fun v => map_taskId_of_idPG (hQ5idPG v))
  have hml_taskId : ∀ v, (alookup (mlOf A s) v).map Task.taskId =
      (alookup (enOf A s).1 v).map Task.taskId :=
    fun v => addLinks_proj Task.taskId (fun t c => rfl) (fun t k => rfl)
      A _ _ v
  have hkv2 : kview (mlOf A s) = kview (enOf A s).1 :=
    kview_of_lookup _ _ hmlkeys hmlwf hml_taskId
  have hkvM : kview (shOf A s).1 = kview (enOf A s).1 := hkv1.trans hkv2
  -- call 2: the phases are identities up to link rebuilding
  have hst1tasks : (csOf A s).1.tasks = (shOf A s).1 := by
    unfold csOf
    rw [computeTreeStatus_tasks]
  have hrm2 : rmOf A (csOf A s).1 = ((shOf A s).1, []) := by
    unfold rmOf
    rw [hst1tasks]
    exact removeAbsent_id_of_all_kept _ _ hQ2
  have hen2eq : (enOf A (csOf A s).1).1 =
      (ensureTasks (Multimap.taskIds A) (shOf A s).1
        (csOf A s).1.nextObjId).1 := by
    unfold enOf
    rw [hrm2]
  have hlook2 : ∀ v, alookup (enOf A (csOf A s).1).1 v =
      if v ∈ Multimap.taskIds A then
        (alookup (shOf A s).1 v).map clearLinks
      else alookup (shOf A s).1 v := by
    intro v
    rw [hen2eq]
    exact ensureTasks_lookup_all_present _ _ _ hQ3 v
  have hen2proj : ∀ {β : Type} (π : Task → β),
      (∀ t, π (clearLinks t) = π t) →
      ∀ v, (alookup (enOf A (csOf A s).1).1 v).map π =
        (alookup (shOf A s).1 v).map π := by
    intro β π hπ v
    rw [hlook2 v]
    by_cases hv : v ∈ Multimap.taskIds A
    · rw [if_pos hv]
      cases alookup (shOf A s).1 v <;> simp [hπ]
    · rw [if_neg hv]
  have hen2keys : (enOf A (csOf A s).1).1.map Prod.fst =
      (shOf A s).1.map Prod.fst := by
    rw [hen2eq]
    exact ensureTasks_keys_all_present _ _ _ hQ3
  have hen2wf : wfKeysM (enOf A (csOf A s).1).1 := by
    unfold wfKeysM
    rw [hen2keys]
    exact hMwf
  have hen2cleared : ∀ kv ∈ (enOf A (csOf A s).1).1,
      kv.2.children = [] ∧ kv.2.parents = [] := by
    rw [hen2eq]
    exact ensureTasks_cleared _ _ _ (fun kv h => Or.inl (hQ2 kv h))
  have hkv3 : kview (enOf A (csOf A s).1).1 = kview (shOf A s).1 :=
    kview_of_lookup _ _ hen2keys hen2wf
      (fun v => hen2proj Task.taskId (fun t => rfl) v)
  have hlv : linkView (enOf A (csOf A s).1).1 = linkView (enOf A s).1 :=
    linkView_of_kview_cleared _ _ (hkv3.trans hkvM) hen2cleared hen1cleared
  have hlvml : linkView (mlOf A (csOf A s).1) = linkView (mlOf A s) :=
    linkView_addLinks A (Multimap.keysList A) _ _ hlv
  have hroots2 : rootsOf A (csOf A s).1 = rootsOf A s := by
    unfold rootsOf
    rw [rootsView_eq_of_linkView _ _ hlvml]
  have hml2keys : (mlOf A (csOf A s).1).map Prod.fst =
      (shOf A s).1.map Prod.fst := by
    unfold mlOf
    rw [addLinks_keys, hen2keys]
  have htid_ml2 : ∀ w, w ∈ Multimap.taskIds A →
      w ∈ (mlOf A (csOf A s).1).map Prod.fst := by
    intro w hw
    rw [hml2keys]
    exact hQ3 w hw
  have hch_ml2 : ∀ w, childrenOKAt A (mlOf A (csOf A s).1) w :=
    addLinks_cleared_childrenOK A hen2cleared
  have hfl_ml2 := chains_short A hacyc htid_ml2
  have hml2proj : ∀ {β : Type} (π : Task → β),
      (∀ t c, π { t with children := t.children ++ [c] } = π t) →
      (∀ t k, π { t with parents := t.parents ++ [k] } = π t) →
      (∀ t, π (clearLinks t) = π t) →
      ∀ v, (alookup (mlOf A (csOf A s).1) v).map π =
        (alookup (shOf A s).1 v).map π := by
    intro β π h1 h2 h3 v
    unfold mlOf
    rw [addLinks_proj π h1 h2]
    exact hen2proj π h3 v
  have hS2 : ∀ w, (∃ r ∈ rootsOf A s, reachA A r w) →
      shaOKAt A (mlOf A (csOf A s).1) w := by
    intro w hw
    refine shaOKAt_of_proj ?_ ?_ (hQ4 w hw)
    · exact hml2proj shaOf (fun t c => rfl) (fun t k => rfl)
        (fun t => rfl) w
    · intro c _
      exact hml2proj shaOf (fun t c => rfl) (fun t k => rfl)
        (fun t => rfl) c
  have hSc2 : ∀ w c, (∃ r ∈ rootsOf A s, reachA A r w) → medge A w c →
      (∃ r ∈ rootsOf A s, reachA A r c) := by
    rintro w c ⟨r, hr, hrw⟩ hm
    exact ⟨r, hr, Relation.ReflTransGen.tail hrw hm⟩
  obtain ⟨hev2, hexec2, hsha2⟩ := shaDfsRoots_all_done A hacyc
    ((mlOf A (csOf A s).1).length + 1) (rootsOf A (csOf A s).1)
    (fun w => ∃ r ∈ rootsOf A s, reachA A r w) (mlOf A (csOf A s).1)
    hS2 hSc2 hch_ml2 htid_ml2 hfl_ml2
    (by rw [hroots2]; intro r hr w hw; exact ⟨r, hr, hw⟩)
  have hst2tasks : (csOf A (csOf A s).1).1.tasks =
      (shOf A (csOf A s).1).1 := by
    unfold csOf
    rw [computeTreeStatus_tasks]
  -- assemble the three conclusions
  rw [setTasks_eq_of_acyclic hacycF s]
  dsimp only
  rw [setTasks_eq_of_acyclic hacycF ((csOf A s).1)]
  dsimp only
  refine ⟨?_, ?_, ?_⟩
  · intro id eid
    rw [hrm2]
    have hsh2ev : (shOf A (csOf A s).1).2 = [] := hev2
    rw [hsh2ev]
    simp only [List.nil_append]
    unfold csOf
    exact computeTreeStatus_no_taskReset _ id eid
  · intro v
    rw [hst2tasks, hst1tasks]
    have h1 : (alookup (shOf A (csOf A s).1).1 v).map Task.execution =
        (alookup (mlOf A (csOf A s).1) v).map Task.execution := hexec2 v
    exact h1.trans (hml2proj Task.execution (fun t c => rfl)
      (fun t k => rfl) (fun t => rfl) v)
  · intro v
    rw [hst2tasks, hst1tasks]
    have h1 : (alookup (shOf A (csOf A s).1).1 v).map shaOf =
        (alookup (mlOf A (csOf A s).1) v).map shaOf := hsha2 v
    exact map_subtreeSha_of_shaOf (h1.trans (hml2proj shaOf
      (fun t c => rfl) (fun t k => rfl) (fun t => rfl) v))

/-- Concrete acyclic adjacency (`a` depends on `b`) for exercising the
double-`setTasks` theorem. -/
def c5A : Multimap := [("a", ["b"]), ("b", [])]

theorem setTasks_twice_no_reset_witness :
    findDependencyCycle c5A = none ∧
    wfKeysM (TaskTree.init 2).tasks ∧
    Event.taskReset "a" 0 ∉
      (setTasks c5A (setTasks c5A (TaskTree.init 2)).2.1).2.2 :=
  ⟨by decide, by simp [wfKeysM, TaskTree.init],
    (setTasks_twice_no_reset c5A (TaskTree.init 2)
      (by decide) (by simp [wfKeysM, TaskTree.init])).1 "a" 0⟩
end Kubik
